import Mathlib

/-!
Corpochain ledger core: a shallow embedding.

The definitions below follow `corpochain/core` (`blockchain.go`, `db.go`, `tx.go`,
`txinput.go`, `txoutput.go`, `utxoset.go`, `proof_of_work.go`, `wallet.go`, `utils.go`).

* A Go `[]byte` is a `List (Fin 256)`; a `nil` slice and an empty slice are both `[]`.
* A Go `int` is an `Int`; the nonce counter of the mining loop is a `Nat` in `[0, maxNonce]`.
* Library code outside the repository (SHA-256, RIPEMD-160, Base58, gob, ECDSA) is a
  field of `Prims`; every definition that reaches it takes a `Prims` argument.
* A Go call either returns, returns an error value, panics, or never returns: `Res`.
* A `*Transaction` or `*Block` is never nil; a Go map and a bolt bucket are finite maps (`KV`).
-/

namespace Corpochain

/-- Go byte slice. -/
abbrev Bytes := List (Fin 256)

/-- TXInput of `txinput.go`. -/
structure TXInput where
  Txid : Bytes
  Vout : Int
  Signature : Bytes
  PubKey : Bytes
deriving DecidableEq, Repr

/-- TXOutput of `txoutput.go`. -/
structure TXOutput where
  Value : Int
  PubKeyHash : Bytes
deriving DecidableEq, Repr

/-- TXOutputs of `txoutput.go`. -/
structure TXOutputs where
  Outputs : List TXOutput
deriving DecidableEq, Repr

/-- Transaction of `tx.go`. -/
structure Transaction where
  ID : Bytes
  Vin : List TXInput
  Vout : List TXOutput
deriving DecidableEq, Repr

/-- Block of `blockchain.go`. -/
structure Block where
  Timestamp : Int
  Transactions : List Transaction
  PrevBlockHash : Bytes
  Hash : Bytes
  Nonce : Int
deriving DecidableEq, Repr

/-- The fields of `ecdsa.PrivateKey`: the public point and the secret scalar. -/
structure PrivateKey where
  X : Nat
  Y : Nat
  D : Nat
deriving DecidableEq, Repr

/-- Wallet of `wallet.go`. -/
structure Wallet where
  PrivateKey : PrivateKey
  PublicKey : Bytes
deriving DecidableEq, Repr

/-- Library primitives the ledger calls. `sha256` is `sha256.Sum256` (a `[32]byte`, hence the
length law), `ripemd160` the RIPEMD-160 hasher, `Base58Decode`/`Base58Encode` the address
codec, `gobTx` the gob encoding of a `Transaction` (`Transaction.Serialize`), `ecdsaVerify x y
digest r s` is `ecdsa.Verify` on P-256 and `ecdsaSign key digest` is `ecdsa.Sign` (`none` when
it returns an error). -/
structure Prims where
  sha256 : Bytes → Bytes
  sha256_length : ∀ x, (sha256 x).length = 32
  ripemd160 : Bytes → Bytes
  Base58Decode : Bytes → Bytes
  Base58Encode : Bytes → Bytes
  gobTx : Transaction → Bytes
  ecdsaVerify : Nat → Nat → Bytes → Nat → Nat → Bool
  ecdsaSign : PrivateKey → Bytes → Option (Nat × Nat)

/-- Error values returned by the ledger or by the key-value store. -/
inductive Err where
  | notFound        -- "Transaction is not found"
  | invalidTx       -- "Invalid Transaction"
  | noFunds         -- "ERROR: Not enough funds"
  | keyRequired     -- bolt.ErrKeyRequired
  | keyTooLarge     -- bolt.ErrKeyTooLarge
  | bucketExists    -- bolt.ErrBucketExists
  | bucketNotFound  -- bolt.ErrBucketNotFound
deriving DecidableEq, Repr

/-- Outcome of a Go call: a normal return, a returned `error`, a run-time panic
(`log.Panic`, nil dereference, index or slice out of range), or no return at all. -/
inductive Res (α : Type) where
  | ok (a : α)
  | error (e : Err)
  | panic
  | hang
deriving DecidableEq, Repr

/-- Sequencing of Go calls: anything but a normal return ends the caller too. -/
def Res.bind {α β : Type} (r : Res α) (f : α → Res β) : Res β :=
  match r with
  | .ok a => f a
  | .error e => .error e
  | .panic => .panic
  | .hang => .hang

/-- The value a call returned, `d` when it did not return normally. -/
def Res.getD {α : Type} (r : Res α) (d : α) : α :=
  match r with
  | .ok a => a
  | _ => d

/-! ## Proof of work (`proof_of_work.go`) -/

def targetBits : Nat := 8

/-- The constant `math.MaxInt64`. -/
def maxNonce : Nat := 9223372036854775807

/-- ProofOfWork of `proof_of_work.go`; `target` is the `*big.Int`. -/
structure ProofOfWork where
  block : Block
  target : Nat
deriving DecidableEq, Repr

/-- `big.NewInt(1)` shifted left by `256 - targetBits`. -/
def NewProofOfWork (b : Block) : ProofOfWork :=
  ⟨b, 1 <<< (256 - targetBits)⟩

/-- `big.Int.SetBytes`: the bytes read as an unsigned big-endian integer. -/
def bytesToNat (b : Bytes) : Nat :=
  b.foldl (fun acc x => acc * 256 + x.val) 0

/-- `IntToHex`: `binary.Write` of an `int64` in big-endian order, 8 bytes, two's complement. -/
def IntToHex (num : Int) : Bytes :=
  let u := (num % 18446744073709551616).toNat
  (List.range 8).map fun i => ⟨u / 256 ^ (7 - i) % 256, Nat.mod_lt _ (by decide)⟩

/-- `Block.HashTransactions`: SHA-256 of the transaction IDs joined in list order. -/
def HashTransactions (P : Prims) (b : Block) : Bytes :=
  P.sha256 (b.Transactions.map (fun tx => tx.ID)).flatten

/-- `ProofOfWork.serializeData`. -/
def serializeData (P : Prims) (pow : ProofOfWork) (nonce : Int) : Bytes :=
  pow.block.PrevBlockHash ++ HashTransactions P pow.block ++ IntToHex pow.block.Timestamp
    ++ IntToHex (targetBits : Int) ++ IntToHex nonce

/-- The `for nonce < maxNonce` loop of `ProofOfWork.Run`, from the state `(nonce, hash)`.
The first argument only bounds the recursion: `Run` starts it at `maxNonce`, which is the
number of iterations left when `nonce = 0`. -/
def Run.loop (P : Prims) (pow : ProofOfWork) : Nat → Nat → Bytes → Nat × Bytes
  | 0, nonce, hash => (nonce, hash)
  | fuel + 1, nonce, hash =>
    if nonce < maxNonce then
      let hash1 := P.sha256 (serializeData P pow (nonce : Int))
      if bytesToNat hash1 < pow.target then (nonce, hash1)
      else Run.loop P pow fuel (nonce + 1) hash1
    else (nonce, hash)

/-- `ProofOfWork.Run`: `hash` starts as the zero `[32]byte`. -/
def Run (P : Prims) (pow : ProofOfWork) : Nat × Bytes :=
  Run.loop P pow maxNonce 0 (List.replicate 32 0)

/-- `ProofOfWork.Validate`: `hashInt.Cmp(pow.target) == 1`. -/
def Validate (P : Prims) (pow : ProofOfWork) : Bool :=
  decide (pow.target < bytesToNat (P.sha256 (serializeData P pow pow.block.Nonce)))

/-- `MineBlock`; `now` is the value of `time.Now().Unix()`. The logged `Validate()` call has
no effect on the result. -/
def MineBlock (P : Prims) (now : Int) (transactions : List Transaction) (prevBlockHash : Bytes) :
    Block :=
  let block : Block := ⟨now, transactions, prevBlockHash, [], 0⟩
  let pow := NewProofOfWork block
  let (nonce, hash) := Run P pow
  { block with Hash := hash, Nonce := (nonce : Int) }

/-- `NewGenesisBlock`. -/
def NewGenesisBlock (P : Prims) (now : Int) (coinbase : Transaction) : Block :=
  MineBlock P now [coinbase] []

/-! ## The key-value store (bolt, as used by `db.go` and `utxoset.go`) -/

/-- Key order of a bolt bucket (`bytes.Compare` is negative). -/
def bytesLt : Bytes → Bytes → Bool
  | [], [] => false
  | [], _ :: _ => true
  | _ :: _, [] => false
  | a :: as, b :: bs => if a < b then true else if b < a then false else bytesLt as bs

/-- A finite map with byte-string keys, entries kept in key order. It stands for a bolt bucket
and for a Go `map[string]T` whose keys are `hex.EncodeToString` of a byte string (the key is
then the byte string itself; ranging over the map visits the entries in key order, one of the
orders Go allows). -/
abbrev KV (α : Type) := List (Bytes × α)

/-- Lookup: `Bucket.Get`, or a map index expression. -/
def KV.get {α : Type} (m : KV α) (key : Bytes) : Option α :=
  match m with
  | [] => none
  | (k, v) :: rest => if k = key then some v else KV.get rest key

/-- Whether a key is present. -/
def KV.has {α : Type} (m : KV α) (key : Bytes) : Bool :=
  m.any fun e => decide (e.1 = key)

/-- A new key takes its place in key order. -/
def KV.place {α : Type} (m : KV α) (key : Bytes) (v : α) : KV α :=
  match m with
  | [] => [(key, v)]
  | (k, w) :: rest =>
    if bytesLt key k then (key, v) :: (k, w) :: rest else (k, w) :: KV.place rest key v

/-- Insert or overwrite: a successful `Bucket.Put`, or a map assignment. -/
def KV.insert {α : Type} (m : KV α) (key : Bytes) (v : α) : KV α :=
  if m.has key then m.map fun e => if e.1 = key then (key, v) else e
  else m.place key v

/-- `Bucket.Delete`: removing an absent key is not an error. -/
def KV.erase {α : Type} (m : KV α) (key : Bytes) : KV α :=
  m.filter (fun e => decide (e.1 ≠ key))

/-- `Bucket.Put`: an empty key is `ErrKeyRequired`, a key above `MaxKeySize` (32768) is
`ErrKeyTooLarge`. Values are kept decoded, so `ErrValueTooLarge` (an encoding above 2 GiB)
does not arise. -/
def KV.put {α : Type} (m : KV α) (key : Bytes) (v : α) : Res (KV α) :=
  if key.length = 0 then .error .keyRequired
  else if 32768 < key.length then .error .keyTooLarge
  else .ok (m.insert key v)

/-- The constant `lastHashKey`, the bytes of "l". -/
def lastHashKey : Bytes := [108]

/-- The bucket `blocks`. Its keys are block hashes, each holding the gob encoding of a block,
and the key `l`, holding the tip hash. `blocks` is the part under the block hashes, stored as
the decoded values (gob decoding inverts gob encoding); `last` is the value under `l`. -/
structure BlocksBucket where
  blocks : KV Block
  last : Option Bytes
deriving DecidableEq, Repr

/-- The bolt database of a node: every bucket is absent (`none`) until created. -/
structure DB where
  blocksBucket : Option BlocksBucket
  utxoBucket : Option (KV TXOutputs)
deriving DecidableEq, Repr

/-- A freshly opened, empty database file. -/
def DB.empty : DB := ⟨none, none⟩

/-- The zero `Block`, which `DeserializeBlock` returns when gob decoding fails (the error is
dropped), in particular for the `nil` that `Bucket.Get` returns for an absent key. -/
def zeroBlock : Block := ⟨0, [], [], [], 0⟩

/-- `dbSession.GetLastHash`; `tx.Bucket` returns nil for an absent bucket and `b.Get` then
dereferences nil. -/
def GetLastHash (db : DB) : Res Bytes :=
  match db.blocksBucket with
  | none => .panic
  | some bb => .ok (bb.last.getD [])

/-- `dbSession.GetBlockchain`; `none` is the Go `nil`. -/
def GetBlockchain (db : DB) : Option Bytes :=
  match db.blocksBucket with
  | none => none
  | some bb => bb.last

/-- `dbSession.GetBlockByHash`. The value under the key `l` is a hash, not a gob stream, so
decoding it fails like decoding `nil` does. -/
def GetBlockByHash (db : DB) (hash : Bytes) : Res Block :=
  match db.blocksBucket with
  | none => .panic
  | some bb => .ok (if hash = lastHashKey then zeroBlock else (bb.blocks.get hash).getD zeroBlock)

/-- The two `Put`s of `InsertNewBlock` and of `CreateBlockchain` on the bucket: the block
under its hash, then the hash under `l` (which overwrites the block when the hash is `l`). -/
def BlocksBucket.putBlock (bb : BlocksBucket) (b : Block) : Res BlocksBucket :=
  (bb.blocks.put b.Hash b).bind fun blocks =>
    .ok (if b.Hash = lastHashKey then ⟨bb.blocks, some b.Hash⟩ else ⟨blocks, some b.Hash⟩)

/-- `dbSession.InsertNewBlock`: one bolt transaction, nothing is written when it fails. -/
def InsertNewBlock (db : DB) (newBlock : Block) (_lastHash : Bytes) : Res DB :=
  match db.blocksBucket with
  | none => .panic
  | some bb => (bb.putBlock newBlock).bind fun bb1 => .ok { db with blocksBucket := some bb1 }

/-! ## Transactions (`tx.go`, `txinput.go`, `txoutput.go`, `wallet.go`) -/

def subsidy : Int := 1000

/-- The constant `genesisCoinbaseData`, the bytes of "This is genesis data". -/
def genesisCoinbaseData : Bytes :=
  [84, 104, 105, 115, 32, 105, 115, 32, 103, 101, 110, 101, 115, 105, 115, 32, 100, 97, 116, 97]

/-- Go `int` arithmetic wraps around at 64 bits. -/
def wrap64 (x : Int) : Int :=
  (x + 9223372036854775808) % 18446744073709551616 - 9223372036854775808

/-- `HashPublicKey`: RIPEMD-160 of SHA-256 (the hasher's `Write` never fails). -/
def HashPublicKey (P : Prims) (pubKey : Bytes) : Bytes :=
  P.ripemd160 (P.sha256 pubKey)

/-- The slice expression `pubKeyHash[1 : len(pubKeyHash)-4]` applied to the Base58 decoding
of an address; it panics unless the decoding has at least 5 bytes. -/
def addressPubKeyHash (P : Prims) (address : Bytes) : Res Bytes :=
  let d := P.Base58Decode address
  if 5 ≤ d.length then .ok ((d.take (d.length - 4)).drop 1) else .panic

/-- `TXInput.UsesKey`. -/
def TXInput.UsesKey (P : Prims) (inp : TXInput) (pubKeyHash : Bytes) : Bool :=
  decide (HashPublicKey P inp.PubKey = pubKeyHash)

/-- `TXOutput.IsLockedWith`. -/
def TXOutput.IsLockedWith (out : TXOutput) (pubKeyHash : Bytes) : Bool :=
  decide (out.PubKeyHash = pubKeyHash)

/-- `NewTXOutput`, with `TXOutput.Lock` inlined. -/
def NewTXOutput (P : Prims) (value : Int) (address : Bytes) : Res TXOutput :=
  (addressPubKeyHash P address).bind fun pubKeyHash => .ok ⟨value, pubKeyHash⟩

/-- `Transaction.IsCoinbase`. -/
def Transaction.IsCoinbase (tx : Transaction) : Bool :=
  match tx.Vin with
  | [inp] => decide (inp.Txid.length = 0) && decide (inp.Vout = -1)
  | _ => false

/-- `Transaction.Hash`: SHA-256 of the gob encoding of a copy whose ID is empty. -/
def Transaction.Hash (P : Prims) (tx : Transaction) : Bytes :=
  P.sha256 (P.gobTx { tx with ID := [] })

/-- `NewCoinbaseTx`; `rnd` is the hexadecimal rendering of the 20 random bytes that replace
an empty `data`. -/
def NewCoinbaseTx (P : Prims) (to_ data rnd : Bytes) : Res Transaction :=
  let data1 := if data = [] then rnd else data
  let txin : TXInput := ⟨[], -1, [], data1⟩
  (NewTXOutput P subsidy to_).bind fun txout =>
    let tx : Transaction := ⟨[], [txin], [txout]⟩
    .ok { tx with ID := tx.Hash P }

/-- `Transaction.TrimmedCopy`. -/
def Transaction.TrimmedCopy (tx : Transaction) : Transaction :=
  ⟨tx.ID, tx.Vin.map (fun vin => ⟨vin.Txid, vin.Vout, [], []⟩),
    tx.Vout.map (fun vout => ⟨vout.Value, vout.PubKeyHash⟩)⟩

/-- Assignment to one element of a slice of inputs, `vins[i] = f(vins[i])`. -/
def modifyAt (f : TXInput → TXInput) : Nat → List TXInput → List TXInput
  | _, [] => []
  | 0, x :: xs => f x :: xs
  | i + 1, x :: xs => x :: modifyAt f i xs

/-- Indexing `outs[i]` with a Go `int`: `none` is the index-out-of-range panic. -/
def outputAt (outs : List TXOutput) (i : Int) : Option TXOutput :=
  if 0 ≤ i then outs.get? i.toNat else none

/-- The digest that `Sign` signs and `Verify` checks for input `inID`: the three assignments
to `txCopy` before `ecdsa.Sign`/`ecdsa.Verify`. The result is `txCopy` after them, whose `ID`
is the digest; `none` is the panic of `prevTx.Vout[vin.Vout]` on a nil `prevTx` or an index
out of range. -/
def inputDigest (P : Prims) (prevTXs : KV Transaction) (txCopy : Transaction) (inID : Nat)
    (vin : TXInput) : Option Transaction :=
  match prevTXs.get vin.Txid with
  | none => none
  | some prevTx =>
    match outputAt prevTx.Vout vin.Vout with
    | none => none
    | some prevOut =>
      let c1 := { txCopy with Vin := modifyAt (fun i => { i with Signature := [] }) inID txCopy.Vin }
      let c2 := { c1 with Vin := modifyAt (fun i => { i with PubKey := prevOut.PubKeyHash }) inID c1.Vin }
      let c3 := { c2 with ID := c2.Hash P }
      some { c3 with Vin := modifyAt (fun i => { i with PubKey := [] }) inID c3.Vin }

/-- The loop of `Transaction.Verify` from input number `inID` on. -/
def Verify.loop (P : Prims) (prevTXs : KV Transaction) :
    Nat → List TXInput → Transaction → Res Bool
  | _, [], _ => .ok true
  | inID, vin :: rest, txCopy =>
    match inputDigest P prevTXs txCopy inID vin with
    | none => .panic
    | some txCopy1 =>
      let sigLen := vin.Signature.length
      let r := bytesToNat (vin.Signature.take (sigLen / 2))
      let s := bytesToNat (vin.Signature.drop (sigLen / 2))
      let keyLen := vin.PubKey.length
      let x := bytesToNat (vin.PubKey.take (keyLen / 2))
      let y := bytesToNat (vin.PubKey.drop (keyLen / 2))
      if P.ecdsaVerify x y txCopy1.ID r s = false then .ok false
      else Verify.loop P prevTXs (inID + 1) rest txCopy1

/-- `Transaction.Verify`. -/
def Transaction.Verify (P : Prims) (tx : Transaction) (prevTXs : KV Transaction) : Res Bool :=
  Verify.loop P prevTXs 0 tx.Vin tx.TrimmedCopy

/-- `big.Int.Bytes`: the minimal big-endian encoding (empty for 0); the first argument bounds
the recursion. -/
def natToBytesAux : Nat → Nat → Bytes → Bytes
  | 0, _, acc => acc
  | fuel + 1, n, acc =>
    if n = 0 then acc else natToBytesAux fuel (n / 256) (⟨n % 256, Nat.mod_lt _ (by decide)⟩ :: acc)

def natToBytes (n : Nat) : Bytes := natToBytesAux n n []

/-- The loop of `Transaction.Sign` from input number `inID` on, over the inputs of `txCopy`
still to visit; the state is `(tx, txCopy)`. The result is the transaction with the signatures
stored so far and whether `ecdsa.Sign` succeeded on every input. -/
def Sign.loop (P : Prims) (privKey : PrivateKey) (prevTXs : KV Transaction) :
    Nat → List TXInput → Transaction → Transaction → Res (Transaction × Bool)
  | _, [], tx, _ => .ok (tx, true)
  | inID, vin :: rest, tx, txCopy =>
    match inputDigest P prevTXs txCopy inID vin with
    | none => .panic
    | some txCopy1 =>
      match P.ecdsaSign privKey txCopy1.ID with
      | none => .ok (tx, false)
      | some (r, s) =>
        let signature := natToBytes r ++ natToBytes s
        let tx1 := { tx with Vin := modifyAt (fun i => { i with Signature := signature }) inID tx.Vin }
        Sign.loop P privKey prevTXs (inID + 1) rest tx1 txCopy1

/-- `Transaction.Sign`: the transaction as it is left and whether the returned error is nil. -/
def Transaction.Sign (P : Prims) (tx : Transaction) (privKey : PrivateKey)
    (prevTXs : KV Transaction) : Res (Transaction × Bool) :=
  if tx.IsCoinbase then .ok (tx, true)
  else Sign.loop P privKey prevTXs 0 tx.TrimmedCopy.Vin tx tx.TrimmedCopy

/-- The constant `version` of `wallet.go`. -/
def version : Fin 256 := 0

def addressChecksumLen : Nat := 4

/-- `checksum` of `wallet.go`: the first bytes of the double SHA-256. -/
def checksum (P : Prims) (payload : Bytes) : Bytes :=
  (P.sha256 (P.sha256 payload)).take addressChecksumLen

/-- `Wallet.GetAddress` (`HashPublicKey` never returns an error). -/
def Wallet.GetAddress (P : Prims) (w : Wallet) : Bytes :=
  let pubKeyHash := HashPublicKey P w.PublicKey
  let versionedPayload := [version] ++ pubKeyHash
  let fullPayload := versionedPayload ++ checksum P versionedPayload
  P.Base58Encode fullPayload

/-! ## The chain (`blockchain.go`, `db.go`) -/

/-- BlockchainIterator of `blockchain.go`; its `db` field is the session's store. -/
structure BlockchainIterator where
  currentHash : Bytes
deriving DecidableEq, Repr

/-- Blockchain of `blockchain.go`: the in-memory tip and the store behind `db`. The `Iterator`
field is re-created by `ResetIterator` at the start of every reader (and again when it
returns), so each walk below carries its iterator as a local value. -/
structure Blockchain where
  tip : Bytes
  db : DB
deriving DecidableEq, Repr

/-- `dbSession.CreateBlockchain`. In the `b == nil` branch the source reads
`if err = b.Put(lastHashKey, genesis.Hash); err != nil {}` followed by `return err`, so the
closure returns right after the second `Put` and the assignment `tipHash = genesis.Hash`
below it is never reached: the returned hash is the nil `tipHash` in both branches. -/
def CreateBlockchain (P : Prims) (now : Int) (db : DB) (address : Bytes) : Res (Bytes × DB) :=
  (NewCoinbaseTx P address genesisCoinbaseData []).bind fun cbtx =>
    match db.blocksBucket with
    | none =>
      let genesis := NewGenesisBlock P now cbtx
      (BlocksBucket.putBlock ⟨[], none⟩ genesis).bind fun bb =>
        .ok ([], { db with blocksBucket := some bb })
    | some _ => .ok ([], db)

/-- `NewBlockchain` on the database file whose content is `db`. -/
def NewBlockchain (P : Prims) (now : Int) (db : DB) (address : Bytes) : Res Blockchain :=
  match GetBlockchain db with
  | some tipHash => .ok ⟨tipHash, db⟩
  | none => (CreateBlockchain P now db address).bind fun r => .ok ⟨r.1, r.2⟩

/-- `Blockchain.ResetIterator`. -/
def Blockchain.ResetIterator (bc : Blockchain) : BlockchainIterator :=
  ⟨bc.tip⟩

/-- `BlockchainIterator.Next`: the block and the advanced iterator. -/
def BlockchainIterator.Next (db : DB) (i : BlockchainIterator) :
    Res (Block × BlockchainIterator) :=
  (GetBlockByHash db i.currentHash).bind fun block => .ok (block, ⟨block.PrevBlockHash⟩)

/-- Bound on the number of `Next` calls of one walk. A walk ends at the first block with an
empty `PrevBlockHash`, and a hash absent from the store yields the zero block, which ends it.
A walk that has not ended after one call more than there are stored blocks has fetched some
hash twice and repeats forever (`Res.hang`). -/
def walkFuel (db : DB) : Nat :=
  match db.blocksBucket with
  | none => 1
  | some bb => bb.blocks.length + 1

/-- The `for` loop of `Blockchain.FindTransactionByID`. -/
def FindTransactionByID.loop (db : DB) (ID : Bytes) : Nat → BlockchainIterator → Res Transaction
  | 0, _ => .hang
  | fuel + 1, it =>
    (it.Next db).bind fun r =>
      match r.1.Transactions.find? (fun tx => decide (tx.ID = ID)) with
      | some tx => .ok tx
      | none =>
        if r.1.PrevBlockHash.length = 0 then .error .notFound
        else FindTransactionByID.loop db ID fuel r.2

/-- `Blockchain.FindTransactionByID`. -/
def Blockchain.FindTransactionByID (bc : Blockchain) (ID : Bytes) : Res Transaction :=
  FindTransactionByID.loop bc.db ID (walkFuel bc.db) bc.ResetIterator

/-- The loop shared by `SignTransaction` and `VerifyTransaction` that fills the map of
previous transactions, keyed by the ID of the transaction found. -/
def Blockchain.prevTXs (bc : Blockchain) : List TXInput → KV Transaction → Res (KV Transaction)
  | [], m => .ok m
  | vin :: rest, m =>
    (bc.FindTransactionByID vin.Txid).bind fun prevTX =>
      Blockchain.prevTXs bc rest (m.insert prevTX.ID prevTX)

/-- `Blockchain.VerifyTransaction`. -/
def Blockchain.VerifyTransaction (P : Prims) (bc : Blockchain) (tx : Transaction) : Res Bool :=
  (bc.prevTXs tx.Vin []).bind fun prevTXs => tx.Verify P prevTXs

/-- `Blockchain.SignTransaction`: the transaction as it is left, and whether the returned
error is nil (the error of `tx.Sign` is dropped). -/
def Blockchain.SignTransaction (P : Prims) (bc : Blockchain) (tx : Transaction)
    (privateKey : PrivateKey) : Res (Transaction × Bool) :=
  match bc.prevTXs tx.Vin [] with
  | .ok prevTxs => (tx.Sign P privateKey prevTxs).bind fun r => .ok (r.1, true)
  | .error _ => .ok (tx, false)
  | .panic => .panic
  | .hang => .hang

/-- The verification loop of `Blockchain.AddBlock`. -/
def AddBlock.verifyAll (P : Prims) (bc : Blockchain) : List Transaction → Res Unit
  | [] => .ok ()
  | tx :: rest =>
    (bc.VerifyTransaction P tx).bind fun valid =>
      if valid != true then .error .invalidTx else AddBlock.verifyAll P bc rest

/-- `Blockchain.AddBlock`: the mined block and the session afterwards. -/
def Blockchain.AddBlock (P : Prims) (now : Int) (bc : Blockchain)
    (transactions : List Transaction) : Res (Block × Blockchain) :=
  (GetLastHash bc.db).bind fun lastHash =>
    (AddBlock.verifyAll P bc transactions).bind fun _ =>
      let newBlock := MineBlock P now transactions lastHash
      (InsertNewBlock bc.db newBlock lastHash).bind fun db1 =>
        .ok (newBlock, { tip := newBlock.Hash, db := db1 })

/-- The statement `spentTXOs[inTxID] = append(spentTXOs[inTxID], in.Vout)`. -/
def markSpent (spentTXOs : KV (List Int)) (vin : TXInput) : KV (List Int) :=
  spentTXOs.insert vin.Txid ((spentTXOs.get vin.Txid).getD [] ++ [vin.Vout])

/-- The `Outputs:` loop of `Blockchain.FindUTXO` from output number `outIdx` on; `spent` is
`spentTXOs[txID]`. -/
def FindUTXO.outputs (spent : List Int) (txID : Bytes) :
    Nat → List TXOutput → KV TXOutputs → KV TXOutputs
  | _, [], UTXO => UTXO
  | outIdx, out :: rest, UTXO =>
    if (outIdx : Int) ∈ spent then FindUTXO.outputs spent txID (outIdx + 1) rest UTXO
    else
      let outs := (UTXO.get txID).getD ⟨[]⟩
      FindUTXO.outputs spent txID (outIdx + 1) rest (UTXO.insert txID ⟨outs.Outputs ++ [out]⟩)

/-- The body of the loop over `block.Transactions` in `Blockchain.FindUTXO`; the state is
`(UTXO, spentTXOs)`. -/
def FindUTXO.tx (st : KV TXOutputs × KV (List Int)) (tx : Transaction) :
    KV TXOutputs × KV (List Int) :=
  let UTXO := FindUTXO.outputs ((st.2.get tx.ID).getD []) tx.ID 0 tx.Vout st.1
  let spentTXOs := if tx.IsCoinbase = false then tx.Vin.foldl markSpent st.2 else st.2
  (UTXO, spentTXOs)

/-- The outer `for` loop of `Blockchain.FindUTXO`. -/
def FindUTXO.loop (db : DB) :
    Nat → BlockchainIterator → KV TXOutputs × KV (List Int) → Res (KV TXOutputs)
  | 0, _, _ => .hang
  | fuel + 1, it, st =>
    (it.Next db).bind fun r =>
      let st1 := r.1.Transactions.foldl FindUTXO.tx st
      if r.1.PrevBlockHash.length = 0 then .ok st1.1 else FindUTXO.loop db fuel r.2 st1

/-- `Blockchain.FindUTXO`. -/
def Blockchain.FindUTXO (bc : Blockchain) : Res (KV TXOutputs) :=
  FindUTXO.loop bc.db (walkFuel bc.db) bc.ResetIterator ([], [])

/-- The `Outputs:` loop of `Blockchain.FindUnspentTransactions`. -/
def FindUnspentTransactions.outputs (pubKeyHash : Bytes) (spent : List Int) (tx : Transaction) :
    Nat → List TXOutput → List Transaction → List Transaction
  | _, [], unspentTXs => unspentTXs
  | outIdx, out :: rest, unspentTXs =>
    if (outIdx : Int) ∈ spent then
      FindUnspentTransactions.outputs pubKeyHash spent tx (outIdx + 1) rest unspentTXs
    else if out.IsLockedWith pubKeyHash then
      FindUnspentTransactions.outputs pubKeyHash spent tx (outIdx + 1) rest (unspentTXs ++ [tx])
    else FindUnspentTransactions.outputs pubKeyHash spent tx (outIdx + 1) rest unspentTXs

/-- The body of the loop over `block.Transactions` in `FindUnspentTransactions`; the state is
`(unspentTXs, spentTXOs)`. -/
def FindUnspentTransactions.tx (P : Prims) (pubKeyHash : Bytes)
    (st : List Transaction × KV (List Int)) (tx : Transaction) :
    List Transaction × KV (List Int) :=
  let unspentTXs :=
    FindUnspentTransactions.outputs pubKeyHash ((st.2.get tx.ID).getD []) tx 0 tx.Vout st.1
  let spentTXOs :=
    if tx.IsCoinbase = false then
      tx.Vin.foldl (fun m vin => if vin.UsesKey P pubKeyHash then markSpent m vin else m) st.2
    else st.2
  (unspentTXs, spentTXOs)

/-- The outer `for` loop of `Blockchain.FindUnspentTransactions`. -/
def FindUnspentTransactions.loop (P : Prims) (db : DB) (pubKeyHash : Bytes) :
    Nat → BlockchainIterator → List Transaction × KV (List Int) → Res (List Transaction)
  | 0, _, _ => .hang
  | fuel + 1, it, st =>
    (it.Next db).bind fun r =>
      let st1 := r.1.Transactions.foldl (FindUnspentTransactions.tx P pubKeyHash) st
      if r.1.PrevBlockHash.length = 0 then .ok st1.1
      else FindUnspentTransactions.loop P db pubKeyHash fuel r.2 st1

/-- `Blockchain.FindUnspentTransactions`. -/
def Blockchain.FindUnspentTransactions (P : Prims) (bc : Blockchain) (pubKeyHash : Bytes) :
    Res (List Transaction) :=
  FindUnspentTransactions.loop P bc.db pubKeyHash (walkFuel bc.db) bc.ResetIterator ([], [])

/-- The inner loop of `Blockchain.FindSpendableOutputs` over the outputs of one transaction;
the state is `(accumulated, unspentOutputs)` and the flag tells whether `break Work` ran. -/
def FindSpendableOutputs.outputs (pubKeyHash : Bytes) (amount : Int) (txID : Bytes) :
    Nat → List TXOutput → Int × KV (List Int) → (Int × KV (List Int)) × Bool
  | _, [], st => (st, false)
  | outIdx, out :: rest, st =>
    if out.IsLockedWith pubKeyHash && decide (st.1 < amount) then
      let accumulated := wrap64 (st.1 + out.Value)
      let unspentOutputs := st.2.insert txID ((st.2.get txID).getD [] ++ [(outIdx : Int)])
      if accumulated ≥ amount then ((accumulated, unspentOutputs), true)
      else
        FindSpendableOutputs.outputs pubKeyHash amount txID (outIdx + 1) rest
          (accumulated, unspentOutputs)
    else FindSpendableOutputs.outputs pubKeyHash amount txID (outIdx + 1) rest st

/-- The `Work:` loop of `Blockchain.FindSpendableOutputs`. -/
def FindSpendableOutputs.work (pubKeyHash : Bytes) (amount : Int) :
    List Transaction → Int × KV (List Int) → Int × KV (List Int)
  | [], st => st
  | tx :: rest, st =>
    match FindSpendableOutputs.outputs pubKeyHash amount tx.ID 0 tx.Vout st with
    | (st1, true) => st1
    | (st1, false) => FindSpendableOutputs.work pubKeyHash amount rest st1

/-- `Blockchain.FindSpendableOutputs`. -/
def Blockchain.FindSpendableOutputs (P : Prims) (bc : Blockchain) (address : Bytes)
    (amount : Int) : Res (Int × KV (List Int)) :=
  (addressPubKeyHash P address).bind fun pubKeyHash =>
    (bc.FindUnspentTransactions P pubKeyHash).bind fun unspentTXs =>
      .ok (FindSpendableOutputs.work pubKeyHash amount unspentTXs (0, []))

/-- The inputs that `NewUTXOTransaction` builds from `validOutputs`. -/
def buildInputs (wallet : Wallet) : KV (List Int) → List TXInput
  | [] => []
  | (txID, outs) :: rest =>
    outs.map (fun out => (⟨txID, out, [], wallet.PublicKey⟩ : TXInput)) ++ buildInputs wallet rest

/-- `NewUTXOTransaction`. -/
def NewUTXOTransaction (P : Prims) (wallet : Wallet) (from_ to_ : Bytes) (amount : Int)
    (bc : Blockchain) : Res Transaction :=
  (bc.FindSpendableOutputs P from_ amount).bind fun r =>
    let acc := r.1
    if acc < amount then .error .noFunds
    else
      let inputs := buildInputs wallet r.2
      (NewTXOutput P amount to_).bind fun out1 =>
        (if acc > amount then
            (NewTXOutput P (wrap64 (acc - amount)) from_).bind fun out2 => .ok [out1, out2]
          else .ok [out1]).bind fun outputs =>
          let tx : Transaction := ⟨[], inputs, outputs⟩
          let tx1 := { tx with ID := tx.Hash P }
          (bc.SignTransaction P tx1 wallet.PrivateKey).bind fun s => .ok s.1

/-! ## The UTXO index (`utxoset.go`) -/

/-- UTXOSet of `utxoset.go`. The Go struct holds a pointer to the session; here it holds the
session's current state, so a call that changes the store returns the new `UTXOSet`. -/
structure UTXOSet where
  blockchainSession : Blockchain
deriving DecidableEq, Repr

/-- `NewUTXOSet`: `CreateBucket` fails when the bucket exists. -/
def NewUTXOSet (blockchainSession : Blockchain) : Res UTXOSet :=
  match blockchainSession.db.utxoBucket with
  | some _ => .error .bucketExists
  | none => .ok ⟨{ blockchainSession with db := { blockchainSession.db with utxoBucket := some [] } }⟩

/-- The second `Update` of `UTXOSet.Reindex`: one `Put` for each entry, a failing `Put` is
logged and skipped. -/
def Reindex.putAll : List (Bytes × TXOutputs) → KV TXOutputs → KV TXOutputs
  | [], b => b
  | (txID, outs) :: rest, b =>
    match b.put txID outs with
    | .ok b1 => Reindex.putAll rest b1
    | _ => Reindex.putAll rest b

/-- `UTXOSet.Reindex`. -/
def UTXOSet.Reindex (u : UTXOSet) : Res UTXOSet :=
  let bc := u.blockchainSession
  match bc.db.utxoBucket with
  | none => .error .bucketNotFound
  | some _ =>
    let bc1 : Blockchain := { bc with db := { bc.db with utxoBucket := some [] } }
    bc1.FindUTXO.bind fun UTXO =>
      .ok ⟨{ bc1 with db := { bc1.db with utxoBucket := some (Reindex.putAll UTXO []) } }⟩

/-- `UTXOSet.FindUTXO`: the cursor visits the entries in key order. -/
def UTXOSet.FindUTXO (u : UTXOSet) (pubKeyHash : Bytes) : Res (List TXOutput) :=
  match u.blockchainSession.db.utxoBucket with
  | none => .panic
  | some b =>
    .ok (b.map (fun e => e.2.Outputs.filter (fun out => out.IsLockedWith pubKeyHash))).flatten

/-- `UTXOSet.GetBalance`. -/
def UTXOSet.GetBalance (P : Prims) (u : UTXOSet) (address : Bytes) : Res Int :=
  (addressPubKeyHash P address).bind fun pubKeyHash =>
    (u.FindUTXO pubKeyHash).bind fun UTXOs =>
      .ok (UTXOs.foldl (fun balance out => wrap64 (balance + out.Value)) 0)

/-- The loop `for outIdx, out := range outs.Outputs` of `UTXOSet.Update`: the entry's outputs
whose position in the entry differs from `vout`. -/
def Update.keep (vout : Int) : Nat → List TXOutput → List TXOutput
  | _, [] => []
  | outIdx, out :: rest =>
    if (outIdx : Int) ≠ vout then out :: Update.keep vout (outIdx + 1) rest
    else Update.keep vout (outIdx + 1) rest

/-- The loop over `blockchainTx.Vin` of `UTXOSet.Update`. `DeserializeOutputs` panics on the
`nil` that `Get` returns for an absent key. When a `Put` fails the closure calls
`tx.Rollback()`, which bolt refuses inside `db.Update` by panicking. -/
def Update.inputs : List TXInput → KV TXOutputs → Res (KV TXOutputs)
  | [], b => .ok b
  | vin :: rest, b =>
    match b.get vin.Txid with
    | none => .panic
    | some outs =>
      let updatedOuts := Update.keep vin.Vout 0 outs.Outputs
      if updatedOuts.length = 0 then Update.inputs rest (b.erase vin.Txid)
      else
        match b.put vin.Txid ⟨updatedOuts⟩ with
        | .ok b1 => Update.inputs rest b1
        | _ => .panic

/-- The loop over `block.Transactions` of `UTXOSet.Update`; a failing `Put` ends in the panic
of `tx.Rollback()` as above. -/
def Update.txs : List Transaction → KV TXOutputs → Res (KV TXOutputs)
  | [], b => .ok b
  | blockchainTx :: rest, b =>
    (if blockchainTx.IsCoinbase = false then Update.inputs blockchainTx.Vin b else .ok b).bind
      fun b1 =>
        match b1.put blockchainTx.ID ⟨blockchainTx.Vout⟩ with
        | .ok b2 => Update.txs rest b2
        | _ => .panic

/-- `UTXOSet.Update`: one bolt transaction. On an absent bucket the first `Get` or `Put`
dereferences nil. -/
def UTXOSet.Update (u : UTXOSet) (block : Block) : Res UTXOSet :=
  let bc := u.blockchainSession
  match bc.db.utxoBucket with
  | none => if block.Transactions.length = 0 then .ok u else .panic
  | some b =>
    (Update.txs block.Transactions b).bind fun b1 =>
      .ok ⟨{ bc with db := { bc.db with utxoBucket := some b1 } }⟩

/-! ## A small instance of the primitives

Executable stand-ins for the library primitives, used to run the definitions on concrete
inputs. `sha256` is a 250-bit polynomial hash written as 32 bytes, so that one hash in four is
below the proof-of-work target; addresses are their own Base58 encoding; a signature by the
key `D` on a digest is accepted exactly for the public point `(D, D)`. -/

/-- A number as `n` big-endian bytes. -/
def natToBytesN (n : Nat) (v : Nat) : Bytes :=
  (List.range n).map fun i => ⟨v / 256 ^ (n - 1 - i) % 256, Nat.mod_lt _ (by decide)⟩

def Small.mix (x : Bytes) : Nat :=
  x.foldl (fun acc b => acc * 257 + b.val + 1) 0

def Small.sha256 (x : Bytes) : Bytes :=
  natToBytesN 32 ((Small.mix x * 1118178855890973404008220724105479037382832910229139841927085732234472392251 + 1442695040888963407) % 2 ^ 250)

def Small.encBytes (b : Bytes) : Bytes :=
  natToBytesN 2 b.length ++ b

def Small.gobTx (tx : Transaction) : Bytes :=
  Small.encBytes tx.ID
    ++ natToBytesN 2 tx.Vin.length
    ++ (tx.Vin.map fun i =>
          Small.encBytes i.Txid ++ IntToHex i.Vout ++ Small.encBytes i.Signature
            ++ Small.encBytes i.PubKey).flatten
    ++ natToBytesN 2 tx.Vout.length
    ++ (tx.Vout.map fun o => IntToHex o.Value ++ Small.encBytes o.PubKeyHash).flatten

def Small.sigOf (d : Nat) (digest : Bytes) : Nat :=
  2 ^ 255 + (d * 31 + bytesToNat digest) % 2 ^ 255

/-- The instance. -/
def smallPrims : Prims where
  sha256 := Small.sha256
  sha256_length := fun _ => by simp [Small.sha256, natToBytesN]
  ripemd160 := fun x => (Small.sha256 (x ++ [1])).drop 12
  Base58Decode := fun x => x
  Base58Encode := fun x => x
  gobTx := Small.gobTx
  ecdsaVerify := fun x y digest r s =>
    decide (x = y) && decide (r = Small.sigOf x digest) && decide (s = Small.sigOf (x + 1) digest)
  ecdsaSign := fun key digest => some (Small.sigOf key.D digest, Small.sigOf (key.D + 1) digest)

/-- A primitive instance whose hash is constant and never below the target. -/
def stuckPrims : Prims :=
  { smallPrims with
    sha256 := fun _ => List.replicate 32 255
    sha256_length := fun _ => List.length_replicate 32 255 }

/-- A wallet for `smallPrims`: the key `d` with the public point `(d, d)`, its `PublicKey`
the two coordinates appended as `NewWallet` does. -/
def Small.wallet (d : Nat) : Wallet :=
  ⟨⟨d, d, d⟩, natToBytes d ++ natToBytes d⟩

def walletA : Wallet := Small.wallet (2 ^ 255 + 5)
def walletB : Wallet := Small.wallet (2 ^ 255 + 6)
def walletD : Wallet := Small.wallet (2 ^ 255 + 7)

def addressA : Bytes := walletA.GetAddress smallPrims
def addressB : Bytes := walletB.GetAddress smallPrims
def addressD : Bytes := walletD.GetAddress smallPrims

/-! ## Scenarios of `blockchain_test.go` -/

/-- The hash that `Run` computes for a nonce. -/
def hashAt (P : Prims) (pow : ProofOfWork) (n : Nat) : Bytes :=
  P.sha256 (serializeData P pow (n : Int))

/-- The opening of `TestMasterWallet`: `NewBlockchain` on an empty database file, `NewUTXOSet`,
`Reindex`, all in one session. -/
def genesisSession (P : Prims) (now : Int) (address : Bytes) : Res UTXOSet :=
  (NewBlockchain P now DB.empty address).bind fun blockchainSession =>
    (NewUTXOSet blockchainSession).bind fun UTXOset => UTXOset.Reindex

/-- The first balance query of `TestMasterWallet`. -/
def genesisBalance (P : Prims) (now : Int) (address : Bytes) : Res Int :=
  (genesisSession P now address).bind fun UTXOset => UTXOset.GetBalance P address

/-- A later session on the store that the first `NewBlockchain` left behind: `NewBlockchain`
again (it finds the persisted tip), then `NewUTXOSet` and `Reindex` as in `TestMasterWallet`. -/
def reopenedSession (P : Prims) (now : Int) (address : Bytes) : Res UTXOSet :=
  (NewBlockchain P now DB.empty address).bind fun first =>
    (NewBlockchain P now first.db address).bind fun blockchainSession =>
      (NewUTXOSet blockchainSession).bind fun UTXOset => UTXOset.Reindex

/-- The transfer of `TestMasterWallet` (and of `Node.send`): `NewUTXOTransaction`, `AddBlock`
of the one transaction, `Update` with the mined block. The `UTXOSet` points to the session, so
it sees the session that `AddBlock` leaves. -/
def transfer (P : Prims) (now : Int) (UTXOset : UTXOSet) (fromWallet : Wallet)
    (from_ to_ : Bytes) (amount : Int) : Res UTXOSet :=
  (NewUTXOTransaction P fromWallet from_ to_ amount UTXOset.blockchainSession).bind fun tx =>
    (UTXOset.blockchainSession.AddBlock P now [tx]).bind fun r =>
      UTXOSet.Update ⟨r.2⟩ r.1

/-- The blocks that successive `Next` calls return, from the iterator `it` up to the first
block with an empty `PrevBlockHash`: the walk of `dumpChain` and of every reader. -/
def walk (db : DB) : Nat → BlockchainIterator → Res (List Block)
  | 0, _ => .hang
  | fuel + 1, it =>
    (it.Next db).bind fun r =>
      if r.1.PrevBlockHash.length = 0 then .ok [r.1]
      else (walk db fuel r.2).bind fun rest => .ok (r.1 :: rest)

/-- The chain as a session sees it, newest block first. -/
def Blockchain.blocks (bc : Blockchain) : Res (List Block) :=
  walk bc.db (walkFuel bc.db) bc.ResetIterator

/-- The transactions of a list of blocks, in the order the readers visit them. -/
def txsOf (chain : List Block) : List Transaction :=
  (chain.map fun b => b.Transactions).flatten

/-! ### A ledger run

Genesis pays 1000 to `addressA`; the store is reopened and indexed; then A sends 100 to B,
B sends 100 to D, and A sends 50 to B. -/

def ledger0 : Res UTXOSet := reopenedSession smallPrims 0 addressA

def ledger1 : Res UTXOSet :=
  ledger0.bind fun u => transfer smallPrims 1 u walletA addressA addressB 100

def ledger2 : Res UTXOSet :=
  ledger1.bind fun u => transfer smallPrims 2 u walletB addressB addressD 100

def ledger3 : Res UTXOSet :=
  ledger2.bind fun u => transfer smallPrims 3 u walletA addressA addressB 50

/-- `GetBalance` in the state a run ends in. -/
def balanceIn (r : Res UTXOSet) (address : Bytes) : Res Int :=
  r.bind fun u => u.GetBalance smallPrims address

/-- The IDs of the transactions on the chain of a session, newest block first. -/
def Blockchain.txIDs (bc : Blockchain) : Res (List Bytes) :=
  bc.blocks.bind fun chain => .ok ((txsOf chain).map fun tx => tx.ID)

/-- The UTXO bucket of a state in short: each entry as the position on the chain (0 is the
newest transaction) of the transaction whose ID is the key, with the values of the outputs
listed under it. -/
def indexValues (r : Res UTXOSet) : Res (List (Nat × List Int)) :=
  r.bind fun u =>
    u.blockchainSession.txIDs.bind fun ids =>
      .ok ((u.blockchainSession.db.utxoBucket.getD []).map fun e =>
        (ids.indexOf e.1, e.2.Outputs.map fun o => o.Value))

/-- The chain of a state in short, newest block first: for each transaction of each block
its inputs, as the chain position of the transaction referenced and the output index, and the
values of its outputs. -/
def chainShape (r : Res UTXOSet) : Res (List (List (List (Nat × Int) × List Int))) :=
  r.bind fun u =>
    u.blockchainSession.txIDs.bind fun ids =>
      u.blockchainSession.blocks.bind fun chain =>
        .ok (chain.map fun b => b.Transactions.map fun tx =>
          (tx.Vin.map fun i => (ids.indexOf i.Txid, i.Vout), tx.Vout.map fun o => o.Value))

/-- The transfer of 100 from A to B that `NewUTXOTransaction` builds on `ledger0`. -/
def transferTx : Res Transaction :=
  ledger0.bind fun u =>
    NewUTXOTransaction smallPrims walletA addressA addressB 100 u.blockchainSession

/-- `AddBlock` of `transferTx` on `ledger0`, then `AddBlock` of the same transaction again on
the longer chain. -/
def replayed : Res UTXOSet :=
  ledger0.bind fun u =>
    transferTx.bind fun tx =>
      (u.blockchainSession.AddBlock smallPrims 1 [tx]).bind fun r =>
        (r.2.AddBlock smallPrims 2 [tx]).bind fun r2 => .ok ⟨r2.2⟩

/-- `AddBlock` on `ledger0` of a list that holds `transferTx` twice. -/
def doubled : Res UTXOSet :=
  ledger0.bind fun u =>
    transferTx.bind fun tx =>
      (u.blockchainSession.AddBlock smallPrims 1 [tx, tx]).bind fun r => .ok ⟨r.2⟩

/-- A transaction that spends the genesis output (1000, locked to A) and pays 5000 to B,
its ID assigned by `Hash` and its input signed with A's key by `SignTransaction`. -/
def inflatedTx : Res Transaction :=
  ledger0.bind fun u =>
    u.blockchainSession.txIDs.bind fun ids =>
      (NewTXOutput smallPrims 5000 addressB).bind fun out =>
        let tx : Transaction := ⟨[], [⟨ids.getLastD [], 0, [], walletA.PublicKey⟩], [out]⟩
        (u.blockchainSession.SignTransaction smallPrims { tx with ID := tx.Hash smallPrims }
            walletA.PrivateKey).bind fun s => .ok s.1

/-- `AddBlock` of `inflatedTx` on `ledger0`, then `Update` with the mined block. -/
def inflated : Res UTXOSet :=
  ledger0.bind fun u =>
    inflatedTx.bind fun tx =>
      (u.blockchainSession.AddBlock smallPrims 1 [tx]).bind fun r => UTXOSet.Update ⟨r.2⟩ r.1

/-- The session of `ledger0`. -/
def session0 : Blockchain :=
  (ledger0.getD ⟨⟨[], DB.empty⟩⟩).blockchainSession

/-- The transaction of `transferTx`. -/
def tx0 : Transaction :=
  transferTx.getD ⟨[], [], []⟩

/-! ### The unspent set, as the specification words it -/

/-- Whether some input of a transaction in `txs` references output `idx` of the transaction
with ID `txID`. -/
def referenced (txs : List Transaction) (txID : Bytes) (idx : Int) : Bool :=
  txs.any fun t => t.Vin.any fun vin => decide (vin.Txid = txID) && decide (vin.Vout = idx)

/-- The outputs of a list, numbered from `start`, whose number satisfies `keep`. -/
def keepAt (keep : Int → Bool) : Nat → List TXOutput → List TXOutput
  | _, [] => []
  | i, out :: rest =>
    if keep (i : Int) then out :: keepAt keep (i + 1) rest else keepAt keep (i + 1) rest

/-- The outputs of `tx` that no input of a transaction in `txs` references. -/
def unreferenced (txs : List Transaction) (tx : Transaction) : List TXOutput :=
  keepAt (fun idx => !referenced txs tx.ID idx) 0 tx.Vout

/-- The index entry the specification asks for under `key`, for a chain whose transactions
are `txs`: the unreferenced outputs of the transaction with that ID, and no entry when there
is no such transaction or none of its outputs is left. -/
def expectedEntry (txs : List Transaction) (key : Bytes) : Option TXOutputs :=
  match txs.find? (fun t => decide (t.ID = key)) with
  | none => none
  | some tx => if unreferenced txs tx = [] then none else some ⟨unreferenced txs tx⟩

/-- The stores that genesis creation followed by successful `AddBlock` calls produce, each
with its chain, newest block first. `AddBlock` is called on a session of the store, whatever
its in-memory tip; the calls on the index (`NewUTXOSet`, `Reindex`, `Update`) change the UTXO
bucket only. -/
inductive Built (P : Prims) : DB → List Block → Prop
  | genesis (now : Int) (address : Bytes) (cbtx : Transaction) (db : DB) :
      NewCoinbaseTx P address genesisCoinbaseData [] = .ok cbtx →
      CreateBlockchain P now DB.empty address = .ok ([], db) →
      Built P db [NewGenesisBlock P now cbtx]
  | addBlock (now : Int) (db : DB) (chain : List Block) (tip : Bytes) (txs : List Transaction)
      (r : Block × Blockchain) :
      Built P db chain → Blockchain.AddBlock P now ⟨tip, db⟩ txs = .ok r →
      Built P r.2.db (r.1 :: chain)
  | index (db : DB) (chain : List Block) (b : Option (KV TXOutputs)) :
      Built P db chain → Built P { db with utxoBucket := b } chain

/-- The references that `FindUTXO` has recorded after visiting `txs`: the inputs of the
transactions that are not coinbase. -/
def refsOf (txs : List Transaction) (k : Bytes) (idx : Int) : Prop :=
  ∃ t ∈ txs, t.IsCoinbase = false ∧ ∃ vin ∈ t.Vin, vin.Txid = k ∧ vin.Vout = idx

/-- The state of `FindUTXO` after visiting the prefix `l1` of the transactions `l` of a
chain: the spent map holds the references met so far, and the result map holds, for each
transaction visited, its outputs that no input of the whole chain references. -/
structure FindUTXO.Inv (l l1 : List Transaction) (st : KV TXOutputs × KV (List Int)) : Prop where
  spent : ∀ k idx, idx ∈ (st.2.get k).getD [] ↔ refsOf l1 k idx
  utxo : ∀ k, st.1.get k
    = match l1.find? (fun t => decide (t.ID = k)) with
      | none => none
      | some tx => if unreferenced l tx = [] then none else some ⟨unreferenced l tx⟩

/-- Each block names the hash of the block after it in the list (its predecessor on the
chain); the last one, the genesis block, has an empty `PrevBlockHash`. -/
def Linked : List Block → Prop
  | [] => True
  | [g] => g.PrevBlockHash = []
  | b :: b1 :: rest => b.PrevBlockHash = b1.Hash ∧ Linked (b1 :: rest)

/-- Every input of a transaction that is not coinbase names a transaction further down the
list, which on a chain listed newest first means an older one. -/
def RefsLater : List Transaction → Prop
  | [] => True
  | t :: post =>
    (t.IsCoinbase = false → ∀ vin ∈ t.Vin, vin.Txid ∈ post.map (fun u => u.ID)) ∧ RefsLater post

/-- What holds of a store and its chain after genesis creation and any number of successful
`AddBlock` calls. -/
structure ChainInv (db : DB) (chain : List Block) : Prop where
  bucket : ∃ bb, db.blocksBucket = some bb ∧ bb.last = chain.head?.map (fun b => b.Hash) ∧
    ∀ k b, bb.blocks.get k = some b → b ∈ chain ∧ k = b.Hash
  hash32 : ∀ b ∈ chain, b.Hash.length = 32
  linked : Linked chain
  refs : RefsLater (txsOf chain)
  ne : chain ≠ []
  stored : (chain.map fun b => b.Hash).Nodup →
    ∃ bb, db.blocksBucket = some bb ∧ bb.blocks.length = chain.length ∧
      ∀ b ∈ chain, bb.blocks.get b.Hash = some b

/-- A transaction without inputs and with an empty ID that pays 5 to A. -/
def emptyIdTx : Transaction :=
  ⟨[], [], [⟨5, HashPublicKey smallPrims walletA.PublicKey⟩]⟩

/-- `AddBlock` of `emptyIdTx` on `ledger0`, then `Reindex`. -/
def ledgerEmptyId : Res UTXOSet :=
  ledger0.bind fun u =>
    (u.blockchainSession.AddBlock smallPrims 1 [emptyIdTx]).bind fun r => UTXOSet.Reindex ⟨r.2⟩

/-- The genesis coinbase of the ledger run. -/
def genesisTx : Transaction :=
  (NewCoinbaseTx smallPrims addressA genesisCoinbaseData []).getD ⟨[], [], []⟩

/-- The store that genesis creation leaves. -/
def genesisDB : DB :=
  ((CreateBlockchain smallPrims 0 DB.empty addressA).getD ([], DB.empty)).2

/-- The block and the session that `AddBlock` of `tx0` on `session0` returns. -/
def added0 : Block × Blockchain :=
  (session0.AddBlock smallPrims 1 [tx0]).getD (zeroBlock, session0)

/-! ### Further runs -/

/-- `tx0` with the value of its first output changed; the `ID` is kept. -/
def tamperedTx0 : Transaction :=
  { tx0 with Vout := tx0.Vout.map fun o => { o with Value := o.Value + 1000000 } }

/-- A primitive instance whose signatures are lopsided: `r` has 32 bytes and `s` has 31.
`ecdsaVerify` accepts, for the public point `(d, d)`, exactly the pair that `ecdsaSign`
returns for the key `d`. -/
def lopsidedPrims : Prims :=
  { smallPrims with
    ecdsaSign := fun key digest =>
      some (Small.sigOf key.D digest, 2 ^ 247 + (key.D + bytesToNat digest) % 2 ^ 247)
    ecdsaVerify := fun x y digest r s =>
      decide (x = y) && decide (r = Small.sigOf x digest)
        && decide (s = 2 ^ 247 + (x + bytesToNat digest) % 2 ^ 247) }

/-- The map of previous transactions that holds the genesis coinbase. -/
def prevTXsA : KV Transaction :=
  [(genesisTx.ID, genesisTx)]

/-- A transaction that is not coinbase: one input, carrying A's public key and referencing
output 0 of the genesis coinbase, and one output of 100; its ID assigned by `Hash`. -/
def unsignedTx : Transaction :=
  let tx : Transaction :=
    ⟨[], [⟨genesisTx.ID, 0, [], walletA.PublicKey⟩],
      [⟨100, HashPublicKey smallPrims walletB.PublicKey⟩]⟩
  { tx with ID := tx.Hash lopsidedPrims }

/-- `unsignedTx` after `Sign` with A's key, and whether `Sign` returned nil. -/
def signedLopsided : Res (Transaction × Bool) :=
  unsignedTx.Sign lopsidedPrims walletA.PrivateKey prevTXsA

/-- On `ledger0`, A sends 300 to itself. -/
def selfPay : Res UTXOSet :=
  ledger0.bind fun u => transfer smallPrims 1 u walletA addressA addressA 300

/-- After `selfPay`, A asks to send 1500 to B. -/
def overspend : Res Transaction :=
  selfPay.bind fun u =>
    NewUTXOTransaction smallPrims walletA addressA addressB 1500 u.blockchainSession

/-- The copy of `unsignedTx` whose `ID` is the digest that `Sign` signs for input 0. -/
def lopsidedDigest : Option Transaction :=
  inputDigest lopsidedPrims prevTXsA unsignedTx.TrimmedCopy 0 ⟨genesisTx.ID, 0, [], []⟩

/-- A transaction whose input names output 7 of the genesis coinbase, which has one output. -/
def outOfRangeTx : Transaction :=
  ⟨[9], [⟨genesisTx.ID, 7, [], walletA.PublicKey⟩], [⟨1, []⟩]⟩

/-- A transaction whose input names a transaction that is not on the chain. -/
def unknownPriorTx : Transaction :=
  ⟨[8], [⟨[1, 2, 3], 0, [], walletA.PublicKey⟩], [⟨1, []⟩]⟩

/-- A transaction without inputs that pays 5000 to B, its ID assigned by `Hash`. -/
def mintTx : Transaction :=
  let tx : Transaction := ⟨[], [], [⟨5000, HashPublicKey smallPrims walletB.PublicKey⟩]⟩
  { tx with ID := tx.Hash smallPrims }

/-- `AddBlock` of `mintTx` on `ledger0`, then `Update` with the mined block. -/
def minted : Res UTXOSet :=
  ledger0.bind fun u =>
    (u.blockchainSession.AddBlock smallPrims 1 [mintTx]).bind fun r => UTXOSet.Update ⟨r.2⟩ r.1

/-- The blocks that `session0` walks, newest first. -/
def chain0 : List Block :=
  session0.blocks.getD []

/-- A transaction with three outputs, of 10, 20 and 30. -/
def threeOut : Transaction :=
  ⟨[7], [⟨[6], 0, [], []⟩], [⟨10, [1]⟩, ⟨20, [2]⟩, ⟨30, [3]⟩]⟩

/-- A state whose index holds, for `threeOut`, the outputs of original index 1 and 2: output
0 has been spent. -/
def survivors : UTXOSet :=
  ⟨⟨[], ⟨none, some [(threeOut.ID, ⟨[⟨20, [2]⟩, ⟨30, [3]⟩]⟩)]⟩⟩⟩

/-- A state whose index holds, for `threeOut`, the output of original index 2 only. -/
def lastSurvivor : UTXOSet :=
  ⟨⟨[], ⟨none, some [(threeOut.ID, ⟨[⟨30, [3]⟩]⟩)]⟩⟩⟩

/-- A block with one transaction, not coinbase, whose input is `(threeOut.ID, vout)` and
whose output pays 5. -/
def spending (vout : Int) : Block :=
  ⟨0, [⟨[8], [⟨threeOut.ID, vout, [], []⟩], [⟨5, [4]⟩]⟩], [], [9], 0⟩

/-- The UTXO bucket of a state. -/
def UTXOSet.index (u : UTXOSet) : Option (KV TXOutputs) :=
  u.blockchainSession.db.utxoBucket

/-- The state with the UTXO bucket holding `b`. -/
def UTXOSet.withIndex (u : UTXOSet) (b : KV TXOutputs) : UTXOSet :=
  ⟨{ u.blockchainSession with db := { u.blockchainSession.db with utxoBucket := some b } }⟩


/-! ### Address validation (`wallet.go`) -/

/-- `ValidateAddress`. The slice `pubKeyHash[len(pubKeyHash)-addressChecksumLen:]` is out of
range when the decoding has fewer than 4 bytes, `pubKeyHash[0]` when it is empty, and
`pubKeyHash[1 : len(pubKeyHash)-addressChecksumLen]` when it has fewer than 5 bytes. -/
def ValidateAddress (P : Prims) (address : Bytes) : Res Bool :=
  let pubKeyHash := P.Base58Decode address
  if pubKeyHash.length < addressChecksumLen then .panic
  else
    let actualChecksum := pubKeyHash.drop (pubKeyHash.length - addressChecksumLen)
    match pubKeyHash with
    | [] => .panic
    | version :: _ =>
      if pubKeyHash.length - addressChecksumLen < 1 then .panic
      else
        let pubKeyHash1 := (pubKeyHash.take (pubKeyHash.length - addressChecksumLen)).drop 1
        let targetChecksum := checksum P ([version] ++ pubKeyHash1)
        .ok (decide (actualChecksum = targetChecksum))

/-- The payload that `GetAddress` encodes for a public key, as the specification words it:
the version byte, RIPEMD-160 of SHA-256 of the key, and the first 4 bytes of the double
SHA-256 of the two. -/
def addressPayload (P : Prims) (pk : Bytes) : Bytes :=
  0 :: P.ripemd160 (P.sha256 pk)
    ++ (P.sha256 (P.sha256 (0 :: P.ripemd160 (P.sha256 pk)))).take 4

/-- The address of A with its last byte, a checksum byte, changed. -/
def corruptedA : Bytes :=
  addressA.take (addressA.length - 1) ++ [addressA.getLastD 0 + 1]

/-! ### Readers used to state the properties -/

/-- The outputs of all entries of an index content that are locked with `pubKeyHash`, in
key order. -/
def lockedOutputs (b : KV TXOutputs) (pubKeyHash : Bytes) : List TXOutput :=
  (b.map fun e => e.2.Outputs).flatten.filter fun out => decide (out.PubKeyHash = pubKeyHash)

/-- After `selfPay`, A sends 200 to B. -/
def selfPayThenSend : Res UTXOSet :=
  selfPay.bind fun u => transfer smallPrims 2 u walletA addressA addressB 200

/-- What `FindSpendableOutputs` returns on a state: the accumulated value and the selected
output indices, each transaction ID shown as the position of its transaction on the chain,
newest first. -/
def spendableShape (r : Res UTXOSet) (address : Bytes) (amount : Int) :
    Res (Int × List (Nat × List Int)) :=
  r.bind fun u =>
    u.blockchainSession.txIDs.bind fun ids =>
      (u.blockchainSession.FindSpendableOutputs smallPrims address amount).bind fun s =>
        .ok (s.1, s.2.map fun e => (ids.indexOf e.1, e.2))

/-- The blocks that `k` successive calls of `Iterator.Next` return, and the iterator they
leave. -/
def nextCalls (db : DB) : Nat → BlockchainIterator → Res (List Block × BlockchainIterator)
  | 0, it => .ok ([], it)
  | k + 1, it =>
    (it.Next db).bind fun r =>
      (nextCalls db k r.2).bind fun rest => .ok (r.1 :: rest.1, rest.2)


/-! ### Hashing and signing, step by step -/

/-- `Transaction.Hash` with its receiver made explicit: the transaction that `tx` points to
after the call, and the result. `txCopy := *tx` copies the struct, the assignment
`txCopy.ID = []byte{}` rebinds the field of the copy, and `Serialize` reads the copy. -/
def Transaction.HashCall (P : Prims) (tx : Transaction) : Transaction × Bytes :=
  let txCopy := tx
  let txCopy1 := { txCopy with ID := [] }
  let hash := P.sha256 (P.gobTx txCopy1)
  (tx, hash)

/-- The slice expressions `b[:(len(b) / 2)]` and `b[(len(b) / 2):]` with which `Verify`
unpacks a signature and a public key. -/
def splitHalf (b : Bytes) : Bytes × Bytes :=
  (b.take (b.length / 2), b.drop (b.length / 2))

/-- A transaction with its signatures cleared. -/
def Transaction.unsigned (tx : Transaction) : Transaction :=
  { tx with Vin := tx.Vin.map fun i => { i with Signature := [] } }

/-! ### Transfers of amounts that are not positive -/

/-- On the reopened genesis session, A asks to send 0 to B. -/
def zeroTransfer : Res Transaction :=
  NewUTXOTransaction smallPrims walletA addressA addressB 0 session0

/-- On the reopened genesis session, A asks to send -5 to B. -/
def negativeTransfer : Res Transaction :=
  NewUTXOTransaction smallPrims walletA addressA addressB (-5) session0

/-- `AddBlock` of the transaction of `negativeTransfer` on `ledger0`, then `Update`. -/
def negativeSent : Res UTXOSet :=
  ledger0.bind fun u => transfer smallPrims 1 u walletA addressA addressB (-5)

/-- A transaction whose input names output -1 of the genesis coinbase. -/
def negativeIndexTx : Transaction :=
  ⟨[9], [⟨genesisTx.ID, -1, [], walletA.PublicKey⟩], [⟨1, []⟩]⟩

/-- The session on the chain of `ledgerEmptyId`, which holds a transaction with an empty
ID. -/
def sessionEmptyId : Blockchain :=
  (ledgerEmptyId.getD ⟨⟨[], DB.empty⟩⟩).blockchainSession

/-! ### Signing and verifying, as the specification words them -/

/-- The per-input digest as the specification words it: `Hash` of the trimmed copy, in which
every `Signature` and every `PubKey` is empty, with the `PubKey` of input `i` set to the
`PubKeyHash` of the output that input `i` references; `none` when `prevTXs` does not resolve
input `i`. -/
def specDigest (P : Prims) (prevTXs : KV Transaction) (tx : Transaction) (i : Nat) :
    Option Bytes :=
  match tx.Vin.get? i with
  | none => none
  | some vin =>
    match prevTXs.get vin.Txid with
    | none => none
    | some prevTx =>
      match outputAt prevTx.Vout vin.Vout with
      | none => none
      | some prevOut =>
        some (Transaction.Hash P
          { tx.TrimmedCopy with
            Vin := modifyAt (fun v => { v with PubKey := prevOut.PubKeyHash }) i
              tx.TrimmedCopy.Vin })

/-- Whether input `i` verifies: ECDSA verification for the key that is the two halves of the
input's `PubKey`, the per-input digest, and the `(r, s)` that are the two halves of the
input's `Signature`; `none` when `prevTXs` does not resolve the input. -/
def inputVerifies (P : Prims) (prevTXs : KV Transaction) (tx : Transaction) (i : Nat) :
    Option Bool :=
  match tx.Vin.get? i with
  | none => none
  | some vin =>
    (specDigest P prevTXs tx i).map fun digest =>
      P.ecdsaVerify (bytesToNat (splitHalf vin.PubKey).1) (bytesToNat (splitHalf vin.PubKey).2)
        digest (bytesToNat (splitHalf vin.Signature).1) (bytesToNat (splitHalf vin.Signature).2)

/-- Verification as the specification words it: the inputs from number `i` on, `n` of them,
are checked in order, the first that fails ends the check with false. An input that
`prevTXs` does not resolve is the panic of the code. -/
def specVerify (P : Prims) (prevTXs : KV Transaction) (tx : Transaction) : Nat → Nat → Res Bool
  | _, 0 => .ok true
  | i, n + 1 =>
    match inputVerifies P prevTXs tx i with
    | none => .panic
    | some false => .ok false
    | some true => specVerify P prevTXs tx (i + 1) n

/-- Signing as the specification words it: for the inputs of `tx` from number `i` on, `n` of
them, the per-input digest of `tx` is signed and the signature stored in `cur`. -/
def specSign (P : Prims) (privKey : PrivateKey) (prevTXs : KV Transaction) (tx : Transaction) :
    Nat → Nat → Transaction → Res (Transaction × Bool)
  | _, 0, cur => .ok (cur, true)
  | i, n + 1, cur =>
    match specDigest P prevTXs tx i with
    | none => .panic
    | some digest =>
      match P.ecdsaSign privKey digest with
      | none => .ok (cur, false)
      | some (r, s) =>
        specSign P privKey prevTXs tx (i + 1) n
          { cur with
            Vin := modifyAt (fun v => { v with Signature := natToBytes r ++ natToBytes s }) i
              cur.Vin }

/-! # Theorems -/

set_option maxRecDepth 100000

/-! ## Proof of work -/

theorem Run.loop_found (P : Prims) (pow : ProofOfWork) (n0 : Nat)
    (hlt : n0 < maxNonce) (hb : bytesToNat (hashAt P pow n0) < pow.target) :
    ∀ (fuel nonce : Nat) (hash : Bytes), nonce + fuel = maxNonce → nonce ≤ n0 →
      (∀ m, nonce ≤ m → m < n0 → ¬ bytesToNat (hashAt P pow m) < pow.target) →
      Run.loop P pow fuel nonce hash = (n0, hashAt P pow n0) := by
  intro fuel
  induction fuel with
  | zero => intro nonce hash hsum hle _; omega
  | succ fuel ih =>
    intro nonce hash hsum hle hmin
    have hn : nonce < maxNonce := by omega
    rw [Run.loop, if_pos hn]
    by_cases hnow : bytesToNat (hashAt P pow nonce) < pow.target
    · have : nonce = n0 := by
        by_contra hne
        exact hmin nonce (le_refl _) (by omega) hnow
      subst this
      simp only [hashAt] at hnow ⊢
      simp [hnow]
    · have hne : nonce ≠ n0 := fun h => hnow (h ▸ hb)
      simp only [hashAt] at hnow
      simp only [hnow, if_false]
      exact ih (nonce + 1) _ (by omega) (by omega) (fun m h1 h2 => hmin m (by omega) h2)

theorem Run.loop_exhausted (P : Prims) (pow : ProofOfWork)
    (hnone : ∀ m, m < maxNonce → ¬ bytesToNat (hashAt P pow m) < pow.target) :
    ∀ (fuel nonce : Nat) (hash : Bytes), nonce + (fuel + 1) = maxNonce →
      Run.loop P pow (fuel + 1) nonce hash = (maxNonce, hashAt P pow (maxNonce - 1)) := by
  intro fuel
  induction fuel with
  | zero =>
    intro nonce hash hsum
    have hn : nonce < maxNonce := by omega
    have h1 := hnone nonce hn
    simp only [hashAt] at h1
    have e : nonce = maxNonce - 1 := by omega
    rw [Run.loop, if_pos hn]
    simp only [h1, if_false, Run.loop]
    rw [hashAt, ← e]
    show (nonce + 1, _) = (maxNonce, _)
    rw [show nonce + 1 = maxNonce by omega]
  | succ fuel ih =>
    intro nonce hash hsum
    have hn : nonce < maxNonce := by omega
    have h1 := hnone nonce hn
    simp only [hashAt] at h1
    rw [Run.loop, if_pos hn]
    simp only [h1, if_false]
    exact ih (nonce + 1) _ (by omega)

/-- `Run` on a successful search: the least nonce whose hash is below the target. -/
theorem Run_found (P : Prims) (pow : ProofOfWork) (n : Nat) (hn : n < maxNonce)
    (hb : bytesToNat (hashAt P pow n) < pow.target) :
    ∃ n0, n0 ≤ n ∧ Run P pow = (n0, hashAt P pow n0) ∧
      bytesToNat (hashAt P pow n0) < pow.target ∧
      ∀ m, m < n0 → pow.target ≤ bytesToNat (hashAt P pow m) := by
  classical
  have hex : ∃ k, bytesToNat (hashAt P pow k) < pow.target := ⟨n, hb⟩
  refine ⟨Nat.find hex, Nat.find_min' hex hb, ?_, Nat.find_spec hex, ?_⟩
  · exact Run.loop_found P pow (Nat.find hex) (lt_of_le_of_lt (Nat.find_min' hex hb) hn)
      (Nat.find_spec hex) maxNonce 0 _ (by omega) (Nat.zero_le _)
      (fun m _ h2 => Nat.find_min hex h2)
  · intro m hm
    exact Nat.le_of_not_lt (Nat.find_min hex hm)

/-- `Run` on an exhausted search: it returns `maxNonce` and the last hash it computed. -/
theorem Run_exhausted (P : Prims) (pow : ProofOfWork)
    (hnone : ∀ m, m < maxNonce → ¬ bytesToNat (hashAt P pow m) < pow.target) :
    Run P pow = (maxNonce, hashAt P pow (maxNonce - 1)) :=
  Run.loop_exhausted P pow hnone (maxNonce - 1) 0 _ (by decide)

theorem Run.loop_length (P : Prims) (pow : ProofOfWork) :
    ∀ (fuel nonce : Nat) (hash : Bytes), hash.length = 32 →
      (Run.loop P pow fuel nonce hash).2.length = 32 := by
  intro fuel
  induction fuel with
  | zero => intro nonce hash h; simpa [Run.loop] using h
  | succ fuel ih =>
    intro nonce hash h
    rw [Run.loop]
    by_cases hn : nonce < maxNonce
    · rw [if_pos hn]
      by_cases hb : bytesToNat (P.sha256 (serializeData P pow (nonce : Int))) < pow.target
      · simp only [hb, if_true]
        exact P.sha256_length _
      · simp only [hb, if_false]
        exact ih _ _ (P.sha256_length _)
    · rw [if_neg hn]
      exact h

/-- The hash of a mined block has 32 bytes. -/
theorem MineBlock_hash_length (P : Prims) (now : Int) (txs : List Transaction) (prev : Bytes) :
    (MineBlock P now txs prev).Hash.length = 32 := by
  simp only [MineBlock, Run]
  exact Run.loop_length P _ _ _ _ (by simp)

theorem serializeData_MineBlock (P : Prims) (now : Int) (txs : List Transaction) (prev : Bytes)
    (n : Int) :
    serializeData P (NewProofOfWork (MineBlock P now txs prev)) n
      = serializeData P (NewProofOfWork ⟨now, txs, prev, [], 0⟩) n := by
  simp [serializeData, NewProofOfWork, MineBlock, HashTransactions]

theorem target_eq (b : Block) : (NewProofOfWork b).target = 2 ^ (256 - 8) := by
  simp [NewProofOfWork, targetBits, Nat.shiftLeft_eq]

/-- C7 (the code departs from it): `ProofOfWork.Validate` returns true exactly when the hash of
`serializeData(block.Nonce)` is strictly GREATER than the target `2^(256-8)`, and so returns
false for every block whose hash is strictly below the target. -/
theorem Validate_true_iff_above_target (P : Prims) (b : Block) :
    (Validate P (NewProofOfWork b) = true ↔
        2 ^ (256 - 8) < bytesToNat (P.sha256 (serializeData P (NewProofOfWork b) b.Nonce))) ∧
      (bytesToNat (P.sha256 (serializeData P (NewProofOfWork b) b.Nonce)) < 2 ^ (256 - 8) →
        Validate P (NewProofOfWork b) = false) := by
  have ht := target_eq b
  have hv : Validate P (NewProofOfWork b)
      = decide (2 ^ (256 - 8)
          < bytesToNat (P.sha256 (serializeData P (NewProofOfWork b) b.Nonce))) := by
    rw [Validate, ht]
    rfl
  constructor
  · rw [hv, decide_eq_true_eq]
  · intro h
    rw [hv, decide_eq_false_iff_not]
    exact Nat.lt_asymm h

/-- C8 (the code departs from it): whenever the nonce search succeeds, the block returned by
`MineBlock` has a hash strictly below the target and `Validate` returns false on it. -/
theorem MineBlock_Validate_false (P : Prims) (now : Int) (txs : List Transaction) (prev : Bytes)
    (n : Nat) (hn : n < maxNonce)
    (hb : bytesToNat (hashAt P (NewProofOfWork ⟨now, txs, prev, [], 0⟩) n) < 2 ^ (256 - 8)) :
    bytesToNat (MineBlock P now txs prev).Hash < 2 ^ (256 - 8) ∧
      Validate P (NewProofOfWork (MineBlock P now txs prev)) = false := by
  have ht := target_eq ⟨now, txs, prev, [], 0⟩
  obtain ⟨n0, _, hrun, hlow, _⟩ :=
    Run_found P (NewProofOfWork ⟨now, txs, prev, [], 0⟩) n hn (by rw [ht]; exact hb)
  rw [ht] at hlow
  have hN : (MineBlock P now txs prev).Nonce = (n0 : Int) := by simp [MineBlock, hrun]
  have hH : (MineBlock P now txs prev).Hash
      = hashAt P (NewProofOfWork ⟨now, txs, prev, [], 0⟩) n0 := by simp [MineBlock, hrun]
  refine ⟨by rw [hH]; exact hlow, ?_⟩
  simp only [Validate, target_eq, decide_eq_false_iff_not, serializeData_MineBlock]
  have : (NewProofOfWork (MineBlock P now txs prev)).block.Nonce = (n0 : Int) := hN
  rw [this]
  simp only [hashAt] at hlow
  omega

theorem MineBlock_Validate_false_witness :
    bytesToNat (MineBlock smallPrims 1 [] []).Hash < 2 ^ (256 - 8) ∧
      Validate smallPrims (NewProofOfWork (MineBlock smallPrims 1 [] [])) = false :=
  MineBlock_Validate_false smallPrims 1 [] [] 3 (by decide) (by decide)

/-- C9: when some nonce below `maxNonce` gives a hash strictly below the target, `Run`
returns the least such nonce `n0` together with the hash of `serializeData(n0)`, and every
smaller nonce has a hash at or above the target. -/
theorem Run_least_nonce (P : Prims) (b : Block) (n : Nat) (hn : n < maxNonce)
    (hb : bytesToNat (P.sha256 (serializeData P (NewProofOfWork b) (n : Int))) < 2 ^ (256 - 8)) :
    ∃ n0 : Nat, n0 ≤ n ∧
      Run P (NewProofOfWork b)
        = (n0, P.sha256 (serializeData P (NewProofOfWork b) (n0 : Int))) ∧
      bytesToNat (P.sha256 (serializeData P (NewProofOfWork b) (n0 : Int))) < 2 ^ (256 - 8) ∧
      ∀ m, m < n0 →
        2 ^ (256 - 8) ≤ bytesToNat (P.sha256 (serializeData P (NewProofOfWork b) (m : Int))) := by
  have ht := target_eq b
  have := Run_found P (NewProofOfWork b) n hn (by rw [ht]; exact hb)
  rw [ht] at this
  exact this

theorem Run_least_nonce_witness :
    ∃ n0 : Nat, n0 ≤ 3 ∧
      Run smallPrims (NewProofOfWork ⟨1, [], [], [], 0⟩)
        = (n0, smallPrims.sha256
            (serializeData smallPrims (NewProofOfWork ⟨1, [], [], [], 0⟩) (n0 : Int))) ∧
      bytesToNat (smallPrims.sha256
          (serializeData smallPrims (NewProofOfWork ⟨1, [], [], [], 0⟩) (n0 : Int)))
        < 2 ^ (256 - 8) ∧
      ∀ m, m < n0 →
        2 ^ (256 - 8) ≤ bytesToNat (smallPrims.sha256
          (serializeData smallPrims (NewProofOfWork ⟨1, [], [], [], 0⟩) (m : Int))) :=
  Run_least_nonce smallPrims ⟨1, [], [], [], 0⟩ 3 (by decide) (by decide)

theorem stuck_never_below (b : Block) (m : Nat) :
    ¬ bytesToNat (hashAt stuckPrims (NewProofOfWork b) m) < (NewProofOfWork b).target := by
  rw [target_eq]
  show ¬ bytesToNat (List.replicate 32 255) < 2 ^ (256 - 8)
  decide

theorem exhausted_result (P : Prims) (now : Int) (txs : List Transaction) (prev : Bytes)
    (hnone : ∀ n, n < maxNonce →
      ¬ bytesToNat (hashAt P (NewProofOfWork ⟨now, txs, prev, [], 0⟩) n) < 2 ^ (256 - 8)) :
    Run P (NewProofOfWork ⟨now, txs, prev, [], 0⟩)
        = (maxNonce, hashAt P (NewProofOfWork ⟨now, txs, prev, [], 0⟩) (maxNonce - 1)) ∧
      MineBlock P now txs prev
        = ⟨now, txs, prev, hashAt P (NewProofOfWork ⟨now, txs, prev, [], 0⟩) (maxNonce - 1),
            (maxNonce : Int)⟩ := by
  have ht := target_eq ⟨now, txs, prev, [], 0⟩
  have hrun := Run_exhausted P (NewProofOfWork ⟨now, txs, prev, [], 0⟩)
    (fun m hm => by rw [ht]; exact hnone m hm)
  refine ⟨hrun, ?_⟩
  simp only [MineBlock, hrun]

/-- C10 (as stated, refuted): with a hash that is never below the target the search is
exhausted, and `Run` still returns a nonce and a hash and `MineBlock` a block. -/
theorem Run_exhausted_returns_pair :
    (∀ n, n < maxNonce →
        ¬ bytesToNat (stuckPrims.sha256
            (serializeData stuckPrims (NewProofOfWork ⟨0, [], [], [], 0⟩) (n : Int)))
          < 2 ^ (256 - 8)) ∧
      Run stuckPrims (NewProofOfWork ⟨0, [], [], [], 0⟩) = (maxNonce, List.replicate 32 255) ∧
      MineBlock stuckPrims 0 [] [] = ⟨0, [], [], List.replicate 32 255, (maxNonce : Int)⟩ := by
  have hnone : ∀ n, n < maxNonce →
      ¬ bytesToNat (hashAt stuckPrims (NewProofOfWork ⟨0, [], [], [], 0⟩) n) < 2 ^ (256 - 8) := by
    intro n _
    have := stuck_never_below ⟨0, [], [], [], 0⟩ n
    rw [target_eq] at this
    exact this
  have e : hashAt stuckPrims (NewProofOfWork ⟨0, [], [], [], 0⟩) (maxNonce - 1)
      = List.replicate 32 255 := rfl
  have h := exhausted_result stuckPrims 0 [] [] hnone
  rw [e] at h
  exact ⟨hnone, h.1, h.2⟩

/-- C10 (amended): when no nonce in `[0, maxNonce)` gives a hash strictly below the target,
`Run` returns the pair of `maxNonce` and the hash of `serializeData(maxNonce - 1)`, and
`MineBlock` returns the block carrying that nonce and that hash, which is not below the
target; no failure is signalled. -/
theorem Run_exhausted_result (P : Prims) (now : Int) (txs : List Transaction) (prev : Bytes)
    (hnone : ∀ n, n < maxNonce →
      ¬ bytesToNat (P.sha256 (serializeData P (NewProofOfWork ⟨now, txs, prev, [], 0⟩) (n : Int)))
        < 2 ^ (256 - 8)) :
    Run P (NewProofOfWork ⟨now, txs, prev, [], 0⟩)
        = (maxNonce,
            P.sha256 (serializeData P (NewProofOfWork ⟨now, txs, prev, [], 0⟩)
              ((maxNonce - 1 : Nat) : Int))) ∧
      MineBlock P now txs prev
        = ⟨now, txs, prev,
            P.sha256 (serializeData P (NewProofOfWork ⟨now, txs, prev, [], 0⟩)
              ((maxNonce - 1 : Nat) : Int)),
            (maxNonce : Int)⟩ ∧
      ¬ bytesToNat (MineBlock P now txs prev).Hash < 2 ^ (256 - 8) := by
  have h := exhausted_result P now txs prev hnone
  refine ⟨h.1, h.2, ?_⟩
  rw [h.2]
  exact hnone (maxNonce - 1) (by decide)

theorem Run_exhausted_result_witness :
    Run stuckPrims (NewProofOfWork ⟨0, [], [], [], 0⟩)
        = (maxNonce,
            stuckPrims.sha256 (serializeData stuckPrims (NewProofOfWork ⟨0, [], [], [], 0⟩)
              ((maxNonce - 1 : Nat) : Int))) ∧
      MineBlock stuckPrims 0 [] []
        = ⟨0, [], [],
            stuckPrims.sha256 (serializeData stuckPrims (NewProofOfWork ⟨0, [], [], [], 0⟩)
              ((maxNonce - 1 : Nat) : Int)),
            (maxNonce : Int)⟩ ∧
      ¬ bytesToNat (MineBlock stuckPrims 0 [] []).Hash < 2 ^ (256 - 8) :=
  Run_exhausted_result stuckPrims 0 [] []
    (fun n _ => by
      have := stuck_never_below ⟨0, [], [], [], 0⟩ n
      rw [target_eq] at this
      exact this)

/-! ## Finite maps -/

theorem KV.has_eq_false_iff {α : Type} (m : KV α) (k : Bytes) :
    m.has k = false ↔ ∀ e ∈ m, e.1 ≠ k := by
  simp [KV.has]

theorem KV.get_eq_none_of_not_has {α : Type} (m : KV α) (k : Bytes) (h : m.has k = false) :
    m.get k = none := by
  induction m with
  | nil => rfl
  | cons e rest ih =>
    obtain ⟨a, w⟩ := e
    have h1 := (KV.has_eq_false_iff _ _).1 h
    have ha : a ≠ k := h1 (a, w) (List.mem_cons_self _ _)
    simp only [KV.get, ha, if_false]
    exact ih ((KV.has_eq_false_iff _ _).2 fun e he => h1 e (List.mem_cons_of_mem _ he))

theorem KV.get_place {α : Type} (m : KV α) (k : Bytes) (v : α) (k1 : Bytes)
    (h : m.has k = false) :
    (m.place k v).get k1 = if k = k1 then some v else m.get k1 := by
  induction m with
  | nil => simp [KV.place, KV.get]
  | cons e rest ih =>
    obtain ⟨a, w⟩ := e
    have h1 := (KV.has_eq_false_iff _ _).1 h
    have ha : a ≠ k := h1 (a, w) (List.mem_cons_self _ _)
    have hrest : KV.has rest k = false :=
      (KV.has_eq_false_iff _ _).2 fun e he => h1 e (List.mem_cons_of_mem _ he)
    simp only [KV.place]
    by_cases h2 : bytesLt k a = true
    · simp only [h2, if_true, KV.get]
    · simp only [h2, KV.get, ih hrest]
      by_cases h3 : a = k1
      · subst h3
        have : ¬ k = a := fun h => ha h.symm
        simp [this]
      · simp [h3]

theorem KV.get_cons {α : Type} (a : Bytes) (w : α) (rest : KV α) (k1 : Bytes) :
    KV.get ((a, w) :: rest) k1 = if a = k1 then some w else KV.get rest k1 := rfl

theorem KV.has_cons {α : Type} (a : Bytes) (w : α) (rest : KV α) (k : Bytes) :
    KV.has ((a, w) :: rest) k = (decide (a = k) || KV.has rest k) := by
  simp [KV.has]

theorem KV.get_replace {α : Type} (m : KV α) (k : Bytes) (v : α) (k1 : Bytes) :
    KV.get (m.map fun e => if e.1 = k then (k, v) else e) k1
      = if k = k1 then (if m.has k then some v else none) else m.get k1 := by
  induction m with
  | nil => simp [KV.get, KV.has]
  | cons e rest ih =>
    obtain ⟨a, w⟩ := e
    rw [List.map_cons, KV.has_cons]
    by_cases h1 : a = k
    · rw [if_pos (show (a, w).1 = k from h1), KV.get_cons, KV.get_cons, ih]
      by_cases h2 : k = k1
      · simp [h1, h2]
      · have : ¬ a = k1 := fun h => h2 (h1 ▸ h)
        simp [h2, this]
    · rw [if_neg (show ¬ (a, w).1 = k from h1), KV.get_cons, KV.get_cons, ih]
      by_cases h2 : a = k1
      · have : ¬ k = k1 := fun h => h1 (h2.trans h.symm)
        simp [h2, this]
      · by_cases h3 : k = k1
        · simp [h1, h2, h3]
        · simp [h2, h3]

theorem KV.get_insert {α : Type} (m : KV α) (k : Bytes) (v : α) (k1 : Bytes) :
    (m.insert k v).get k1 = if k = k1 then some v else m.get k1 := by
  unfold KV.insert
  by_cases h : m.has k = true
  · simp only [h, if_true, KV.get_replace]
  · have h0 : m.has k = false := by simpa using h
    rw [h0]
    exact KV.get_place _ _ _ _ h0

theorem KV.get_insert_self {α : Type} (m : KV α) (k : Bytes) (v : α) :
    (m.insert k v).get k = some v := by
  simp [KV.get_insert]

theorem KV.get_insert_of_ne {α : Type} (m : KV α) {k k1 : Bytes} (v : α) (h : k ≠ k1) :
    (m.insert k v).get k1 = m.get k1 := by
  simp [KV.get_insert, h]

theorem KV.insert_nil {α : Type} (k : Bytes) (v : α) : KV.insert ([] : KV α) k v = [(k, v)] := by
  simp [KV.insert, KV.has, KV.place]


/-! ## Genesis -/

theorem hash32_ne_nil {h : Bytes} (hl : h.length = 32) : h ≠ [] := by
  intro e; rw [e] at hl; simp at hl

theorem hash32_ne_lastHashKey {h : Bytes} (hl : h.length = 32) : h ≠ lastHashKey := by
  intro e; rw [e] at hl; simp [lastHashKey] at hl

theorem KV.put_hash32 {α : Type} (m : KV α) {h : Bytes} (hl : h.length = 32) (v : α) :
    m.put h v = .ok (m.insert h v) := by
  simp [KV.put, hl]

theorem putBlock_hash32 (bb : BlocksBucket) (b : Block) (hl : b.Hash.length = 32) :
    bb.putBlock b = .ok ⟨bb.blocks.insert b.Hash b, some b.Hash⟩ := by
  simp [BlocksBucket.putBlock, KV.put_hash32 _ hl, Res.bind, hash32_ne_lastHashKey hl]

/-- C1 (the code departs from it): for an address whose decoding has at least 5 bytes,
`NewBlockchain` on an empty store does persist one block whose only transaction is the
coinbase paying 1000 to the address's pubkey hash, and the tip hash under `l`; but the session
it returns has a nil in-memory tip, so the following `Reindex` walks no block, the index stays
empty and `GetBalance` returns 0 instead of 1000. -/
theorem genesis_session_balance_zero (P : Prims) (now : Int) (A : Bytes)
    (hA : 5 ≤ (P.Base58Decode A).length) :
    ∃ cbtx pubKeyHash,
      addressPubKeyHash P A = .ok pubKeyHash ∧
      NewCoinbaseTx P A genesisCoinbaseData [] = .ok cbtx ∧
      cbtx.IsCoinbase = true ∧ cbtx.Vout = [⟨1000, pubKeyHash⟩] ∧
      NewBlockchain P now DB.empty A
        = .ok ⟨[], ⟨some ⟨[((NewGenesisBlock P now cbtx).Hash, NewGenesisBlock P now cbtx)],
                        some (NewGenesisBlock P now cbtx).Hash⟩, none⟩⟩ ∧
      (NewGenesisBlock P now cbtx).Transactions = [cbtx] ∧
      genesisSession P now A
        = .ok ⟨⟨[], ⟨some ⟨[((NewGenesisBlock P now cbtx).Hash, NewGenesisBlock P now cbtx)],
                        some (NewGenesisBlock P now cbtx).Hash⟩, some []⟩⟩⟩ ∧
      genesisBalance P now A = .ok 0 := by
  have hpk : addressPubKeyHash P A
      = .ok (((P.Base58Decode A).take ((P.Base58Decode A).length - 4)).drop 1) := by
    simp [addressPubKeyHash, hA]
  have hcb : NewCoinbaseTx P A genesisCoinbaseData []
      = .ok { ID := Transaction.Hash P ⟨[], [⟨[], -1, [], genesisCoinbaseData⟩],
                [⟨1000, ((P.Base58Decode A).take ((P.Base58Decode A).length - 4)).drop 1⟩]⟩,
              Vin := [⟨[], -1, [], genesisCoinbaseData⟩],
              Vout := [⟨1000, ((P.Base58Decode A).take ((P.Base58Decode A).length - 4)).drop 1⟩] } := by
    simp [NewCoinbaseTx, NewTXOutput, hpk, Res.bind, subsidy, genesisCoinbaseData]
  refine ⟨_, _, hpk, hcb, ?_, rfl, ?_, ?_, ?_, ?_⟩
  · simp [Transaction.IsCoinbase]
  · have hl := fun tx => MineBlock_hash_length P now [tx] []
    simp only [NewBlockchain, GetBlockchain, DB.empty, CreateBlockchain, hcb, Res.bind,
      NewGenesisBlock, putBlock_hash32 _ _ (hl _), KV.insert_nil]
  · simp [NewGenesisBlock, MineBlock]
  · have hl := fun tx => MineBlock_hash_length P now [tx] []
    have hne := fun tx => hash32_ne_nil (hl tx)
    simp only [genesisSession, NewBlockchain, GetBlockchain, DB.empty, CreateBlockchain, hcb,
      Res.bind, NewGenesisBlock, putBlock_hash32 _ _ (hl _), KV.insert_nil, NewUTXOSet,
      UTXOSet.Reindex, Blockchain.FindUTXO, walkFuel, Blockchain.ResetIterator, FindUTXO.loop,
      BlockchainIterator.Next, GetBlockByHash, KV.get, lastHashKey]
    simp [hne, zeroBlock, Res.bind, Reindex.putAll]
  · have hl := fun tx => MineBlock_hash_length P now [tx] []
    have hne := fun tx => hash32_ne_nil (hl tx)
    simp only [genesisBalance, genesisSession, NewBlockchain, GetBlockchain, DB.empty,
      CreateBlockchain, hcb,
      Res.bind, NewGenesisBlock, putBlock_hash32 _ _ (hl _), KV.insert_nil, NewUTXOSet,
      UTXOSet.Reindex, Blockchain.FindUTXO, walkFuel, Blockchain.ResetIterator, FindUTXO.loop,
      BlockchainIterator.Next, GetBlockByHash, KV.get, lastHashKey]
    simp [hne, zeroBlock, Res.bind, Reindex.putAll, UTXOSet.GetBalance, hpk, UTXOSet.FindUTXO]

theorem genesis_session_balance_zero_witness :
    5 ≤ (smallPrims.Base58Decode addressA).length ∧
      genesisBalance smallPrims 0 addressA = .ok 0 := by
  obtain ⟨_, _, _, _, _, _, _, _, _, h⟩ :=
    genesis_session_balance_zero smallPrims 0 addressA (by decide!)
  exact ⟨by decide!, h⟩

/-! ## Transfers and the index -/

/-- C2 (the code departs from it): in `ledger2` the index is what `Reindex` computes from the
chain, A's balance is 900 and B's is 0; the transfer of 50 from A to B (`NewUTXOTransaction`,
`AddBlock`, `Update`) succeeds and leaves A's balance at 1750 instead of 850, because `Update`
keeps the spent output of 900. In the session that created the chain, the transfer of 100 of
the claim's own example fails with the not-enough-funds error. -/
theorem transfer_leaves_spent_output :
    (ledger2.bind fun u => u.Reindex) = ledger2 ∧
      chainShape ledger2
        = .ok [[([(1, 0)], [100])], [([(2, 0)], [100, 900])], [([(3, -1)], [1000])]] ∧
      balanceIn ledger2 addressA = .ok 900 ∧ balanceIn ledger2 addressB = .ok 0 ∧
      chainShape ledger3
        = .ok [[([(2, 1)], [50, 850])], [([(2, 0)], [100])], [([(3, 0)], [100, 900])],
            [([(4, -1)], [1000])]] ∧
      balanceIn ledger3 addressA = .ok 1750 ∧ balanceIn ledger3 addressB = .ok 50 ∧
      ((genesisSession smallPrims 0 addressA).bind fun u =>
          transfer smallPrims 1 u walletA addressA addressB 100) = .error .noFunds := by
  refine ⟨?_, ?_, ?_, ?_, ?_, ?_, ?_, ?_⟩ <;> decide!

/-- C3 (the code departs from it): after the three transfers of `ledger3`, each an `AddBlock`
followed by `Update` and the first starting from a `Reindex` of the genesis-only chain, the
index still lists the output of 900 under the transaction at chain position 2, whose two
outputs are both spent; `Reindex` over the same chain has no entry for that transaction. -/
theorem update_differs_from_reindex :
    indexValues ledger0 = .ok [(0, [1000])] ∧
      chainShape ledger3
        = .ok [[([(2, 1)], [50, 850])], [([(2, 0)], [100])], [([(3, 0)], [100, 900])],
            [([(4, -1)], [1000])]] ∧
      indexValues ledger3 = .ok [(0, [50, 850]), (1, [100]), (2, [900])] ∧
      indexValues (ledger3.bind fun u => u.Reindex) = .ok [(0, [50, 850]), (1, [100])] := by
  refine ⟨?_, ?_, ?_, ?_⟩ <;> decide!

/-! ## Admission -/

theorem verifyAll_ok_iff (P : Prims) (bc : Blockchain) (txs : List Transaction) :
    AddBlock.verifyAll P bc txs = .ok () ↔ ∀ tx ∈ txs, bc.VerifyTransaction P tx = .ok true := by
  induction txs with
  | nil => simp [AddBlock.verifyAll]
  | cons tx rest ih =>
    rw [AddBlock.verifyAll]
    cases h : bc.VerifyTransaction P tx with
    | ok valid =>
      cases valid with
      | true => simp [Res.bind, ih, h]
      | false => simp [Res.bind, h]
    | error e => simp [Res.bind, h]
    | panic => simp [Res.bind, h]
    | hang => simp [Res.bind, h]

/-- What a successful `AddBlock` did. -/
theorem AddBlock_ok_iff (P : Prims) (now : Int) (bc : Blockchain) (txs : List Transaction)
    (r : Block × Blockchain) :
    bc.AddBlock P now txs = .ok r ↔
      ∃ bb, bc.db.blocksBucket = some bb ∧ AddBlock.verifyAll P bc txs = .ok () ∧
        r = (MineBlock P now txs (bb.last.getD []),
              ⟨(MineBlock P now txs (bb.last.getD [])).Hash,
                { bc.db with
                  blocksBucket := some (BlocksBucket.mk
                    (bb.blocks.insert (MineBlock P now txs (bb.last.getD [])).Hash
                      (MineBlock P now txs (bb.last.getD [])))
                    (some (MineBlock P now txs (bb.last.getD [])).Hash)) }⟩) := by
  unfold Blockchain.AddBlock GetLastHash
  cases hb : bc.db.blocksBucket with
  | none => simp [Res.bind]
  | some bb =>
    cases hv : AddBlock.verifyAll P bc txs with
    | ok u =>
      have hl := MineBlock_hash_length P now txs (bb.last.getD [])
      simp only [Res.bind, InsertNewBlock, hb, putBlock_hash32 _ _ hl]
      constructor
      · intro h
        injection h with h
        exact ⟨bb, rfl, trivial, h.symm⟩
      · rintro ⟨bb', hbb, _, hr⟩
        injection hbb with hbb
        subst hbb
        rw [hr]
    | error e => simp [Res.bind]
    | panic => simp [Res.bind]
    | hang => simp [Res.bind]

/-- C5 (as stated, refuted): the transfer of `ledger0` spends output 0 of the genesis
transaction; `AddBlock` accepts it, accepts it a second time on the chain that already holds
it (`replayed`), and accepts a list that holds it twice (`doubled`). -/
theorem double_spend_accepted :
    chainShape replayed
        = .ok [[([(2, 0)], [100, 900])], [([(2, 0)], [100, 900])], [([(3, -1)], [1000])]] ∧
      chainShape doubled
        = .ok [[([(2, 0)], [100, 900]), ([(2, 0)], [100, 900])], [([(3, -1)], [1000])]] := by
  refine ⟨?_, ?_⟩ <;> decide!

/-- C5 (amended): `AddBlock` checks each listed transaction against the chain on its own and
does not look for outputs referenced twice: whenever it accepts a list it also accepts the
list repeated twice, in which every referenced output is referenced at least twice, and
appends a block holding exactly that list. -/
theorem AddBlock_accepts_repeated_list (P : Prims) (now now1 : Int) (bc : Blockchain)
    (txs : List Transaction) (r : Block × Blockchain) (h : bc.AddBlock P now txs = .ok r) :
    ∃ r1, bc.AddBlock P now1 (txs ++ txs) = .ok r1 ∧ r1.1.Transactions = txs ++ txs ∧
      r1.2.tip = r1.1.Hash ∧ GetBlockByHash r1.2.db r1.1.Hash = .ok r1.1 := by
  obtain ⟨bb, hbb, hv, _⟩ := (AddBlock_ok_iff P now bc txs r).1 h
  have hv2 : AddBlock.verifyAll P bc (txs ++ txs) = .ok () := by
    rw [verifyAll_ok_iff] at hv ⊢
    intro tx htx
    rcases List.mem_append.1 htx with h1 | h1 <;> exact hv tx h1
  refine ⟨_, (AddBlock_ok_iff P now1 bc (txs ++ txs) _).2 ⟨bb, hbb, hv2, rfl⟩, ?_, rfl, ?_⟩
  · simp [MineBlock]
  · have hl := MineBlock_hash_length P now1 (txs ++ txs) (bb.last.getD [])
    simp [GetBlockByHash, hash32_ne_lastHashKey hl, KV.get_insert_self]

theorem AddBlock_accepts_repeated_list_witness :
    ∃ r1, session0.AddBlock smallPrims 2 ([tx0] ++ [tx0]) = .ok r1 ∧
      r1.1.Transactions = [tx0] ++ [tx0] ∧
      r1.2.tip = r1.1.Hash ∧ GetBlockByHash r1.2.db r1.1.Hash = .ok r1.1 :=
  AddBlock_accepts_repeated_list smallPrims 1 2 session0 [tx0]
    ((session0.AddBlock smallPrims 1 [tx0]).getD (zeroBlock, session0)) (by decide!)

/-- C6 (as stated, refuted): `inflatedTx` spends the genesis output of 1000 and pays 5000 to
B; `AddBlock` appends it, and after `Update` B's balance is 5000. -/
theorem inflation_accepted :
    chainShape inflated = .ok [[([(1, 0)], [5000])], [([(2, -1)], [1000])]] ∧
      balanceIn ledger0 addressA = .ok 1000 ∧ balanceIn ledger0 addressB = .ok 0 ∧
      balanceIn inflated addressA = .ok 0 ∧ balanceIn inflated addressB = .ok 5000 := by
  refine ⟨?_, ?_, ?_, ?_, ?_⟩ <;> decide!

/-- C6 (amended): admission compares no values. `AddBlock` appends a block exactly when the
blocks bucket exists and every listed transaction passes `VerifyTransaction` (each input names
a transaction found on the chain, whose output index is in range, and its signature verifies);
the appended block then holds exactly the listed transactions. -/
theorem AddBlock_iff_all_verified (P : Prims) (now : Int) (bc : Blockchain)
    (txs : List Transaction) :
    ((∃ r, bc.AddBlock P now txs = .ok r) ↔
        (bc.db.blocksBucket ≠ none ∧ ∀ tx ∈ txs, bc.VerifyTransaction P tx = .ok true)) ∧
      ∀ r, bc.AddBlock P now txs = .ok r → r.1.Transactions = txs := by
  constructor
  · constructor
    · rintro ⟨r, hr⟩
      obtain ⟨bb, hbb, hv, _⟩ := (AddBlock_ok_iff P now bc txs r).1 hr
      exact ⟨by simp [hbb], (verifyAll_ok_iff P bc txs).1 hv⟩
    · rintro ⟨hbb, hv⟩
      cases hb : bc.db.blocksBucket with
      | none => exact absurd hb hbb
      | some bb =>
        exact ⟨_, (AddBlock_ok_iff P now bc txs _).2
          ⟨bb, hb, (verifyAll_ok_iff P bc txs).2 hv, rfl⟩⟩
  · intro r hr
    obtain ⟨bb, _, _, h⟩ := (AddBlock_ok_iff P now bc txs r).1 hr
    rw [h]
    simp [MineBlock]

/-! ## Reindex -/

theorem keepAt_congr (f g : Int → Bool) (l : List TXOutput) :
    ∀ n : Nat, (∀ i : Nat, n ≤ i → f (i : Int) = g (i : Int)) → keepAt f n l = keepAt g n l := by
  induction l with
  | nil => intro n _; rfl
  | cons out rest ih =>
    intro n h
    simp only [keepAt]
    rw [h n (le_refl _), ih (n + 1) (fun i hi => h i (by omega))]

/-- `FindUTXO.outputs` under the key it writes: the outputs kept are appended to the entry. -/
theorem FindUTXO.outputs_get_self (spent : List Int) (txID : Bytes) (l : List TXOutput) :
    ∀ (n : Nat) (UTXO : KV TXOutputs),
      (FindUTXO.outputs spent txID n l UTXO).get txID
        = match UTXO.get txID with
          | some o => some ⟨o.Outputs ++ keepAt (fun i => decide (i ∉ spent)) n l⟩
          | none =>
            if keepAt (fun i => decide (i ∉ spent)) n l = [] then none
            else some ⟨keepAt (fun i => decide (i ∉ spent)) n l⟩ := by
  induction l with
  | nil =>
    intro n UTXO
    simp only [FindUTXO.outputs, keepAt]
    cases h : UTXO.get txID <;> simp
  | cons out rest ih =>
    intro n UTXO
    simp only [FindUTXO.outputs, keepAt]
    by_cases hs : (n : Int) ∈ spent
    · simp only [hs, if_true, not_true_eq_false, decide_False, Bool.false_eq_true, if_false]
      exact ih (n + 1) UTXO
    · simp only [hs, if_false, not_false_eq_true, decide_True, if_true]
      rw [ih (n + 1), KV.get_insert_self]
      cases h : UTXO.get txID <;> simp

theorem FindUTXO.outputs_get_other (spent : List Int) (txID : Bytes) (l : List TXOutput)
    (k : Bytes) (hk : txID ≠ k) :
    ∀ (n : Nat) (UTXO : KV TXOutputs),
      (FindUTXO.outputs spent txID n l UTXO).get k = UTXO.get k := by
  induction l with
  | nil => intro n UTXO; rfl
  | cons out rest ih =>
    intro n UTXO
    simp only [FindUTXO.outputs]
    by_cases hs : (n : Int) ∈ spent
    · simp only [hs, if_true]
      exact ih (n + 1) UTXO
    · simp only [hs, if_false]
      rw [ih (n + 1), KV.get_insert_of_ne _ _ hk]

theorem mem_markSpent (m : KV (List Int)) (vin : TXInput) (k : Bytes) (idx : Int) :
    idx ∈ ((markSpent m vin).get k).getD []
      ↔ idx ∈ (m.get k).getD [] ∨ (vin.Txid = k ∧ vin.Vout = idx) := by
  unfold markSpent
  rw [KV.get_insert]
  by_cases h : vin.Txid = k
  · subst h
    simp only [if_true, Option.getD_some, List.mem_append, List.mem_singleton, true_and]
    constructor
    · rintro (h | h)
      · exact Or.inl h
      · exact Or.inr h.symm
    · rintro (h | h)
      · exact Or.inl h
      · exact Or.inr h.symm
  · simp [h]

theorem mem_markSpent_foldl (vins : List TXInput) (k : Bytes) (idx : Int) :
    ∀ m : KV (List Int),
      idx ∈ ((vins.foldl markSpent m).get k).getD []
        ↔ idx ∈ (m.get k).getD [] ∨ ∃ vin ∈ vins, vin.Txid = k ∧ vin.Vout = idx := by
  induction vins with
  | nil => intro m; simp
  | cons vin rest ih =>
    intro m
    rw [List.foldl_cons, ih, mem_markSpent]
    simp only [List.mem_cons, exists_eq_or_imp]
    tauto

theorem refsOf_append (l1 l2 : List Transaction) (k : Bytes) (idx : Int) :
    refsOf (l1 ++ l2) k idx ↔ refsOf l1 k idx ∨ refsOf l2 k idx := by
  simp only [refsOf, List.mem_append, or_and_right, exists_or]

theorem refsOf_singleton (t : Transaction) (k : Bytes) (idx : Int) :
    refsOf [t] k idx ↔ t.IsCoinbase = false ∧ ∃ vin ∈ t.Vin, vin.Txid = k ∧ vin.Vout = idx := by
  simp [refsOf]

theorem referenced_iff (txs : List Transaction) (k : Bytes) (idx : Int) :
    referenced txs k idx = true ↔ ∃ t ∈ txs, ∃ vin ∈ t.Vin, vin.Txid = k ∧ vin.Vout = idx := by
  simp [referenced]

/-- An input of a coinbase transaction has output index -1. -/
theorem coinbase_vout {t : Transaction} (h : t.IsCoinbase = true) {vin : TXInput}
    (hv : vin ∈ t.Vin) : vin.Vout = -1 := by
  unfold Transaction.IsCoinbase at h
  split at h
  · rename_i inp heq
    rw [heq] at hv
    simp only [List.mem_singleton] at hv
    subst hv
    simp only [Bool.and_eq_true, decide_eq_true_eq] at h
    exact h.2
  · exact absurd h (by simp)

theorem find?_eq_none_of_not_mem_ids (l1 : List Transaction) (k : Bytes)
    (h : k ∉ l1.map (fun t => t.ID)) : l1.find? (fun t => decide (t.ID = k)) = none := by
  rw [List.find?_eq_none]
  intro t ht
  simp only [decide_eq_true_eq]
  intro e
  exact h (List.mem_map.2 ⟨t, ht, e⟩)

/-- One step of the walk keeps the invariant, when the IDs are pairwise distinct and every
reference to the transaction visited has been met before it. -/
theorem FindUTXO.Inv_step (l l1 l2 : List Transaction) (t : Transaction)
    (hl : l = l1 ++ t :: l2) (hN : (l.map fun t => t.ID).Nodup)
    (hH : ∀ i : Nat, referenced l t.ID (i : Int) = true → refsOf l1 t.ID (i : Int))
    (st : KV TXOutputs × KV (List Int)) (hinv : FindUTXO.Inv l l1 st) :
    FindUTXO.Inv l (l1 ++ [t]) (FindUTXO.tx st t) := by
  have hfresh : t.ID ∉ l1.map (fun t => t.ID) := by
    rw [hl, List.map_append, List.map_cons] at hN
    have := (List.nodup_append.1 hN).2.2
    intro hmem
    exact this hmem (List.mem_cons_self _ _)
  constructor
  · intro k idx
    rw [refsOf_append, refsOf_singleton, ← hinv.spent k idx]
    simp only [FindUTXO.tx]
    by_cases hc : t.IsCoinbase = false
    · simp only [hc, if_true, mem_markSpent_foldl, true_and]
    · have hc1 : t.IsCoinbase = true := by simpa using hc
      simp [hc1]
  · intro k
    simp only [FindUTXO.tx]
    by_cases hk : t.ID = k
    · subst hk
      rw [FindUTXO.outputs_get_self, hinv.utxo t.ID, find?_eq_none_of_not_mem_ids l1 t.ID hfresh]
      have hfind : (l1 ++ [t]).find? (fun u => decide (u.ID = t.ID)) = some t := by
        rw [List.find?_append, find?_eq_none_of_not_mem_ids l1 t.ID hfresh]
        simp
      rw [hfind]
      have hkeep : keepAt (fun i => decide (i ∉ (st.2.get t.ID).getD [])) 0 t.Vout
          = unreferenced l t := by
        unfold unreferenced
        apply keepAt_congr
        intro i _
        by_cases hr : referenced l t.ID (i : Int) = true
        · have := (hinv.spent t.ID i).2 (hH i hr)
          simp [hr, this]
        · have hr' : referenced l t.ID (i : Int) = false := by simpa using hr
          have hns : (i : Int) ∉ (st.2.get t.ID).getD [] := by
            intro hmem
            obtain ⟨u, hu, _, vin, hvin, h1, h2⟩ := (hinv.spent t.ID i).1 hmem
            have : referenced l t.ID (i : Int) = true :=
              (referenced_iff _ _ _).2 ⟨u, by rw [hl]; exact List.mem_append_left _ hu, vin, hvin, h1, h2⟩
            rw [hr'] at this
            exact absurd this (by simp)
          simp [hr', hns]
      simp only [hkeep]
    · rw [FindUTXO.outputs_get_other _ _ _ _ hk, hinv.utxo k, List.find?_append]
      have : [t].find? (fun u => decide (u.ID = k)) = none := by simp [hk]
      rw [this]
      cases List.find? (fun t => decide (t.ID = k)) l1 <;> rfl

/-- The walk over all transactions ends in the invariant for the whole list. -/
theorem FindUTXO.Inv_foldl (l : List Transaction) (hN : (l.map fun t => t.ID).Nodup)
    (hH : ∀ l1 t l2, l = l1 ++ t :: l2 →
      ∀ i : Nat, referenced l t.ID (i : Int) = true → refsOf l1 t.ID (i : Int)) :
    ∀ (l2 l1 : List Transaction) (st : KV TXOutputs × KV (List Int)),
      l = l1 ++ l2 → FindUTXO.Inv l l1 st → FindUTXO.Inv l l (l2.foldl FindUTXO.tx st) := by
  intro l2
  induction l2 with
  | nil =>
    intro l1 st hl hinv
    rw [List.append_nil] at hl
    rw [List.foldl_nil, hl]
    rw [hl] at hinv
    exact hinv
  | cons t rest ih =>
    intro l1 st hl hinv
    rw [List.foldl_cons]
    apply ih (l1 ++ [t])
    · rw [hl]; simp
    · exact FindUTXO.Inv_step l l1 rest t hl hN (hH l1 t rest hl) st hinv

theorem FindUTXO.Inv_init (l : List Transaction) : FindUTXO.Inv l [] ([], []) := by
  constructor
  · intro k idx
    simp [refsOf, KV.get]
  · intro k
    simp [KV.get]

/-- The result map of the walk over a chain with transactions `l`. -/
theorem FindUTXO.foldl_get (l : List Transaction) (hN : (l.map fun t => t.ID).Nodup)
    (hH : ∀ l1 t l2, l = l1 ++ t :: l2 →
      ∀ i : Nat, referenced l t.ID (i : Int) = true → refsOf l1 t.ID (i : Int))
    (k : Bytes) :
    (l.foldl FindUTXO.tx ([], [])).1.get k = expectedEntry l k :=
  (FindUTXO.Inv_foldl l hN hH l [] ([], []) rfl (FindUTXO.Inv_init l)).utxo k

theorem txsOf_cons (b : Block) (rest : List Block) :
    txsOf (b :: rest) = b.Transactions ++ txsOf rest := by
  simp [txsOf]

theorem txsOf_nil : txsOf [] = [] := rfl

/-- `FindUTXO` folds its step over the transactions of the blocks that the walk returns. -/
theorem FindUTXO.loop_of_walk (db : DB) :
    ∀ (fuel : Nat) (it : BlockchainIterator) (chain : List Block)
      (st : KV TXOutputs × KV (List Int)),
      walk db fuel it = .ok chain →
      FindUTXO.loop db fuel it st = .ok ((txsOf chain).foldl FindUTXO.tx st).1 := by
  intro fuel
  induction fuel with
  | zero => intro it chain st h; simp [walk] at h
  | succ fuel ih =>
    intro it chain st h
    rw [walk] at h
    rw [FindUTXO.loop]
    cases hn : it.Next db with
    | ok r =>
      rw [hn] at h
      simp only [Res.bind] at h ⊢
      by_cases hp : r.1.PrevBlockHash.length = 0
      · rw [if_pos hp] at h
        rw [if_pos hp]
        injection h with h
        subst h
        simp [txsOf]
      · rw [if_neg hp] at h
        rw [if_neg hp]
        cases hw : walk db fuel r.2 with
        | ok rest =>
          rw [hw] at h
          simp only at h
          injection h with h
          subst h
          rw [ih r.2 rest _ hw, txsOf_cons, List.foldl_append]
        | error e => rw [hw] at h; simp at h
        | panic => rw [hw] at h; simp at h
        | hang => rw [hw] at h; simp at h
    | error e => rw [hn] at h; simp [Res.bind] at h
    | panic => rw [hn] at h; simp [Res.bind] at h
    | hang => rw [hn] at h; simp [Res.bind] at h

/-! ### Keys of a finite map -/

theorem KV.keys_replace {α : Type} (m : KV α) (k : Bytes) (v : α) :
    (m.map fun e => if e.1 = k then (k, v) else e).map Prod.fst = m.map Prod.fst := by
  induction m with
  | nil => rfl
  | cons e rest ih =>
    rw [List.map_cons, List.map_cons, List.map_cons, ih]
    by_cases h : e.1 = k
    · rw [if_pos h, h]
    · rw [if_neg h]

theorem KV.place_perm {α : Type} (m : KV α) (k : Bytes) (v : α) :
    List.Perm (m.place k v) ((k, v) :: m) := by
  induction m with
  | nil => exact List.Perm.refl _
  | cons e rest ih =>
    obtain ⟨a, w⟩ := e
    simp only [KV.place]
    by_cases h : bytesLt k a = true
    · rw [if_pos h]
    · rw [if_neg h]
      exact (List.Perm.cons _ ih).trans (List.Perm.swap _ _ _)

theorem KV.mem_keys_iff_has {α : Type} (m : KV α) (k : Bytes) :
    k ∈ m.map Prod.fst ↔ m.has k = true := by
  simp [KV.has]

theorem KV.nodup_insert {α : Type} (m : KV α) (k : Bytes) (v : α)
    (h : (m.map Prod.fst).Nodup) : ((m.insert k v).map Prod.fst).Nodup := by
  unfold KV.insert
  by_cases hk : m.has k = true
  · rw [if_pos hk, KV.keys_replace]
    exact h
  · rw [if_neg hk]
    have hp := (KV.place_perm m k v).map Prod.fst
    rw [hp.nodup_iff, List.map_cons, List.nodup_cons]
    exact ⟨fun hmem => hk ((KV.mem_keys_iff_has m k).1 hmem), h⟩

theorem KV.length_insert {α : Type} (m : KV α) (k : Bytes) (v : α) (hk : m.has k = false) :
    (m.insert k v).length = m.length + 1 := by
  unfold KV.insert
  rw [hk]
  simpa using (KV.place_perm m k v).length_eq

theorem KV.get_isSome_of_mem {α : Type} (m : KV α) (e : Bytes × α) (he : e ∈ m) :
    (m.get e.1).isSome = true := by
  induction m with
  | nil => simp at he
  | cons a rest ih =>
    obtain ⟨k, w⟩ := a
    rw [KV.get_cons]
    by_cases h : k = e.1
    · simp [h]
    · rw [if_neg h]
      rcases List.mem_cons.1 he with h1 | h1
      · subst h1
        exact absurd rfl h
      · exact ih h1

theorem KV.has_iff_get_isSome {α : Type} (m : KV α) (k : Bytes) :
    m.has k = true ↔ (m.get k).isSome = true := by
  induction m with
  | nil => simp [KV.has, KV.get]
  | cons a rest ih =>
    obtain ⟨a, w⟩ := a
    rw [KV.has_cons, KV.get_cons]
    by_cases h : a = k
    · simp [h]
    · simp [h, ih]

theorem FindUTXO.outputs_nodup (spent : List Int) (txID : Bytes) (l : List TXOutput) :
    ∀ (n : Nat) (UTXO : KV TXOutputs), (UTXO.map Prod.fst).Nodup →
      ((FindUTXO.outputs spent txID n l UTXO).map Prod.fst).Nodup := by
  induction l with
  | nil => intro n UTXO h; exact h
  | cons out rest ih =>
    intro n UTXO h
    simp only [FindUTXO.outputs]
    by_cases hs : (n : Int) ∈ spent
    · rw [if_pos hs]
      exact ih _ _ h
    · rw [if_neg hs]
      exact ih _ _ (KV.nodup_insert _ _ _ h)

theorem FindUTXO.foldl_nodup (l : List Transaction) :
    ∀ st : KV TXOutputs × KV (List Int), (st.1.map Prod.fst).Nodup →
      (((l.foldl FindUTXO.tx st).1).map Prod.fst).Nodup := by
  induction l with
  | nil => intro st h; exact h
  | cons t rest ih =>
    intro st h
    rw [List.foldl_cons]
    apply ih
    simp only [FindUTXO.tx]
    exact FindUTXO.outputs_nodup _ _ _ _ _ h

/-- A key that `Bucket.Put` accepts. -/
theorem KV.put_of_valid {α : Type} (m : KV α) (k : Bytes) (v : α)
    (h1 : k ≠ []) (h2 : k.length ≤ 32768) : m.put k v = .ok (m.insert k v) := by
  have h0 : k.length ≠ 0 := fun h => h1 (List.length_eq_zero.1 h)
  have h3 : ¬ 32768 < k.length := by omega
  simp [KV.put, h0, h3]

/-- With keys that are accepted and pairwise distinct, the second step of `Reindex` writes
every entry of the map that `FindUTXO` returned. -/
theorem Reindex.putAll_get (entries : List (Bytes × TXOutputs)) :
    (∀ e ∈ entries, e.1 ≠ [] ∧ e.1.length ≤ 32768) → (entries.map Prod.fst).Nodup →
    ∀ (b : KV TXOutputs) (k : Bytes),
      (Reindex.putAll entries b).get k
        = match KV.get entries k with
          | some v => some v
          | none => b.get k := by
  induction entries with
  | nil => intro _ _ b k; simp [Reindex.putAll, KV.get]
  | cons e rest ih =>
    obtain ⟨a, w⟩ := e
    intro hv hn b k
    have ha := hv (a, w) (List.mem_cons_self _ _)
    rw [List.map_cons, List.nodup_cons] at hn
    simp only [Reindex.putAll, KV.put_of_valid _ _ _ ha.1 ha.2]
    rw [ih (fun e he => hv e (List.mem_cons_of_mem _ he)) hn.2, KV.get_cons, KV.get_insert]
    by_cases h : a = k
    · subst h
      have hnone : KV.get rest a = none := by
        apply KV.get_eq_none_of_not_has
        cases hh : KV.has rest a with
        | false => rfl
        | true => exact absurd ((KV.mem_keys_iff_has rest a).2 hh) hn.1
      simp [hnone]
    · simp [h]

/-! ### Chains built by `AddBlock` -/

theorem NewCoinbaseTx_IsCoinbase (P : Prims) (a d r : Bytes) (cbtx : Transaction)
    (h : NewCoinbaseTx P a d r = .ok cbtx) : cbtx.IsCoinbase = true := by
  unfold NewCoinbaseTx at h
  cases ho : NewTXOutput P subsidy a with
  | ok out =>
    rw [ho] at h
    simp only [Res.bind] at h
    injection h with h
    subst h
    simp [Transaction.IsCoinbase]
  | error e => rw [ho] at h; simp [Res.bind] at h
  | panic => rw [ho] at h; simp [Res.bind] at h
  | hang => rw [ho] at h; simp [Res.bind] at h

theorem MineBlock_fields (P : Prims) (now : Int) (txs : List Transaction) (prev : Bytes) :
    (MineBlock P now txs prev).Transactions = txs ∧
      (MineBlock P now txs prev).PrevBlockHash = prev := by
  simp [MineBlock]

/-- A transaction that `FindTransactionByID` returns has the ID asked for and sits in a
stored block. -/
theorem FindTransactionByID.loop_ok (db : DB) (ID : Bytes) :
    ∀ (fuel : Nat) (it : BlockchainIterator) (t : Transaction),
      FindTransactionByID.loop db ID fuel it = .ok t →
      t.ID = ID ∧ ∃ bb k b, db.blocksBucket = some bb ∧ bb.blocks.get k = some b ∧
        t ∈ b.Transactions := by
  intro fuel
  induction fuel with
  | zero => intro it t h; simp [FindTransactionByID.loop] at h
  | succ fuel ih =>
    intro it t h
    rw [FindTransactionByID.loop] at h
    unfold BlockchainIterator.Next GetBlockByHash at h
    cases hb : db.blocksBucket with
    | none => rw [hb] at h; simp [Res.bind] at h
    | some bb =>
      rw [hb] at h
      simp only [Res.bind] at h
      obtain ⟨blk, hblk⟩ : ∃ blk, (if it.currentHash = lastHashKey then zeroBlock
          else (bb.blocks.get it.currentHash).getD zeroBlock) = blk := ⟨_, rfl⟩
      rw [hblk] at h
      cases hfind : blk.Transactions.find? (fun tx => decide (tx.ID = ID)) with
      | some tx =>
        rw [hfind] at h
        injection h with h
        subst h
        have hmem := List.mem_of_find?_eq_some hfind
        have hid := List.find?_some hfind
        simp only [decide_eq_true_eq] at hid
        refine ⟨hid, bb, ?_⟩
        by_cases hl : it.currentHash = lastHashKey
        · rw [if_pos hl] at hblk
          rw [← hblk] at hmem
          simp [zeroBlock] at hmem
        · rw [if_neg hl] at hblk
          cases hg : bb.blocks.get it.currentHash with
          | none =>
            rw [hg] at hblk
            rw [← hblk] at hmem
            simp [zeroBlock] at hmem
          | some b =>
            rw [hg] at hblk
            simp only [Option.getD_some] at hblk
            subst hblk
            exact ⟨it.currentHash, b, rfl, hg, hmem⟩
      | none =>
        rw [hfind] at h
        by_cases hp : blk.PrevBlockHash.length = 0
        · rw [if_pos hp] at h
          simp at h
        · rw [if_neg hp] at h
          have := ih _ t h
          rw [hb] at this
          exact this

theorem Blockchain.prevTXs_ok (bc : Blockchain) :
    ∀ (vins : List TXInput) (m m1 : KV Transaction), bc.prevTXs vins m = .ok m1 →
      ∀ vin ∈ vins, ∃ t, bc.FindTransactionByID vin.Txid = .ok t := by
  intro vins
  induction vins with
  | nil => intro m m1 _ vin hv; simp at hv
  | cons v rest ih =>
    intro m m1 h vin hv
    rw [Blockchain.prevTXs] at h
    cases hf : bc.FindTransactionByID v.Txid with
    | ok t =>
      rw [hf] at h
      simp only [Res.bind] at h
      rcases List.mem_cons.1 hv with h1 | h1
      · subst h1
        exact ⟨t, hf⟩
      · exact ih _ _ h vin h1
    | error e => rw [hf] at h; simp [Res.bind] at h
    | panic => rw [hf] at h; simp [Res.bind] at h
    | hang => rw [hf] at h; simp [Res.bind] at h

/-- Every input of a transaction that passed `VerifyTransaction` names a transaction of a
stored block. -/
theorem VerifyTransaction_resolves (P : Prims) (bc : Blockchain) (tx : Transaction) (v : Bool)
    (h : bc.VerifyTransaction P tx = .ok v) :
    ∀ vin ∈ tx.Vin, ∃ t bb k b, t.ID = vin.Txid ∧ bc.db.blocksBucket = some bb ∧
      bb.blocks.get k = some b ∧ t ∈ b.Transactions := by
  intro vin hv
  unfold Blockchain.VerifyTransaction at h
  cases hp : bc.prevTXs tx.Vin [] with
  | ok m =>
    obtain ⟨t, ht⟩ := Blockchain.prevTXs_ok bc tx.Vin [] m hp vin hv
    obtain ⟨hid, bb, k, b, h1, h2, h3⟩ := FindTransactionByID.loop_ok _ _ _ _ _ ht
    exact ⟨t, bb, k, b, hid, h1, h2, h3⟩
  | error e => rw [hp] at h; simp [Res.bind] at h
  | panic => rw [hp] at h; simp [Res.bind] at h
  | hang => rw [hp] at h; simp [Res.bind] at h

theorem mem_txsOf {chain : List Block} {b : Block} {t : Transaction} (hb : b ∈ chain)
    (ht : t ∈ b.Transactions) : t ∈ txsOf chain := by
  simp only [txsOf, List.mem_flatten, List.mem_map]
  exact ⟨b.Transactions, ⟨b, hb, rfl⟩, ht⟩

theorem RefsLater_append (txs old : List Transaction)
    (hres : ∀ t ∈ txs, ∀ vin ∈ t.Vin, vin.Txid ∈ old.map (fun u => u.ID))
    (hold : RefsLater old) : RefsLater (txs ++ old) := by
  induction txs with
  | nil => exact hold
  | cons t rest ih =>
    rw [List.cons_append]
    refine ⟨fun _ vin hv => ?_, ih (fun u hu => hres u (List.mem_cons_of_mem _ hu))⟩
    rw [List.map_append]
    exact List.mem_append_right _ (hres t (List.mem_cons_self _ _) vin hv)

theorem RefsLater_split (pre : List Transaction) (u : Transaction) (post : List Transaction)
    (h : RefsLater (pre ++ u :: post)) (hc : u.IsCoinbase = false) :
    ∀ vin ∈ u.Vin, vin.Txid ∈ post.map (fun t => t.ID) := by
  induction pre with
  | nil => exact h.1 hc
  | cons a rest ih => exact ih h.2

theorem CreateBlockchain_empty (P : Prims) (now : Int) (address : Bytes) (cbtx : Transaction)
    (db : DB) (hcb : NewCoinbaseTx P address genesisCoinbaseData [] = .ok cbtx)
    (h : CreateBlockchain P now DB.empty address = .ok ([], db)) :
    db = ⟨some ⟨[((NewGenesisBlock P now cbtx).Hash, NewGenesisBlock P now cbtx)],
            some (NewGenesisBlock P now cbtx).Hash⟩, none⟩ := by
  have hl := MineBlock_hash_length P now [cbtx] []
  simp only [CreateBlockchain, hcb, Res.bind, DB.empty, NewGenesisBlock,
    putBlock_hash32 _ _ hl, KV.insert_nil] at h
  injection h with h
  injection h with _ h
  exact h.symm

/-- The invariant of the stores that genesis creation and `AddBlock` produce. -/
theorem Built.inv (P : Prims) (db : DB) (chain : List Block) (h : Built P db chain) :
    ChainInv db chain := by
  induction h with
  | genesis now address cbtx db hcb hcreate =>
    have hdb := CreateBlockchain_empty P now address cbtx db hcb hcreate
    have hl : (NewGenesisBlock P now cbtx).Hash.length = 32 := MineBlock_hash_length P now [cbtx] []
    have hget : ∀ k b, KV.get [((NewGenesisBlock P now cbtx).Hash, NewGenesisBlock P now cbtx)] k
        = some b → b = NewGenesisBlock P now cbtx ∧ k = (NewGenesisBlock P now cbtx).Hash := by
      intro k b hk
      rw [KV.get_cons] at hk
      by_cases hkk : (NewGenesisBlock P now cbtx).Hash = k
      · rw [if_pos hkk] at hk
        injection hk with hk
        exact ⟨hk.symm, hkk.symm⟩
      · rw [if_neg hkk] at hk
        simp [KV.get] at hk
    subst hdb
    refine ⟨⟨_, rfl, rfl, ?_⟩, ?_, ?_, ?_, by simp, ?_⟩
    · intro k b hk
      obtain ⟨h1, h2⟩ := hget k b hk
      subst h1
      exact ⟨List.mem_singleton.2 rfl, h2⟩
    · intro b hb
      rw [List.mem_singleton.1 hb]
      exact hl
    · show (NewGenesisBlock P now cbtx).PrevBlockHash = []
      exact (MineBlock_fields P now [cbtx] []).2
    · have ht : txsOf [NewGenesisBlock P now cbtx] = [cbtx] := by
        simp [txsOf, NewGenesisBlock, (MineBlock_fields P now [cbtx] []).1]
      rw [ht]
      refine ⟨fun hc => ?_, trivial⟩
      rw [NewCoinbaseTx_IsCoinbase P _ _ _ _ hcb] at hc
      exact absurd hc (by simp)
    · intro _
      refine ⟨_, rfl, rfl, ?_⟩
      intro b hb
      rw [List.mem_singleton.1 hb, KV.get_cons, if_pos rfl]
  | addBlock now db chain tip txs r hbuilt hadd ih =>
    obtain ⟨bb, hbb, hv, hr⟩ := (AddBlock_ok_iff P now ⟨tip, db⟩ txs r).1 hadd
    obtain ⟨bb0, hbb0, hlast, hsub⟩ := ih.bucket
    have hbb1 : db.blocksBucket = some bb := hbb
    rw [hbb1] at hbb0
    injection hbb0 with hbb0
    subst hbb0
    obtain ⟨newest, rest, hchain⟩ := List.exists_cons_of_ne_nil ih.ne
    have hprev : bb.last.getD [] = newest.Hash := by
      rw [hlast, hchain]
      rfl
    have hl := MineBlock_hash_length P now txs (bb.last.getD [])
    have hf := MineBlock_fields P now txs (bb.last.getD [])
    subst hr
    have hres : ∀ t ∈ txs, ∀ vin ∈ t.Vin, vin.Txid ∈ (txsOf chain).map (fun u => u.ID) := by
      intro t ht vin hvin
      have hver := (verifyAll_ok_iff P ⟨tip, db⟩ txs).1 hv t ht
      obtain ⟨u, bb1, k, b, hid, h1, h2, h3⟩ :=
        VerifyTransaction_resolves P ⟨tip, db⟩ t true hver vin hvin
      have h1' : db.blocksBucket = some bb1 := h1
      rw [hbb1] at h1'
      injection h1' with h1'
      subst h1'
      exact List.mem_map.2 ⟨u, mem_txsOf (hsub k b h2).1 h3, hid⟩
    refine ⟨⟨_, rfl, rfl, ?_⟩, ?_, ?_, ?_, by simp, ?_⟩
    · intro k b hk
      rw [KV.get_insert] at hk
      by_cases hkk : (MineBlock P now txs (bb.last.getD [])).Hash = k
      · rw [if_pos hkk] at hk
        injection hk with hk
        subst hk
        exact ⟨List.mem_cons_self _ _, hkk.symm⟩
      · rw [if_neg hkk] at hk
        exact ⟨List.mem_cons_of_mem _ (hsub k b hk).1, (hsub k b hk).2⟩
    · intro b hb
      rcases List.mem_cons.1 hb with h1 | h1
      · rw [h1]; exact hl
      · exact ih.hash32 b h1
    · rw [hchain]
      refine ⟨?_, ?_⟩
      · rw [hf.2, hprev]
      · rw [← hchain]; exact ih.linked
    · rw [txsOf_cons, hf.1]
      exact RefsLater_append txs (txsOf chain) hres ih.refs
    · intro hnd
      rw [List.map_cons, List.nodup_cons] at hnd
      obtain ⟨bb2, hbb2, hlen, hst⟩ := ih.stored hnd.2
      rw [hbb1] at hbb2
      injection hbb2 with hbb2
      subst hbb2
      have hnot : bb.blocks.has (MineBlock P now txs (bb.last.getD [])).Hash = false := by
        cases hh : bb.blocks.has (MineBlock P now txs (bb.last.getD [])).Hash with
        | false => rfl
        | true =>
          have hs := (KV.has_iff_get_isSome _ _).1 hh
          obtain ⟨b, hb⟩ := Option.isSome_iff_exists.1 hs
          obtain ⟨hmem, hkey⟩ := hsub _ b hb
          exact absurd (List.mem_map.2 ⟨b, hmem, hkey.symm⟩) hnd.1
      refine ⟨_, rfl, ?_, ?_⟩
      · show (bb.blocks.insert _ _).length = (_ :: chain).length
        rw [KV.length_insert _ _ _ hnot, List.length_cons, hlen]
      · intro b hb
        show (bb.blocks.insert _ _).get b.Hash = some b
        rw [KV.get_insert]
        rcases List.mem_cons.1 hb with h1 | h1
        · rw [h1, if_pos rfl]
        · have hne : (MineBlock P now txs (bb.last.getD [])).Hash ≠ b.Hash := by
            intro e
            exact hnd.1 (List.mem_map.2 ⟨b, h1, e.symm⟩)
          rw [if_neg hne]
          exact hst b h1
  | index db chain b _ ih =>
    exact ⟨ih.bucket, ih.hash32, ih.linked, ih.refs, ih.ne, ih.stored⟩

/-- On a store that holds every block of a linked chain under its hash, the walk from the
hash of the newest block returns the chain. -/
theorem walk_linked (db : DB) (bb : BlocksBucket) (hdb : db.blocksBucket = some bb) :
    ∀ (chain : List Block) (b : Block) (rest : List Block), chain = b :: rest →
      Linked chain →
      (∀ c ∈ chain, c.Hash.length = 32 ∧ bb.blocks.get c.Hash = some c) →
      ∀ fuel, chain.length ≤ fuel → walk db fuel ⟨b.Hash⟩ = .ok chain := by
  intro chain
  induction chain with
  | nil => intro b rest h; simp at h
  | cons c tail ih =>
    intro b rest hc hlink hst fuel hfuel
    injection hc with h1 h2
    subst h1
    subst h2
    obtain ⟨h32, hget⟩ := hst c (List.mem_cons_self _ _)
    cases fuel with
    | zero => simp at hfuel
    | succ fuel =>
      have hnext : BlockchainIterator.Next db ⟨c.Hash⟩ = .ok (c, ⟨c.PrevBlockHash⟩) := by
        simp [BlockchainIterator.Next, GetBlockByHash, hdb, hash32_ne_lastHashKey h32, hget,
          Res.bind]
      rw [walk, hnext]
      simp only [Res.bind]
      cases tail with
      | nil =>
        have hp : c.PrevBlockHash = [] := hlink
        simp [hp]
      | cons c1 tail1 =>
        obtain ⟨hp, hlink1⟩ := hlink
        have h32' := (hst c1 (List.mem_cons_of_mem _ (List.mem_cons_self _ _))).1
        have hne : ¬ c.PrevBlockHash.length = 0 := by rw [hp, h32']; decide
        rw [if_neg hne, hp]
        have := ih c1 tail1 rfl hlink1
          (fun d hd => hst d (List.mem_cons_of_mem _ hd)) fuel
          (by simp only [List.length_cons] at hfuel ⊢; omega)
        rw [this]

/-- On a chain built by `AddBlock` with pairwise distinct transaction IDs, every reference to
an output of a transaction stands in a transaction that the walk visits before it. -/
theorem refs_before (l : List Transaction) (hN : (l.map fun t => t.ID).Nodup)
    (hR : RefsLater l) :
    ∀ l1 t l2, l = l1 ++ t :: l2 →
      ∀ i : Nat, referenced l t.ID (i : Int) = true → refsOf l1 t.ID (i : Int) := by
  intro l1 t l2 hl i href
  obtain ⟨u, hu, vin, hvin, hid, hidx⟩ := (referenced_iff _ _ _).1 href
  have hnc : u.IsCoinbase = false := by
    cases hc : u.IsCoinbase with
    | false => rfl
    | true =>
      have := coinbase_vout hc hvin
      rw [this] at hidx
      omega
  rw [hl] at hu
  rcases List.mem_append.1 hu with h1 | h1
  · exact ⟨u, h1, hnc, vin, hvin, hid, hidx⟩
  · exfalso
    have hnd : (t.ID :: l2.map (fun t => t.ID)).Nodup := by
      rw [hl, List.map_append, List.map_cons] at hN
      exact (List.nodup_append.1 hN).2.1
    have hnot : t.ID ∉ l2.map (fun t => t.ID) := (List.nodup_cons.1 hnd).1
    obtain ⟨A, B, hAB⟩ := List.append_of_mem h1
    have hsplit : l = (l1 ++ A) ++ u :: B := by rw [hl, hAB]; simp
    have hin := RefsLater_split (l1 ++ A) u B (hsplit ▸ hR) hnc vin hvin
    rw [hid] at hin
    have hB : ∀ x ∈ B, x ∈ l2 := by
      intro x hx
      cases A with
      | nil =>
        simp only [List.nil_append] at hAB
        injection hAB with _ h2
        rw [h2]; exact hx
      | cons a A1 =>
        simp only [List.cons_append] at hAB
        injection hAB with _ h2
        rw [h2]
        exact List.mem_append_right _ (List.mem_cons_of_mem _ hx)
    obtain ⟨x, hx, hxid⟩ := List.mem_map.1 hin
    exact hnot (List.mem_map.2 ⟨x, hB x hx, hxid⟩)

/-- C4 (as stated, refuted): on `ledger0`, `AddBlock` accepts the transaction `emptyIdTx`,
which has no input, an empty ID and one output of 5. The transaction IDs on the chain are
pairwise distinct and no input references that output (the coinbase input, whose `Txid` is
empty too, has output index -1), so the claim asks for an entry under the empty ID holding
it; `Reindex` writes no such entry, the index holds the genesis output only. -/
theorem reindex_skips_empty_id :
    chainShape ledgerEmptyId = .ok [[([], [5])], [([(0, -1)], [1000])]] ∧
      (ledgerEmptyId.bind fun u =>
          u.blockchainSession.txIDs.bind fun ids => .ok (decide ids.Nodup, ids.head?))
        = .ok (true, some []) ∧
      (ledgerEmptyId.bind fun u =>
          u.blockchainSession.blocks.bind fun chain => .ok (expectedEntry (txsOf chain) []))
        = .ok (some ⟨emptyIdTx.Vout⟩) ∧
      (ledgerEmptyId.bind fun u => .ok (KV.get (u.blockchainSession.db.utxoBucket.getD []) []))
        = .ok none ∧
      indexValues ledgerEmptyId = .ok [(1, [1000])] := by
  refine ⟨?_, ?_, ?_, ?_, ?_⟩ <;> decide!

/-- C4 (amended): take a store built by genesis creation and successful `AddBlock` calls, with
the UTXO bucket created, whose chain has pairwise distinct block hashes and pairwise distinct
transaction IDs, every ID a key that the store accepts (not empty, at most 32768 bytes). In
the session whose in-memory tip is the hash of the newest block, the walk returns the chain,
`Reindex` succeeds and changes the UTXO bucket only, and afterwards the bucket holds under
each transaction ID exactly the outputs of that transaction that no input on the chain
references, in their order, and no entry for a transaction without such an output nor under
any other key. -/
theorem Reindex_index_is_unreferenced (P : Prims) (db : DB) (newest : Block)
    (rest : List Block) (hb : Built P db (newest :: rest)) (hidx : db.utxoBucket ≠ none)
    (hhash : ((newest :: rest).map fun b => b.Hash).Nodup)
    (hids : ((txsOf (newest :: rest)).map fun t => t.ID).Nodup)
    (hkeys : ∀ t ∈ txsOf (newest :: rest), t.ID ≠ [] ∧ t.ID.length ≤ 32768) :
    Blockchain.blocks ⟨newest.Hash, db⟩ = .ok (newest :: rest) ∧
      ∃ index,
        UTXOSet.Reindex ⟨⟨newest.Hash, db⟩⟩
          = .ok ⟨⟨newest.Hash, { db with utxoBucket := some index }⟩⟩ ∧
        ∀ key, index.get key = expectedEntry (txsOf (newest :: rest)) key := by
  have inv := Built.inv P db _ hb
  obtain ⟨bb, hbb, hlen, hst⟩ := inv.stored hhash
  have hwalk : ∀ db1 : DB, db1.blocksBucket = some bb →
      walk db1 (walkFuel db1) ⟨newest.Hash⟩ = .ok (newest :: rest) := by
    intro db1 hdb1
    apply walk_linked db1 bb hdb1 (newest :: rest) newest rest rfl inv.linked
      (fun c hc => ⟨inv.hash32 c hc, hst c hc⟩)
    simp only [walkFuel, hdb1, hlen]
    omega
  refine ⟨hwalk db hbb, ?_⟩
  cases hu : db.utxoBucket with
  | none => exact absurd hu hidx
  | some b0 =>
    have hfind : Blockchain.FindUTXO ⟨newest.Hash, { db with utxoBucket := some [] }⟩
        = .ok ((txsOf (newest :: rest)).foldl FindUTXO.tx ([], [])).1 :=
      FindUTXO.loop_of_walk _ _ _ _ _ (hwalk { db with utxoBucket := some [] } hbb)
    have hget := FindUTXO.foldl_get (txsOf (newest :: rest)) hids
      (refs_before _ hids inv.refs)
    refine ⟨Reindex.putAll ((txsOf (newest :: rest)).foldl FindUTXO.tx ([], [])).1 [], ?_, ?_⟩
    · simp only [UTXOSet.Reindex, hu, hfind, Res.bind]
    · intro key
      rw [Reindex.putAll_get]
      · rw [hget key]
        cases expectedEntry (txsOf (newest :: rest)) key <;> rfl
      · intro e he
        have hs := KV.get_isSome_of_mem _ e he
        rw [hget e.1] at hs
        unfold expectedEntry at hs
        cases hf : (txsOf (newest :: rest)).find? (fun t => decide (t.ID = e.1)) with
        | none => rw [hf] at hs; simp at hs
        | some tx =>
          have hmem := List.mem_of_find?_eq_some hf
          have hid := List.find?_some hf
          simp only [decide_eq_true_eq] at hid
          rw [← hid]
          exact hkeys tx hmem
      · exact FindUTXO.foldl_nodup _ _ (by simp)

theorem added0_built :
    Built smallPrims added0.2.db [added0.1, NewGenesisBlock smallPrims 0 genesisTx] := by
  have h0 : Built smallPrims genesisDB [NewGenesisBlock smallPrims 0 genesisTx] :=
    Built.genesis 0 addressA genesisTx genesisDB (by decide!) (by decide!)
  have h1 := Built.index genesisDB _ session0.db.utxoBucket h0
  have e : ({ genesisDB with utxoBucket := session0.db.utxoBucket } : DB) = session0.db := by
    decide!
  rw [e] at h1
  exact Built.addBlock 1 session0.db _ session0.tip [tx0] added0 h1 (by decide!)

theorem Reindex_index_is_unreferenced_witness :
    Blockchain.blocks ⟨added0.1.Hash, added0.2.db⟩
        = .ok [added0.1, NewGenesisBlock smallPrims 0 genesisTx] ∧
      ∃ index,
        UTXOSet.Reindex ⟨⟨added0.1.Hash, added0.2.db⟩⟩
          = .ok ⟨⟨added0.1.Hash, { added0.2.db with utxoBucket := some index }⟩⟩ ∧
        ∀ key, index.get key
          = expectedEntry (txsOf [added0.1, NewGenesisBlock smallPrims 0 genesisTx]) key :=
  Reindex_index_is_unreferenced smallPrims added0.2.db added0.1
    [NewGenesisBlock smallPrims 0 genesisTx] added0_built (by decide!) (by decide!) (by decide!)
    (by decide!)


/-! ## Tampering -/

theorem serializeData_of_same_ids (P : Prims) (b b1 : Block) (n : Int)
    (hids : b1.Transactions.map (fun tx => tx.ID) = b.Transactions.map (fun tx => tx.ID))
    (hts : b1.Timestamp = b.Timestamp) (hprev : b1.PrevBlockHash = b.PrevBlockHash) :
    serializeData P (NewProofOfWork b1) n = serializeData P (NewProofOfWork b) n := by
  simp only [serializeData, NewProofOfWork, HashTransactions, hids, hts, hprev]

theorem Validate_of_same_ids (P : Prims) (b b1 : Block)
    (hids : b1.Transactions.map (fun tx => tx.ID) = b.Transactions.map (fun tx => tx.ID))
    (hnonce : b1.Nonce = b.Nonce) (hts : b1.Timestamp = b.Timestamp)
    (hprev : b1.PrevBlockHash = b.PrevBlockHash) :
    Validate P (NewProofOfWork b1) = Validate P (NewProofOfWork b) := by
  have h := serializeData_of_same_ids P b b1 b.Nonce hids hts hprev
  simp only [Validate, target_eq]
  have e1 : (NewProofOfWork b1).block.Nonce = b.Nonce := hnonce
  have e2 : (NewProofOfWork b).block.Nonce = b.Nonce := rfl
  rw [e1, e2, h]

/-- After a successful nonce search `Validate` returns false on the mined block: its hash is
below the target and `Validate` tests for a hash above it. -/
theorem MineBlock_found_Validate (P : Prims) (now : Int) (txs : List Transaction)
    (prev : Bytes) (n : Nat) (hn : n < maxNonce)
    (hb : bytesToNat (hashAt P (NewProofOfWork ⟨now, txs, prev, [], 0⟩) n) < 2 ^ (256 - 8)) :
    Validate P (NewProofOfWork (MineBlock P now txs prev)) = false := by
  have ht := target_eq ⟨now, txs, prev, [], 0⟩
  obtain ⟨n0, _, hrun, hlow, _⟩ :=
    Run_found P (NewProofOfWork ⟨now, txs, prev, [], 0⟩) n hn (by rw [ht]; exact hb)
  rw [ht] at hlow
  have hN : (MineBlock P now txs prev).Nonce = (n0 : Int) := by simp [MineBlock, hrun]
  simp only [Validate, target_eq, decide_eq_false_iff_not, serializeData_MineBlock]
  have : (NewProofOfWork (MineBlock P now txs prev)).block.Nonce = (n0 : Int) := hN
  rw [this]
  simp only [hashAt] at hlow
  omega

theorem stuck_Validate (b : Block) : Validate stuckPrims (NewProofOfWork b) = true := by
  rw [Validate, target_eq]
  show decide (2 ^ (256 - 8) < bytesToNat (List.replicate 32 255)) = true
  decide

/-- C11 (counterexample): `tamperedTx0` is `tx0` with the value of its first output changed
and its `ID` kept. With the small hash, the search for the block holding `tx0` succeeds, and
`Validate` returns false on the mined block as it does on the block with the transaction
replaced: the same answer on both. With a hash that is never below the target the search is
exhausted, `MineBlock` returns its block all the same, and `Validate` returns true on that
block with the transaction replaced. -/
theorem tampered_block_validates :
    tamperedTx0 ≠ tx0 ∧ tamperedTx0.ID = tx0.ID ∧
      Validate smallPrims (NewProofOfWork (MineBlock smallPrims 1 [tx0] [])) = false ∧
      Validate smallPrims
        (NewProofOfWork { MineBlock smallPrims 1 [tx0] [] with Transactions := [tamperedTx0] })
        = false ∧
      MineBlock stuckPrims 1 [tx0] []
        = ⟨1, [tx0], [], List.replicate 32 255, (maxNonce : Int)⟩ ∧
      Validate stuckPrims
        (NewProofOfWork { MineBlock stuckPrims 1 [tx0] [] with Transactions := [tamperedTx0] })
        = true := by
  have hnone : ∀ n, n < maxNonce →
      ¬ bytesToNat (hashAt stuckPrims (NewProofOfWork ⟨1, [tx0], [], [], 0⟩) n)
        < 2 ^ (256 - 8) := by
    intro n _
    have := stuck_never_below ⟨1, [tx0], [], [], 0⟩ n
    rw [target_eq] at this
    exact this
  have e : hashAt stuckPrims (NewProofOfWork ⟨1, [tx0], [], [], 0⟩) (maxNonce - 1)
      = List.replicate 32 255 := rfl
  have h := (exhausted_result stuckPrims 1 [tx0] [] hnone).2
  rw [e] at h
  refine ⟨by decide!, by decide!, by decide!, by decide!, h, stuck_Validate _⟩

/-- C11 (as the code behaves): `Validate` does not see the payload of the transactions. For
every block `b` and every block `b1` with the same nonce, timestamp and previous hash whose
transactions carry the same IDs in the same order, whatever their inputs and outputs and
whatever its `Hash` field, the proof-of-work input is the same and `Validate` returns on
`b1` what it returns on `b`: true exactly when the hash of that input is strictly above the
target. When `b` was mined by a successful search, that is false on both. -/
theorem Validate_blind_to_payload (P : Prims) (b b1 : Block)
    (hids : b1.Transactions.map (fun tx => tx.ID) = b.Transactions.map (fun tx => tx.ID))
    (hnonce : b1.Nonce = b.Nonce) (hts : b1.Timestamp = b.Timestamp)
    (hprev : b1.PrevBlockHash = b.PrevBlockHash) :
    serializeData P (NewProofOfWork b1) b1.Nonce = serializeData P (NewProofOfWork b) b.Nonce ∧
      Validate P (NewProofOfWork b1) = Validate P (NewProofOfWork b) ∧
      (Validate P (NewProofOfWork b1) = true ↔
        2 ^ (256 - 8) < bytesToNat (P.sha256 (serializeData P (NewProofOfWork b) b.Nonce))) ∧
      (∀ (now : Int) (txs : List Transaction) (prev : Bytes) (n : Nat),
        b = MineBlock P now txs prev → n < maxNonce →
        bytesToNat (hashAt P (NewProofOfWork ⟨now, txs, prev, [], 0⟩) n) < 2 ^ (256 - 8) →
        Validate P (NewProofOfWork b) = false ∧ Validate P (NewProofOfWork b1) = false) := by
  have hv := Validate_of_same_ids P b b1 hids hnonce hts hprev
  have hs : serializeData P (NewProofOfWork b1) b1.Nonce
      = serializeData P (NewProofOfWork b) b.Nonce := by
    rw [hnonce]
    exact serializeData_of_same_ids P b b1 _ hids hts hprev
  have hval : Validate P (NewProofOfWork b)
      = decide (2 ^ (256 - 8)
          < bytesToNat (P.sha256 (serializeData P (NewProofOfWork b) b.Nonce))) := by
    rw [Validate, target_eq]
    rfl
  refine ⟨hs, hv, ?_, ?_⟩
  · rw [hv, hval, decide_eq_true_eq]
  · intro now txs prev n hb hn hlow
    have hm := MineBlock_found_Validate P now txs prev n hn hlow
    rw [← hb] at hm
    exact ⟨hm, by rw [hv]; exact hm⟩

theorem Validate_blind_to_payload_witness :
    tamperedTx0 ≠ tx0 ∧
      Validate smallPrims
          (NewProofOfWork { MineBlock smallPrims 1 [tx0] [] with Transactions := [tamperedTx0] })
        = Validate smallPrims (NewProofOfWork (MineBlock smallPrims 1 [tx0] [])) :=
  ⟨by decide!,
    (Validate_blind_to_payload smallPrims (MineBlock smallPrims 1 [tx0] [])
      { MineBlock smallPrims 1 [tx0] [] with Transactions := [tamperedTx0] }
      (by decide!) rfl rfl rfl).2.1⟩

/-! ## Signatures -/

/-- C12 (the code departs from it): `unsignedTx` is not coinbase, its input carries the
signing wallet's public key and references output 0 of a transaction in `prevTXsA`. With a
signature whose `r` has 32 bytes and whose `s` has 31, `Sign` returns nil and stores the 63
bytes, the pair is one that `ecdsa.Verify` accepts for the wallet's key and the signed digest,
and `Verify` on the signed transaction returns false: it splits the 63 bytes after byte 31. -/
theorem sign_then_verify_fails :
    unsignedTx.IsCoinbase = false ∧
      (unsignedTx.Vin.map fun i => (decide (i.PubKey = walletA.PublicKey),
          (prevTXsA.get i.Txid).map fun p => decide (i.Vout < p.Vout.length))) = [(true, some true)] ∧
      (signedLopsided.bind fun r => .ok (r.2, r.1.Vin.map fun i => i.Signature.length))
        = .ok (true, [63]) ∧
      (lopsidedDigest.bind fun c =>
          (lopsidedPrims.ecdsaSign walletA.PrivateKey c.ID).map fun rs =>
            ((natToBytes rs.1).length, (natToBytes rs.2).length,
              lopsidedPrims.ecdsaVerify walletA.PrivateKey.X walletA.PrivateKey.Y c.ID rs.1 rs.2))
        = some (32, 31, true) ∧
      (signedLopsided.bind fun r => r.1.Verify lopsidedPrims prevTXsA) = .ok false := by
  refine ⟨?_, ?_, ?_, ?_, ?_⟩ <;> decide!

/-! ## Spendable outputs -/

/-- C13 (the code departs from it): after A has sent 300 to itself, the unspent outputs on the
chain locked to A are the 300 and the 700 of that transaction, 1000 in all, which is also what
`Reindex` and `GetBalance` report. A request to send 1500 is not refused:
`FindSpendableOutputs` returns 2000 and `NewUTXOTransaction` returns a transaction that spends
both outputs twice and pays 1500 to B and 500 back to A. -/
theorem overspend_accepted :
    chainShape selfPay = .ok [[([(1, 0)], [300, 700])], [([(2, -1)], [1000])]] ∧
      indexValues (selfPay.bind fun u => u.Reindex) = .ok [(0, [300, 700])] ∧
      balanceIn selfPay addressA = .ok 1000 ∧
      (selfPay.bind fun u =>
          (u.blockchainSession.FindSpendableOutputs smallPrims addressA 1500).bind fun r =>
            .ok r.1) = .ok 2000 ∧
      (overspend.bind fun tx =>
          .ok (tx.Vin.map (fun i => i.Vout), tx.Vout.map fun o => o.Value))
        = .ok ([0, 1, 0, 1], [1500, 500]) := by
  refine ⟨?_, ?_, ?_, ?_, ?_⟩ <;> decide!

/-! ## Building a transfer -/

theorem modifyAt_sig_map (sig : Bytes) {β : Type} (g : TXInput → β)
    (hg : ∀ i : TXInput, g { i with Signature := sig } = g i) :
    ∀ (n : Nat) (l : List TXInput),
      (modifyAt (fun i => { i with Signature := sig }) n l).map g = l.map g := by
  intro n l
  induction l generalizing n with
  | nil => cases n <;> rfl
  | cons x xs ih =>
    cases n with
    | zero => simp [modifyAt, hg]
    | succ n => simp [modifyAt, ih]

/-- `Sign` writes signatures only: the ID, the outputs and the other fields of the inputs
are as before. -/
theorem Sign.loop_keeps (P : Prims) (privKey : PrivateKey) (prevTXs : KV Transaction) :
    ∀ (vins : List TXInput) (inID : Nat) (tx txCopy : Transaction) (r : Transaction × Bool),
      Sign.loop P privKey prevTXs inID vins tx txCopy = .ok r →
      r.1.ID = tx.ID ∧ r.1.Vout = tx.Vout ∧
        r.1.Vin.map (fun i => (i.Txid, i.Vout, i.PubKey))
          = tx.Vin.map (fun i => (i.Txid, i.Vout, i.PubKey)) := by
  intro vins
  induction vins with
  | nil =>
    intro inID tx txCopy r h
    simp only [Sign.loop] at h
    injection h with h
    subst h
    exact ⟨rfl, rfl, rfl⟩
  | cons vin rest ih =>
    intro inID tx txCopy r h
    rw [Sign.loop] at h
    cases hd : inputDigest P prevTXs txCopy inID vin with
    | none => rw [hd] at h; simp at h
    | some c =>
      rw [hd] at h
      simp only at h
      cases hs : P.ecdsaSign privKey c.ID with
      | none =>
        rw [hs] at h
        simp only at h
        injection h with h
        subst h
        exact ⟨rfl, rfl, rfl⟩
      | some rs =>
        rw [hs] at h
        simp only at h
        obtain ⟨h1, h2, h3⟩ := ih _ _ _ _ h
        refine ⟨h1, h2, ?_⟩
        rw [h3]
        exact modifyAt_sig_map _ _ (fun _ => rfl) _ _

theorem Transaction.Sign_keeps (P : Prims) (tx : Transaction) (privKey : PrivateKey)
    (prevTXs : KV Transaction) (r : Transaction × Bool)
    (h : tx.Sign P privKey prevTXs = .ok r) :
    r.1.ID = tx.ID ∧ r.1.Vout = tx.Vout ∧
      r.1.Vin.map (fun i => (i.Txid, i.Vout, i.PubKey))
        = tx.Vin.map (fun i => (i.Txid, i.Vout, i.PubKey)) := by
  unfold Transaction.Sign at h
  by_cases hc : tx.IsCoinbase = true
  · rw [if_pos hc] at h
    injection h with h
    subst h
    exact ⟨rfl, rfl, rfl⟩
  · rw [if_neg hc] at h
    exact Sign.loop_keeps P privKey prevTXs _ _ _ _ _ h

theorem Blockchain.SignTransaction_keeps (P : Prims) (bc : Blockchain) (tx : Transaction)
    (privKey : PrivateKey) (r : Transaction × Bool)
    (h : bc.SignTransaction P tx privKey = .ok r) :
    r.1.ID = tx.ID ∧ r.1.Vout = tx.Vout ∧
      r.1.Vin.map (fun i => (i.Txid, i.Vout, i.PubKey))
        = tx.Vin.map (fun i => (i.Txid, i.Vout, i.PubKey)) := by
  unfold Blockchain.SignTransaction at h
  cases hp : bc.prevTXs tx.Vin [] with
  | ok m =>
    rw [hp] at h
    simp only at h
    cases hs : tx.Sign P privKey m with
    | ok s =>
      rw [hs] at h
      simp only [Res.bind] at h
      injection h with h
      subst h
      exact Transaction.Sign_keeps P tx privKey m s hs
    | error e => rw [hs] at h; simp [Res.bind] at h
    | panic => rw [hs] at h; simp [Res.bind] at h
    | hang => rw [hs] at h; simp [Res.bind] at h
  | error e =>
    rw [hp] at h
    simp only at h
    injection h with h
    subst h
    exact ⟨rfl, rfl, rfl⟩
  | panic => rw [hp] at h; simp at h
  | hang => rw [hp] at h; simp at h

/-- What a successful `NewUTXOTransaction` returned. -/
theorem NewUTXOTransaction_ok (P : Prims) (wallet : Wallet) (from_ to_ : Bytes) (amount : Int)
    (bc : Blockchain) (tx : Transaction)
    (h : NewUTXOTransaction P wallet from_ to_ amount bc = .ok tx) :
    ∃ acc validOutputs pkhTo pkhFrom,
      bc.FindSpendableOutputs P from_ amount = .ok (acc, validOutputs) ∧
      addressPubKeyHash P to_ = .ok pkhTo ∧ addressPubKeyHash P from_ = .ok pkhFrom ∧
      amount ≤ acc ∧
      tx.Vout = (if acc > amount then [⟨amount, pkhTo⟩, ⟨wrap64 (acc - amount), pkhFrom⟩]
                 else [⟨amount, pkhTo⟩]) ∧
      tx.Vin.map (fun i => (i.Txid, i.Vout, i.PubKey))
        = (buildInputs wallet validOutputs).map (fun i => (i.Txid, i.Vout, i.PubKey)) ∧
      tx.ID = Transaction.Hash P ⟨[], buildInputs wallet validOutputs, tx.Vout⟩ := by
  unfold NewUTXOTransaction at h
  cases hf : bc.FindSpendableOutputs P from_ amount with
  | ok r =>
    obtain ⟨acc, vo⟩ := r
    rw [hf] at h
    simp only [Res.bind] at h
    have hfrom : ∃ pkhFrom, addressPubKeyHash P from_ = .ok pkhFrom := by
      unfold Blockchain.FindSpendableOutputs at hf
      cases ha : addressPubKeyHash P from_ with
      | ok p => exact ⟨p, rfl⟩
      | error e => rw [ha] at hf; simp [Res.bind] at hf
      | panic => rw [ha] at hf; simp [Res.bind] at hf
      | hang => rw [ha] at hf; simp [Res.bind] at hf
    obtain ⟨pkhFrom, hfrom⟩ := hfrom
    by_cases hlt : acc < amount
    · rw [if_pos hlt] at h
      simp at h
    · rw [if_neg hlt] at h
      cases hto : addressPubKeyHash P to_ with
      | ok pkhTo =>
        simp only [NewTXOutput, hto, hfrom, Res.bind] at h
        refine ⟨acc, vo, pkhTo, pkhFrom, rfl, rfl, hfrom, by omega, ?_⟩
        by_cases hgt : acc > amount
        · rw [if_pos hgt] at h
          simp only at h
          cases hs : bc.SignTransaction P
              { ID := Transaction.Hash P ⟨[], buildInputs wallet vo,
                  [⟨amount, pkhTo⟩, ⟨wrap64 (acc - amount), pkhFrom⟩]⟩,
                Vin := buildInputs wallet vo,
                Vout := [⟨amount, pkhTo⟩, ⟨wrap64 (acc - amount), pkhFrom⟩] } wallet.PrivateKey with
          | ok s =>
            rw [hs] at h
            simp only at h
            injection h with h
            subst h
            obtain ⟨h1, h2, h3⟩ := Blockchain.SignTransaction_keeps P bc _ _ _ hs
            rw [if_pos hgt]
            refine ⟨h2, h3, ?_⟩
            rw [h1, h2]
          | error e => rw [hs] at h; simp at h
          | panic => rw [hs] at h; simp at h
          | hang => rw [hs] at h; simp at h
        · rw [if_neg hgt] at h
          simp only at h
          cases hs : bc.SignTransaction P
              { ID := Transaction.Hash P ⟨[], buildInputs wallet vo, [⟨amount, pkhTo⟩]⟩,
                Vin := buildInputs wallet vo,
                Vout := [⟨amount, pkhTo⟩] } wallet.PrivateKey with
          | ok s =>
            rw [hs] at h
            simp only at h
            injection h with h
            subst h
            obtain ⟨h1, h2, h3⟩ := Blockchain.SignTransaction_keeps P bc _ _ _ hs
            rw [if_neg hgt]
            refine ⟨h2, h3, ?_⟩
            rw [h1, h2]
          | error e => rw [hs] at h; simp at h
          | panic => rw [hs] at h; simp at h
          | hang => rw [hs] at h; simp at h
      | error e => simp [NewTXOutput, hto, Res.bind] at h
      | panic => simp [NewTXOutput, hto, Res.bind] at h
      | hang => simp [NewTXOutput, hto, Res.bind] at h
  | error e => rw [hf] at h; simp [Res.bind] at h
  | panic => rw [hf] at h; simp [Res.bind] at h
  | hang => rw [hf] at h; simp [Res.bind] at h

theorem wrap64_range (x : Int) :
    -9223372036854775808 ≤ wrap64 x ∧ wrap64 x < 9223372036854775808 := by
  unfold wrap64
  omega

theorem wrap64_of_range (x : Int) (h1 : -9223372036854775808 ≤ x)
    (h2 : x < 9223372036854775808) : wrap64 x = x := by
  unfold wrap64
  omega

/-- The accumulated value stays a 64-bit integer, and nothing is accumulated once it has
reached the amount. -/
theorem FindSpendableOutputs.outputs_acc (pubKeyHash : Bytes) (amount : Int) (txID : Bytes) :
    ∀ (l : List TXOutput) (n : Nat) (st : Int × KV (List Int)),
      (-9223372036854775808 ≤ st.1 ∧ st.1 < 9223372036854775808 →
        -9223372036854775808 ≤ (FindSpendableOutputs.outputs pubKeyHash amount txID n l st).1.1 ∧
        (FindSpendableOutputs.outputs pubKeyHash amount txID n l st).1.1 < 9223372036854775808) ∧
      (¬ st.1 < amount →
        FindSpendableOutputs.outputs pubKeyHash amount txID n l st = (st, false)) := by
  intro l
  induction l with
  | nil => intro n st; simp [FindSpendableOutputs.outputs]
  | cons out rest ih =>
    intro n st
    constructor
    · intro hr
      rw [FindSpendableOutputs.outputs]
      by_cases hc : (out.IsLockedWith pubKeyHash && decide (st.1 < amount)) = true
      · rw [if_pos hc]
        simp only
        by_cases hge : wrap64 (st.1 + out.Value) ≥ amount
        · rw [if_pos hge]
          exact wrap64_range _
        · rw [if_neg hge]
          exact (ih _ _).1 (wrap64_range _)
      · rw [if_neg hc]
        exact (ih _ _).1 hr
    · intro hn
      rw [FindSpendableOutputs.outputs]
      have hc : ¬ (out.IsLockedWith pubKeyHash && decide (st.1 < amount)) = true := by
        simp [hn]
      rw [if_neg hc]
      exact (ih _ _).2 hn

theorem FindSpendableOutputs.work_acc (pubKeyHash : Bytes) (amount : Int) :
    ∀ (txs : List Transaction) (st : Int × KV (List Int)),
      (-9223372036854775808 ≤ st.1 ∧ st.1 < 9223372036854775808 →
        -9223372036854775808 ≤ (FindSpendableOutputs.work pubKeyHash amount txs st).1 ∧
        (FindSpendableOutputs.work pubKeyHash amount txs st).1 < 9223372036854775808) ∧
      (¬ st.1 < amount → FindSpendableOutputs.work pubKeyHash amount txs st = st) := by
  intro txs
  induction txs with
  | nil => intro st; simp [FindSpendableOutputs.work]
  | cons tx rest ih =>
    intro st
    have ho := FindSpendableOutputs.outputs_acc pubKeyHash amount tx.ID tx.Vout 0 st
    constructor
    · intro hr
      rw [FindSpendableOutputs.work]
      rcases hres : FindSpendableOutputs.outputs pubKeyHash amount tx.ID 0 tx.Vout st with ⟨st1, fl⟩
      have h1 := ho.1 hr
      rw [hres] at h1
      cases fl with
      | true => exact h1
      | false => exact (ih st1).1 h1
    · intro hn
      rw [FindSpendableOutputs.work, ho.2 hn]
      exact (ih st).2 hn

theorem Blockchain.FindSpendableOutputs_acc (P : Prims) (bc : Blockchain) (address : Bytes)
    (amount : Int) (acc : Int) (vo : KV (List Int))
    (h : bc.FindSpendableOutputs P address amount = .ok (acc, vo)) :
    -9223372036854775808 ≤ acc ∧ acc < 9223372036854775808 ∧ (amount ≤ 0 → acc = 0) := by
  unfold Blockchain.FindSpendableOutputs at h
  cases ha : addressPubKeyHash P address with
  | ok p =>
    rw [ha] at h
    simp only [Res.bind] at h
    cases hu : bc.FindUnspentTransactions P p with
    | ok txs =>
      rw [hu] at h
      simp only at h
      injection h with h
      have hw := FindSpendableOutputs.work_acc p amount txs (0, [])
      have h1 := hw.1 (by simp)
      rw [h] at h1
      refine ⟨h1.1, h1.2, ?_⟩
      intro hle
      have h2 := hw.2 (by simp only; omega)
      rw [h] at h2
      exact congrArg Prod.fst h2
    | error e => rw [hu] at h; simp at h
    | panic => rw [hu] at h; simp at h
    | hang => rw [hu] at h; simp at h
  | error e => rw [ha] at h; simp [Res.bind] at h
  | panic => rw [ha] at h; simp [Res.bind] at h
  | hang => rw [ha] at h; simp [Res.bind] at h

/-- C14: a successful `NewUTXOTransaction`, for an amount that is a 64-bit integer and the
accumulated value `acc` that `FindSpendableOutputs` returned, has `amount ≤ acc`; when
`acc = amount` its only output is the amount locked to the recipient; when `acc > amount` it
has two outputs, the amount locked to the recipient and the Go difference `acc - amount`
locked to the sender. The output values sum to `acc` in Go arithmetic, and the difference and
the sum are exact unless the amount is the least 64-bit integer. -/
theorem change_output_boundary (P : Prims) (wallet : Wallet) (from_ to_ : Bytes) (amount : Int)
    (bc : Blockchain) (tx : Transaction)
    (hlo : -9223372036854775808 ≤ amount) (hhi : amount < 9223372036854775808)
    (h : NewUTXOTransaction P wallet from_ to_ amount bc = .ok tx) :
    ∃ acc validOutputs pkhTo pkhFrom,
      bc.FindSpendableOutputs P from_ amount = .ok (acc, validOutputs) ∧
      addressPubKeyHash P to_ = .ok pkhTo ∧ addressPubKeyHash P from_ = .ok pkhFrom ∧
      amount ≤ acc ∧
      (acc = amount → tx.Vout = [⟨amount, pkhTo⟩]) ∧
      (acc > amount → tx.Vout = [⟨amount, pkhTo⟩, ⟨wrap64 (acc - amount), pkhFrom⟩]) ∧
      wrap64 ((tx.Vout.map fun o => o.Value).sum) = acc ∧
      (amount ≠ -9223372036854775808 →
        wrap64 (acc - amount) = acc - amount ∧ (tx.Vout.map fun o => o.Value).sum = acc) := by
  obtain ⟨acc, vo, pkhTo, pkhFrom, hf, hto, hfrom, hle, hvout, _, _⟩ :=
    NewUTXOTransaction_ok P wallet from_ to_ amount bc tx h
  obtain ⟨ha1, ha2, ha0⟩ := Blockchain.FindSpendableOutputs_acc P bc from_ amount acc vo hf
  refine ⟨acc, vo, pkhTo, pkhFrom, hf, hto, hfrom, hle, ?_, ?_, ?_, ?_⟩
  · intro he
    rw [hvout, if_neg (by omega)]
  · intro hgt
    rw [hvout, if_pos hgt]
  · rw [hvout]
    by_cases hgt : acc > amount
    · rw [if_pos hgt]
      simp only [List.map_cons, List.map_nil, List.sum_cons, List.sum_nil, add_zero]
      unfold wrap64
      omega
    · rw [if_neg hgt]
      simp only [List.map_cons, List.map_nil, List.sum_cons, List.sum_nil, add_zero]
      have : acc = amount := by omega
      rw [this]
      exact wrap64_of_range _ hlo hhi
  · intro hne
    have hex : wrap64 (acc - amount) = acc - amount := by
      apply wrap64_of_range
      · omega
      · by_cases hp : amount ≤ 0
        · rw [ha0 hp]; omega
        · omega
    refine ⟨hex, ?_⟩
    rw [hvout]
    by_cases hgt : acc > amount
    · rw [if_pos hgt]
      simp only [List.map_cons, List.map_nil, List.sum_cons, List.sum_nil, add_zero, hex]
      omega
    · rw [if_neg hgt]
      simp only [List.map_cons, List.map_nil, List.sum_cons, List.sum_nil, add_zero]
      omega

theorem change_output_boundary_witness :
    ∃ acc validOutputs pkhTo pkhFrom,
      session0.FindSpendableOutputs smallPrims addressA 100 = .ok (acc, validOutputs) ∧
      addressPubKeyHash smallPrims addressB = .ok pkhTo ∧
      addressPubKeyHash smallPrims addressA = .ok pkhFrom ∧
      (100 : Int) ≤ acc ∧
      (acc = 100 → tx0.Vout = [⟨100, pkhTo⟩]) ∧
      (acc > 100 → tx0.Vout = [⟨100, pkhTo⟩, ⟨wrap64 (acc - 100), pkhFrom⟩]) ∧
      wrap64 ((tx0.Vout.map fun o => o.Value).sum) = acc ∧
      ((100 : Int) ≠ -9223372036854775808 →
        wrap64 (acc - 100) = acc - 100 ∧ (tx0.Vout.map fun o => o.Value).sum = acc) :=
  change_output_boundary smallPrims walletA addressA addressB 100 session0 tx0
    (by decide) (by decide) (by decide!)

/-! ## Rejection and acceptance by `AddBlock` -/

theorem verifyAll_append (P : Prims) (bc : Blockchain) (pre : List Transaction)
    (hpre : ∀ t ∈ pre, bc.VerifyTransaction P t = .ok true) (rest : List Transaction) :
    AddBlock.verifyAll P bc (pre ++ rest) = AddBlock.verifyAll P bc rest := by
  induction pre with
  | nil => rfl
  | cons t pre ih =>
    rw [List.cons_append, AddBlock.verifyAll, hpre t (List.mem_cons_self _ _)]
    simp only [Res.bind]
    exact ih (fun u hu => hpre u (List.mem_cons_of_mem _ hu))

/-- `AddBlock` stops at the first listed transaction that does not verify as true, with the
outcome of that verification: `Invalid Transaction` for false, the error when
`VerifyTransaction` returned one, and a panic when it panicked. Nothing has been written. -/
theorem AddBlock_first_failure (P : Prims) (now : Int) (bc : Blockchain)
    (pre : List Transaction) (tx : Transaction) (post : List Transaction)
    (hb : bc.db.blocksBucket ≠ none)
    (hpre : ∀ t ∈ pre, bc.VerifyTransaction P t = .ok true) :
    (bc.VerifyTransaction P tx = .ok false →
        bc.AddBlock P now (pre ++ tx :: post) = .error .invalidTx) ∧
      (∀ e, bc.VerifyTransaction P tx = .error e →
        bc.AddBlock P now (pre ++ tx :: post) = .error e) ∧
      (bc.VerifyTransaction P tx = .panic → bc.AddBlock P now (pre ++ tx :: post) = .panic) := by
  cases hbb : bc.db.blocksBucket with
  | none => exact absurd hbb hb
  | some bb =>
    have hv := verifyAll_append P bc pre hpre (tx :: post)
    refine ⟨fun h => ?_, fun e h => ?_, fun h => ?_⟩ <;>
      simp [Blockchain.AddBlock, GetLastHash, hbb, Res.bind, hv, AddBlock.verifyAll, h]

/-- C15 (the code departs from it): on `ledger0` the list holds `outOfRangeTx`, whose input
names output 7 of the genesis coinbase, and then `unknownPriorTx`, whose prior transaction
cannot be found. The second transaction fails verification with the not-found error, but
`AddBlock` does not return an error: verifying the first one panics. -/
theorem AddBlock_panics_before_rejecting :
    session0.VerifyTransaction smallPrims unknownPriorTx = .error .notFound ∧
      session0.AddBlock smallPrims 1 [unknownPriorTx] = .error .notFound ∧
      session0.VerifyTransaction smallPrims outOfRangeTx = .panic ∧
      session0.AddBlock smallPrims 1 [outOfRangeTx, unknownPriorTx] = .panic := by
  refine ⟨?_, ?_, ?_, ?_⟩ <;> decide!

/-- C16: after a successful `AddBlock(txs)` the returned block holds exactly `txs` and names
as its predecessor the tip that was persisted before the call; the store maps the block's hash
to the block; the persisted tip and the in-memory tip are the block's hash; every other key of
the blocks bucket holds what it held before; the UTXO bucket is untouched. -/
theorem AddBlock_postcondition (P : Prims) (now : Int) (bc : Blockchain)
    (txs : List Transaction) (r : Block × Blockchain) (h : bc.AddBlock P now txs = .ok r) :
    r.1.Transactions = txs ∧
      GetLastHash bc.db = .ok r.1.PrevBlockHash ∧
      GetBlockByHash r.2.db r.1.Hash = .ok r.1 ∧
      GetLastHash r.2.db = .ok r.1.Hash ∧ GetBlockchain r.2.db = some r.1.Hash ∧
      r.2.tip = r.1.Hash ∧
      (∃ bb bb1, bc.db.blocksBucket = some bb ∧ r.2.db.blocksBucket = some bb1 ∧
        bb1.blocks.get r.1.Hash = some r.1 ∧
        ∀ k, k ≠ r.1.Hash → bb1.blocks.get k = bb.blocks.get k) ∧
      (∀ k, k ≠ r.1.Hash → GetBlockByHash r.2.db k = GetBlockByHash bc.db k) ∧
      r.2.db.utxoBucket = bc.db.utxoBucket := by
  obtain ⟨bb, hbb, _, hr⟩ := (AddBlock_ok_iff P now bc txs r).1 h
  have hl := MineBlock_hash_length P now txs (bb.last.getD [])
  have hf := MineBlock_fields P now txs (bb.last.getD [])
  subst hr
  refine ⟨hf.1, ?_, ?_, ?_, ?_, rfl, ⟨bb, _, hbb, rfl, ?_, ?_⟩, ?_, rfl⟩
  · simp [GetLastHash, hbb, hf.2]
  · simp [GetBlockByHash, hash32_ne_lastHashKey hl, KV.get_insert_self]
  · simp [GetLastHash]
  · simp [GetBlockchain]
  · exact KV.get_insert_self _ _ _
  · intro k hk
    exact KV.get_insert_of_ne _ _ (Ne.symm hk)
  · intro k hk
    simp only [GetBlockByHash, hbb]
    rw [KV.get_insert_of_ne _ _ (Ne.symm hk)]

theorem AddBlock_postcondition_witness :
    added0.1.Transactions = [tx0] ∧
      GetLastHash session0.db = .ok added0.1.PrevBlockHash ∧
      GetBlockByHash added0.2.db added0.1.Hash = .ok added0.1 ∧
      GetLastHash added0.2.db = .ok added0.1.Hash ∧
      GetBlockchain added0.2.db = some added0.1.Hash ∧
      added0.2.tip = added0.1.Hash ∧
      (∃ bb bb1, session0.db.blocksBucket = some bb ∧ added0.2.db.blocksBucket = some bb1 ∧
        bb1.blocks.get added0.1.Hash = some added0.1 ∧
        ∀ k, k ≠ added0.1.Hash → bb1.blocks.get k = bb.blocks.get k) ∧
      (∀ k, k ≠ added0.1.Hash → GetBlockByHash added0.2.db k = GetBlockByHash session0.db k) ∧
      added0.2.db.utxoBucket = session0.db.utxoBucket :=
  AddBlock_postcondition smallPrims 1 session0 [tx0] added0 (by decide!)

/-! ## Looking up prior transactions -/

/-- `FindTransactionByID` returns the first transaction with the ID among the transactions
of the blocks that the walk returns, and the not-found error when there is none. -/
theorem FindTransactionByID.loop_first_match (db : DB) (ID : Bytes) :
    ∀ (fuel : Nat) (it : BlockchainIterator) (chain : List Block),
      walk db fuel it = .ok chain →
      FindTransactionByID.loop db ID fuel it
        = match (txsOf chain).find? (fun tx => decide (tx.ID = ID)) with
          | some t => .ok t
          | none => .error .notFound := by
  intro fuel
  induction fuel with
  | zero => intro it chain h; simp [walk] at h
  | succ fuel ih =>
    intro it chain h
    rw [walk] at h
    rw [FindTransactionByID.loop]
    cases hn : it.Next db with
    | ok r =>
      rw [hn] at h
      simp only [Res.bind] at h ⊢
      by_cases hp : r.1.PrevBlockHash.length = 0
      · rw [if_pos hp] at h
        injection h with h
        subst h
        have e : txsOf [r.1] = r.1.Transactions := by simp [txsOf]
        rw [e]
        cases hf : r.1.Transactions.find? (fun tx => decide (tx.ID = ID)) with
        | some t => rfl
        | none => simp [hp]
      · rw [if_neg hp] at h
        cases hw : walk db fuel r.2 with
        | ok rest =>
          rw [hw] at h
          simp only at h
          injection h with h
          subst h
          rw [txsOf_cons, List.find?_append]
          cases hf : r.1.Transactions.find? (fun tx => decide (tx.ID = ID)) with
          | some t => rfl
          | none =>
            simp only [if_neg hp, Option.none_or]
            exact ih r.2 rest hw
        | error e => rw [hw] at h; simp at h
        | panic => rw [hw] at h; simp at h
        | hang => rw [hw] at h; simp at h
    | error e => rw [hn] at h; simp [Res.bind] at h
    | panic => rw [hn] at h; simp [Res.bind] at h
    | hang => rw [hn] at h; simp [Res.bind] at h

theorem Blockchain.FindTransactionByID_of_blocks (bc : Blockchain) (chain : List Block)
    (hc : bc.blocks = .ok chain) (ID : Bytes) :
    bc.FindTransactionByID ID
      = match (txsOf chain).find? (fun tx => decide (tx.ID = ID)) with
        | some t => .ok t
        | none => .error .notFound :=
  FindTransactionByID.loop_first_match bc.db ID _ _ chain hc

theorem find?_id_isSome_iff (l : List Transaction) (ID : Bytes) :
    (∃ t, l.find? (fun tx => decide (tx.ID = ID)) = some t) ↔ ∃ t ∈ l, t.ID = ID := by
  constructor
  · rintro ⟨t, ht⟩
    have h1 := List.find?_some ht
    simp only [decide_eq_true_eq] at h1
    exact ⟨t, List.mem_of_find?_eq_some ht, h1⟩
  · rintro ⟨t, ht, hid⟩
    cases hf : l.find? (fun tx => decide (tx.ID = ID)) with
    | some u => exact ⟨u, rfl⟩
    | none =>
      rw [List.find?_eq_none] at hf
      exact absurd (by simpa using hid) (hf t ht)

/-- The map of previous transactions that `VerifyTransaction` and `SignTransaction` build:
when every input names a transaction on the chain, each `Txid` is mapped to the first
transaction on the chain with that ID; otherwise the loop returns the not-found error. -/
theorem Blockchain.prevTXs_of_blocks (bc : Blockchain) (chain : List Block)
    (hc : bc.blocks = .ok chain) :
    ∀ (vins : List TXInput) (m0 : KV Transaction),
      ((∀ vin ∈ vins, ∃ t ∈ txsOf chain, t.ID = vin.Txid) →
        ∃ m, bc.prevTXs vins m0 = .ok m ∧
          (∀ vin ∈ vins,
            m.get vin.Txid = (txsOf chain).find? (fun t => decide (t.ID = vin.Txid))) ∧
          ∀ k, k ∉ vins.map (fun v => v.Txid) → m.get k = m0.get k) ∧
      ((∃ vin ∈ vins, ∀ t ∈ txsOf chain, t.ID ≠ vin.Txid) →
        bc.prevTXs vins m0 = .error .notFound) := by
  intro vins
  induction vins with
  | nil =>
    intro m0
    refine ⟨fun _ => ⟨m0, rfl, by simp, fun _ _ => rfl⟩, ?_⟩
    rintro ⟨vin, hv, _⟩
    simp at hv
  | cons v rest ih =>
    intro m0
    have hfind := Blockchain.FindTransactionByID_of_blocks bc chain hc v.Txid
    constructor
    · intro hall
      obtain ⟨t, ht⟩ := (find?_id_isSome_iff _ _).2 (hall v (List.mem_cons_self _ _))
      rw [ht] at hfind
      have htid : t.ID = v.Txid := by
        have := List.find?_some ht
        simpa using this
      obtain ⟨m, hm, hget, hother⟩ :=
        (ih (m0.insert t.ID t)).1 (fun vin hvin => hall vin (List.mem_cons_of_mem _ hvin))
      refine ⟨m, ?_, ?_, ?_⟩
      · rw [Blockchain.prevTXs, hfind]
        exact hm
      · intro vin hvin
        rcases List.mem_cons.1 hvin with h1 | h1
        · subst h1
          by_cases hin : vin.Txid ∈ rest.map (fun v => v.Txid)
          · obtain ⟨w, hw, hwid⟩ := List.mem_map.1 hin
            rw [← hwid]
            exact hget w hw
          · rw [hother _ hin, htid, KV.get_insert_self, ht]
        · exact hget vin h1
      · intro k hk
        simp only [List.map_cons, List.mem_cons, not_or] at hk
        rw [hother k hk.2, KV.get_insert_of_ne]
        rw [htid]
        exact fun e => hk.1 e.symm
    · rintro ⟨vin, hvin, hno⟩
      rw [Blockchain.prevTXs]
      cases hf : (txsOf chain).find? (fun tx => decide (tx.ID = v.Txid)) with
      | none =>
        rw [hf] at hfind
        rw [hfind]
        rfl
      | some t =>
        rw [hf] at hfind
        rw [hfind]
        simp only [Res.bind]
        rcases List.mem_cons.1 hvin with h1 | h1
        · subst h1
          obtain ⟨u, hu, huid⟩ := (find?_id_isSome_iff _ _).1 ⟨t, hf⟩
          exact absurd huid (hno u hu)
        · exact (ih _).2 ⟨vin, h1, hno⟩

/-- `Verify` returns a boolean or panics; it never returns an error and never loops. -/
theorem Verify.loop_no_error (P : Prims) (prevTXs : KV Transaction) :
    ∀ (vins : List TXInput) (inID : Nat) (txCopy : Transaction),
      (∃ v, Verify.loop P prevTXs inID vins txCopy = .ok v) ∨
        Verify.loop P prevTXs inID vins txCopy = .panic := by
  intro vins
  induction vins with
  | nil => intro inID txCopy; exact Or.inl ⟨true, rfl⟩
  | cons vin rest ih =>
    intro inID txCopy
    rw [Verify.loop]
    cases hd : inputDigest P prevTXs txCopy inID vin with
    | none => exact Or.inr rfl
    | some c =>
      simp only
      split
      · exact Or.inl ⟨false, rfl⟩
      · exact ih _ _

theorem blocks_ok_bucket (bc : Blockchain) (chain : List Block) (hc : bc.blocks = .ok chain) :
    bc.db.blocksBucket ≠ none := by
  intro hb
  simp [Blockchain.blocks, walkFuel, hb, walk, BlockchainIterator.Next, GetBlockByHash,
    Res.bind] at hc

/-- C17: on the chain that the session walks from its in-memory tip, `VerifyTransaction`
returns an error exactly when some input's `Txid` is the ID of no transaction on the chain;
the error is the not-found one and `AddBlock` returns it when the transactions listed before
verify. When every referenced transaction exists, the map of previous transactions holds, for
each input, the first transaction on the chain with that ID, no error is returned, and the
outcome of `VerifyTransaction` is the outcome of `Verify` on that map. -/
theorem VerifyTransaction_error_iff (P : Prims) (bc : Blockchain) (chain : List Block)
    (hc : bc.blocks = .ok chain) (tx : Transaction) :
    ((∃ e, bc.VerifyTransaction P tx = .error e) ↔
        ∃ vin ∈ tx.Vin, ∀ t ∈ txsOf chain, t.ID ≠ vin.Txid) ∧
      (∀ e, bc.VerifyTransaction P tx = .error e →
        e = .notFound ∧
        ∀ (now : Int) (pre post : List Transaction),
          (∀ t ∈ pre, bc.VerifyTransaction P t = .ok true) →
          bc.AddBlock P now (pre ++ tx :: post) = .error e) ∧
      ((∀ vin ∈ tx.Vin, ∃ t ∈ txsOf chain, t.ID = vin.Txid) →
        ∃ prevTXs, bc.prevTXs tx.Vin [] = .ok prevTXs ∧
          (∀ vin ∈ tx.Vin,
            prevTXs.get vin.Txid = (txsOf chain).find? (fun t => decide (t.ID = vin.Txid))) ∧
          bc.VerifyTransaction P tx = tx.Verify P prevTXs ∧
          ∀ e, tx.Verify P prevTXs ≠ .error e) := by
  have hp := Blockchain.prevTXs_of_blocks bc chain hc tx.Vin []
  have hnoerr : ∀ m e, tx.Verify P m ≠ .error e := by
    intro m e he
    rcases Verify.loop_no_error P m tx.Vin 0 tx.TrimmedCopy with ⟨v, hv⟩ | hv
    · rw [Transaction.Verify, hv] at he; simp at he
    · rw [Transaction.Verify, hv] at he; simp at he
  have hcases : (∀ vin ∈ tx.Vin, ∃ t ∈ txsOf chain, t.ID = vin.Txid) ∨
      ∃ vin ∈ tx.Vin, ∀ t ∈ txsOf chain, t.ID ≠ vin.Txid := by
    by_cases h : ∀ vin ∈ tx.Vin, ∃ t ∈ txsOf chain, t.ID = vin.Txid
    · exact Or.inl h
    · right
      push_neg at h
      exact h
  have herr : ∀ e, bc.VerifyTransaction P tx = .error e →
      e = .notFound ∧ ∃ vin ∈ tx.Vin, ∀ t ∈ txsOf chain, t.ID ≠ vin.Txid := by
    intro e he
    rcases hcases with hall | hsome
    · obtain ⟨m, hm, _, _⟩ := hp.1 hall
      rw [Blockchain.VerifyTransaction, hm] at he
      exact absurd he (hnoerr m e)
    · have := hp.2 hsome
      rw [Blockchain.VerifyTransaction, this] at he
      simp only [Res.bind] at he
      injection he with he
      exact ⟨he.symm, hsome⟩
  refine ⟨⟨?_, ?_⟩, ?_, ?_⟩
  · rintro ⟨e, he⟩
    exact (herr e he).2
  · intro hsome
    refine ⟨.notFound, ?_⟩
    rw [Blockchain.VerifyTransaction, hp.2 hsome]
    rfl
  · intro e he
    refine ⟨(herr e he).1, ?_⟩
    intro now pre post hpre
    exact (AddBlock_first_failure P now bc pre tx post (blocks_ok_bucket bc chain hc) hpre).2.1
      e he
  · intro hall
    obtain ⟨m, hm, hget, _⟩ := hp.1 hall
    refine ⟨m, hm, hget, ?_, hnoerr m⟩
    rw [Blockchain.VerifyTransaction, hm]
    rfl

theorem VerifyTransaction_error_iff_witness :
    session0.blocks = .ok chain0 ∧
      ((∃ e, session0.VerifyTransaction smallPrims tx0 = .error e) ↔
        ∃ vin ∈ tx0.Vin, ∀ t ∈ txsOf chain0, t.ID ≠ vin.Txid) ∧
      (∀ e, session0.VerifyTransaction smallPrims tx0 = .error e →
        e = .notFound ∧
        ∀ (now : Int) (pre post : List Transaction),
          (∀ t ∈ pre, session0.VerifyTransaction smallPrims t = .ok true) →
          session0.AddBlock smallPrims now (pre ++ tx0 :: post) = .error e) ∧
      ((∀ vin ∈ tx0.Vin, ∃ t ∈ txsOf chain0, t.ID = vin.Txid) →
        ∃ prevTXs, session0.prevTXs tx0.Vin [] = .ok prevTXs ∧
          (∀ vin ∈ tx0.Vin,
            prevTXs.get vin.Txid
              = (txsOf chain0).find? (fun t => decide (t.ID = vin.Txid))) ∧
          session0.VerifyTransaction smallPrims tx0 = tx0.Verify smallPrims prevTXs ∧
          ∀ e, tx0.Verify smallPrims prevTXs ≠ .error e) :=
  ⟨by decide!, VerifyTransaction_error_iff smallPrims session0 chain0 (by decide!) tx0⟩

/-! ## Transactions without inputs -/

theorem Verify_no_inputs (P : Prims) (tx : Transaction) (m : KV Transaction)
    (h : tx.Vin = []) : tx.Verify P m = .ok true := by
  simp [Transaction.Verify, Transaction.TrimmedCopy, h, Verify.loop]

theorem VerifyTransaction_no_inputs (P : Prims) (bc : Blockchain) (tx : Transaction)
    (h : tx.Vin = []) : bc.VerifyTransaction P tx = .ok true := by
  simp [Blockchain.VerifyTransaction, h, Blockchain.prevTXs, Res.bind, Verify_no_inputs P tx [] h]

/-- C18 (counterexample): on the reopened genesis session, `AddBlock` accepts the list
holding only `mintTx`, a transaction with no input, not coinbase-shaped, that pays 5000 to
B; the block is appended and after `Update` the balance of B is 5000. -/
theorem mint_accepted :
    mintTx.Vin = [] ∧ Transaction.IsCoinbase mintTx = false ∧
      session0.VerifyTransaction smallPrims mintTx = .ok true ∧
      chainShape ledger0 = .ok [[([(1, -1)], [1000])]] ∧
      chainShape minted = .ok [[([], [5000])], [([(2, -1)], [1000])]] ∧
      balanceIn ledger0 addressB = .ok 0 ∧
      balanceIn minted addressB = .ok 5000 := by
  refine ⟨?_, ?_, ?_, ?_, ?_, ?_, ?_⟩ <;> decide!

/-- C18 (as the code behaves): a transaction with no input passes `VerifyTransaction`
whatever its outputs; `AddBlock` of a list whose transactions all verify, the input-less ones
included, succeeds on a store with a blocks bucket, and the appended block holds the whole
list and becomes the tip. -/
theorem AddBlock_accepts_no_inputs (P : Prims) (now : Int) (bc : Blockchain)
    (txs : List Transaction) (tx : Transaction)
    (hb : bc.db.blocksBucket ≠ none) (hin : tx ∈ txs) (hv : tx.Vin = [])
    (hrest : ∀ t ∈ txs, t ≠ tx → bc.VerifyTransaction P t = .ok true) :
    bc.VerifyTransaction P tx = .ok true ∧
      ∃ r, bc.AddBlock P now txs = .ok r ∧ r.1.Transactions = txs ∧ tx ∈ r.1.Transactions ∧
        r.2.tip = r.1.Hash ∧ GetBlockByHash r.2.db r.1.Hash = .ok r.1 ∧
        GetLastHash r.2.db = .ok r.1.Hash := by
  have hvt := VerifyTransaction_no_inputs P bc tx hv
  refine ⟨hvt, ?_⟩
  cases hbb : bc.db.blocksBucket with
  | none => exact absurd hbb hb
  | some bb =>
    have hall : AddBlock.verifyAll P bc txs = .ok () := by
      rw [verifyAll_ok_iff]
      intro t ht
      by_cases e : t = tx
      · rw [e]; exact hvt
      · exact hrest t ht e
    have hl := MineBlock_hash_length P now txs (bb.last.getD [])
    have hf := MineBlock_fields P now txs (bb.last.getD [])
    refine ⟨_, (AddBlock_ok_iff P now bc txs _).2 ⟨bb, hbb, hall, rfl⟩, hf.1, ?_, rfl, ?_, ?_⟩
    · rw [hf.1]; exact hin
    · simp [GetBlockByHash, hash32_ne_lastHashKey hl, KV.get_insert_self]
    · simp [GetLastHash]

theorem AddBlock_accepts_no_inputs_witness :
    session0.db.blocksBucket ≠ none ∧ mintTx ∈ [mintTx] ∧ mintTx.Vin = [] ∧
      session0.VerifyTransaction smallPrims mintTx = .ok true ∧
      ∃ r, session0.AddBlock smallPrims 1 [mintTx] = .ok r ∧ r.1.Transactions = [mintTx] ∧
        mintTx ∈ r.1.Transactions ∧
        r.2.tip = r.1.Hash ∧ GetBlockByHash r.2.db r.1.Hash = .ok r.1 ∧
        GetLastHash r.2.db = .ok r.1.Hash :=
  ⟨by decide!, by decide!, by decide!,
    AddBlock_accepts_no_inputs smallPrims 1 session0 [mintTx] mintTx (by decide!) (by decide!)
      (by decide!) (fun t ht hne => absurd (List.mem_singleton.1 ht) hne)⟩

/-! ## Update removes by position -/

/-- The inner loop of `Update` drops the output at position `vout` of the stored entry and
keeps every other one. -/
theorem Update.keep_position (vout : Int) :
    ∀ (outs : List TXOutput) (outIdx : Nat),
      Update.keep vout outIdx outs
        = if (outIdx : Int) ≤ vout then outs.eraseIdx (vout - outIdx).toNat else outs := by
  intro outs
  induction outs with
  | nil => intro outIdx; simp [Update.keep]
  | cons out rest ih =>
    intro outIdx
    rw [Update.keep, ih (outIdx + 1)]
    by_cases h : (outIdx : Int) = vout
    · subst h
      simp
    · simp only [ne_eq, h, not_false_eq_true, if_true]
      by_cases hle : (outIdx : Int) ≤ vout
      · have h1 : ((outIdx + 1 : Nat) : Int) ≤ vout := by push_cast; omega
        rw [if_pos h1, if_pos hle]
        have e : (vout - (outIdx : Int)).toNat = (vout - ((outIdx + 1 : Nat) : Int)).toNat + 1 := by
          push_cast; omega
        rw [e, List.eraseIdx_cons_succ]
      · have h1 : ¬ ((outIdx + 1 : Nat) : Int) ≤ vout := by push_cast; omega
        rw [if_neg h1, if_neg hle]

/-- C19: `Update` drops the output at position `Vout` of the stored entry. With the entry of
`threeOut` holding its outputs of original index 1 and 2, a block spending `(threeOut.ID, 1)`
leaves the output of original index 1 in the entry and removes the one of original index 2;
a block spending `(threeOut.ID, 2)` changes nothing in the entry; with only the output of
original index 2 left, a block spending it leaves the entry in place. -/
theorem Update_removes_by_position :
    survivors.index = some [(threeOut.ID, ⟨[⟨20, [2]⟩, ⟨30, [3]⟩]⟩)] ∧
      ((survivors.Update (spending 1)).bind fun u => .ok u.index)
        = .ok (some [(threeOut.ID, ⟨[⟨20, [2]⟩]⟩), ([8], ⟨[⟨5, [4]⟩]⟩)]) ∧
      ((survivors.Update (spending 2)).bind fun u => .ok u.index)
        = .ok (some [(threeOut.ID, ⟨[⟨20, [2]⟩, ⟨30, [3]⟩]⟩), ([8], ⟨[⟨5, [4]⟩]⟩)]) ∧
      ((lastSurvivor.Update (spending 2)).bind fun u => .ok u.index)
        = .ok (some [(threeOut.ID, ⟨[⟨30, [3]⟩]⟩), ([8], ⟨[⟨5, [4]⟩]⟩)]) := by
  refine ⟨?_, ?_, ?_, ?_⟩ <;> decide!

/-! ## Reindex is idempotent -/

theorem Next_withIndex (db : DB) (x : Option (KV TXOutputs)) (it : BlockchainIterator) :
    it.Next { db with utxoBucket := x } = it.Next db := rfl

theorem walk_withIndex (db : DB) (x : Option (KV TXOutputs)) :
    ∀ (fuel : Nat) (it : BlockchainIterator),
      walk { db with utxoBucket := x } fuel it = walk db fuel it := by
  intro fuel
  induction fuel with
  | zero => intro it; rfl
  | succ fuel ih =>
    intro it
    rw [walk, walk, Next_withIndex]
    congr 1
    funext r
    rw [ih]

/-- C20: `Reindex` run twice in succession returns what one run returns, and what one run
returns does not depend on the content the UTXO bucket had before. On a state with a UTXO
bucket whose walk from the tip returns `chain`, the first run succeeds, the second run
returns the same state, the bucket holds what is computed from `chain` alone, and the chain
is unchanged. -/
theorem Reindex_idempotent (u : UTXOSet) (chain : List Block)
    (hidx : u.index ≠ none) (hw : u.blockchainSession.blocks = .ok chain) :
    (u.Reindex.bind fun u1 => u1.Reindex) = u.Reindex ∧
      (∀ b, (u.withIndex b).Reindex = u.Reindex) ∧
      ∃ u1, u.Reindex = .ok u1 ∧ u1.Reindex = .ok u1 ∧
        (∀ b, ((u.withIndex b).Reindex.bind fun u2 => u2.Reindex) = .ok u1) ∧
        u1.index = some (Reindex.putAll ((txsOf chain).foldl FindUTXO.tx ([], [])).1 []) ∧
        u1.blockchainSession.blocks = .ok chain := by
  obtain ⟨⟨tip, ⟨bb, idx⟩⟩⟩ := u
  cases idx with
  | none => exact absurd rfl hidx
  | some b0 =>
    have hwalk : walk ⟨bb, some []⟩ (walkFuel ⟨bb, some b0⟩) ⟨tip⟩ = .ok chain := by
      have := walk_withIndex ⟨bb, some b0⟩ (some []) (walkFuel ⟨bb, some b0⟩) ⟨tip⟩
      rw [← hw]
      exact this
    have hfind : Blockchain.FindUTXO ⟨tip, ⟨bb, some []⟩⟩
        = .ok ((txsOf chain).foldl FindUTXO.tx ([], [])).1 :=
      FindUTXO.loop_of_walk _ _ _ _ _ hwalk
    have hre : ∀ b, UTXOSet.Reindex ⟨⟨tip, ⟨bb, some b⟩⟩⟩
        = .ok ⟨⟨tip, ⟨bb, some
            (Reindex.putAll ((txsOf chain).foldl FindUTXO.tx ([], [])).1 [])⟩⟩⟩ := by
      intro b
      simp only [UTXOSet.Reindex, hfind, Res.bind]
    refine ⟨?_, ?_, _, hre b0, hre _, ?_, rfl, ?_⟩
    · rw [hre b0]
      exact hre _
    · intro b
      exact (hre b).trans (hre b0).symm
    · intro b
      simp only [UTXOSet.withIndex]
      rw [hre b]
      exact hre _
    · have := walk_withIndex ⟨bb, some b0⟩
        (some (Reindex.putAll ((txsOf chain).foldl FindUTXO.tx ([], [])).1 []))
        (walkFuel ⟨bb, some b0⟩) ⟨tip⟩
      rw [← hw]
      exact this

theorem Reindex_idempotent_witness :
    UTXOSet.index ⟨session0⟩ ≠ none ∧ session0.blocks = .ok chain0 ∧
      ((UTXOSet.Reindex ⟨session0⟩).bind fun u1 => u1.Reindex) = UTXOSet.Reindex ⟨session0⟩ ∧
      (∀ b, (UTXOSet.withIndex ⟨session0⟩ b).Reindex = UTXOSet.Reindex ⟨session0⟩) ∧
      ∃ u1, UTXOSet.Reindex ⟨session0⟩ = .ok u1 ∧ u1.Reindex = .ok u1 ∧
        (∀ b, ((UTXOSet.withIndex ⟨session0⟩ b).Reindex.bind fun u2 => u2.Reindex) = .ok u1) ∧
        u1.index = some (Reindex.putAll ((txsOf chain0).foldl FindUTXO.tx ([], [])).1 []) ∧
        u1.blockchainSession.blocks = .ok chain0 :=
  ⟨by decide!, by decide!, Reindex_idempotent ⟨session0⟩ chain0 (by decide!) (by decide!)⟩


/-! ## Addresses -/

theorem take_drop_one (d : Bytes) (v : Fin 256) (t : Bytes) (n : Nat) (hd : d = v :: t)
    (hn : 1 ≤ n) : [v] ++ (d.take n).drop 1 = d.take n := by
  subst hd
  cases n with
  | zero => omega
  | succ n => simp

/-- `ValidateAddress` on a decoding of at least 5 bytes compares the last 4 bytes with the
checksum of the rest. -/
theorem ValidateAddress_of_length (P : Prims) (address : Bytes)
    (h : 5 ≤ (P.Base58Decode address).length) :
    ValidateAddress P address
      = .ok (decide ((P.Base58Decode address).drop ((P.Base58Decode address).length - 4)
          = checksum P ((P.Base58Decode address).take ((P.Base58Decode address).length - 4)))) := by
  unfold ValidateAddress
  simp only [addressChecksumLen]
  rw [if_neg (by omega)]
  cases hd : P.Base58Decode address with
  | nil => rw [hd] at h; simp at h
  | cons v t =>
    rw [hd] at h
    simp only
    rw [if_neg (by omega)]
    have e := take_drop_one (v :: t) v t ((v :: t).length - 4) rfl (by omega)
    simp only [e]

theorem ValidateAddress_short (P : Prims) (address : Bytes)
    (h : (P.Base58Decode address).length < 5) : ValidateAddress P address = .panic := by
  unfold ValidateAddress
  simp only [addressChecksumLen]
  by_cases h4 : (P.Base58Decode address).length < 4
  · rw [if_pos h4]
  · rw [if_neg h4]
    cases hd : P.Base58Decode address with
    | nil => rfl
    | cons v t =>
      rw [hd] at h h4
      simp only
      rw [if_pos (by omega)]

theorem checksum_length (P : Prims) (payload : Bytes) : (checksum P payload).length = 4 := by
  simp [checksum, addressChecksumLen, P.sha256_length]

theorem GetAddress_payload (P : Prims) (w : Wallet) :
    w.GetAddress P = P.Base58Encode (addressPayload P w.PublicKey) := by
  simp [Wallet.GetAddress, addressPayload, HashPublicKey, checksum, version,
    addressChecksumLen]

theorem addressPayload_split (P : Prims) (pk : Bytes) :
    addressPayload P pk
      = (0 :: HashPublicKey P pk) ++ checksum P (0 :: HashPublicKey P pk) := by
  simp [addressPayload, HashPublicKey, checksum, addressChecksumLen]

theorem addressPayload_length (P : Prims) (pk : Bytes) :
    (addressPayload P pk).length = (HashPublicKey P pk).length + 5 := by
  rw [addressPayload_split, List.length_append, checksum_length]
  simp

theorem addressPayload_take (P : Prims) (pk : Bytes) :
    (addressPayload P pk).take ((addressPayload P pk).length - 4) = 0 :: HashPublicKey P pk := by
  rw [addressPayload_length, addressPayload_split]
  have : (HashPublicKey P pk).length + 5 - 4 = (0 :: HashPublicKey P pk).length := by simp
  rw [this, List.take_left]

theorem addressPayload_drop (P : Prims) (pk : Bytes) :
    (addressPayload P pk).drop ((addressPayload P pk).length - 4)
      = checksum P (0 :: HashPublicKey P pk) := by
  rw [addressPayload_length, addressPayload_split]
  have : (HashPublicKey P pk).length + 5 - 4 = (0 :: HashPublicKey P pk).length := by simp
  rw [this, List.drop_left]

/-- The key hash that a derived address decodes to is the hash of the key. -/
theorem addressPubKeyHash_GetAddress (P : Prims) (w : Wallet)
    (hinv : P.Base58Decode (P.Base58Encode (addressPayload P w.PublicKey))
      = addressPayload P w.PublicKey) :
    addressPubKeyHash P (w.GetAddress P) = .ok (HashPublicKey P w.PublicKey) := by
  unfold addressPubKeyHash
  rw [GetAddress_payload, hinv]
  simp only
  rw [if_pos (by rw [addressPayload_length]; omega), addressPayload_take]
  rfl

/-- C26: for an address whose Base58 decoding `d` has at least 5 bytes, `ValidateAddress`
returns true exactly when the last 4 bytes of `d` are the first 4 bytes of the double
SHA-256 of `d` without its last 4 bytes. So when it returns true for `d`, it returns false
for every address that decodes to a string of the same length with the same bytes before the
last 4 and different from `d`, that is, with some checksum byte changed. -/
theorem ValidateAddress_iff_checksum (P : Prims) (address : Bytes)
    (h : 5 ≤ (P.Base58Decode address).length) :
    (∃ v, ValidateAddress P address = .ok v ∧
      (v = true ↔
        (P.Base58Decode address).drop ((P.Base58Decode address).length - 4)
          = (P.sha256 (P.sha256
              ((P.Base58Decode address).take ((P.Base58Decode address).length - 4)))).take 4)) ∧
      ∀ corrupted : Bytes,
        (P.Base58Decode corrupted).length = (P.Base58Decode address).length →
        (P.Base58Decode corrupted).take ((P.Base58Decode address).length - 4)
          = (P.Base58Decode address).take ((P.Base58Decode address).length - 4) →
        P.Base58Decode corrupted ≠ P.Base58Decode address →
        ValidateAddress P address = .ok true → ValidateAddress P corrupted = .ok false := by
  have hv := ValidateAddress_of_length P address h
  constructor
  · refine ⟨_, hv, ?_⟩
    simp [checksum, addressChecksumLen]
  · intro corrupted hlen htake hne hvalid
    rw [ValidateAddress_of_length P corrupted (by rw [hlen]; exact h), hlen, htake]
    rw [hv] at hvalid
    injection hvalid with hvalid
    rw [decide_eq_true_eq] at hvalid
    congr 1
    rw [decide_eq_false_iff_not, ← hvalid]
    intro hdrop
    apply hne
    calc P.Base58Decode corrupted
        = (P.Base58Decode corrupted).take ((P.Base58Decode address).length - 4)
            ++ (P.Base58Decode corrupted).drop ((P.Base58Decode address).length - 4) :=
          (List.take_append_drop _ _).symm
      _ = (P.Base58Decode address).take ((P.Base58Decode address).length - 4)
            ++ (P.Base58Decode address).drop ((P.Base58Decode address).length - 4) := by
          rw [htake, hdrop]
      _ = P.Base58Decode address := List.take_append_drop _ _

theorem ValidateAddress_iff_checksum_witness :
    5 ≤ (smallPrims.Base58Decode addressA).length ∧
      corruptedA.length = addressA.length ∧ corruptedA ≠ addressA ∧
      ValidateAddress smallPrims addressA = .ok true ∧
      ValidateAddress smallPrims corruptedA = .ok false :=
  ⟨by decide!, by decide!, by decide!, by decide!,
    (ValidateAddress_iff_checksum smallPrims addressA (by decide!)).2 corruptedA (by decide!)
      (by decide!) (by decide!) (by decide!)⟩

/-- C27: when Base58 decoding inverts the encoding of the payload, the address that
`GetAddress` returns is the encoding of the version byte 0, RIPEMD-160 of SHA-256 of the
public key, and the first 4 bytes of the double SHA-256 of the two; and `ValidateAddress`
returns true on it. -/
theorem GetAddress_validates (P : Prims) (w : Wallet)
    (hinv : P.Base58Decode (P.Base58Encode (addressPayload P w.PublicKey))
      = addressPayload P w.PublicKey) :
    w.GetAddress P
        = P.Base58Encode (0 :: P.ripemd160 (P.sha256 w.PublicKey)
            ++ (P.sha256 (P.sha256 (0 :: P.ripemd160 (P.sha256 w.PublicKey)))).take 4) ∧
      ValidateAddress P (w.GetAddress P) = .ok true := by
  refine ⟨GetAddress_payload P w, ?_⟩
  have hlen : 5 ≤ (P.Base58Decode (w.GetAddress P)).length := by
    rw [GetAddress_payload, hinv, addressPayload_length]
    omega
  rw [ValidateAddress_of_length P _ hlen, GetAddress_payload, hinv, addressPayload_take,
    addressPayload_drop]
  simp

theorem GetAddress_validates_witness :
    smallPrims.Base58Decode (smallPrims.Base58Encode (addressPayload smallPrims walletA.PublicKey))
        = addressPayload smallPrims walletA.PublicKey ∧
      walletA.GetAddress smallPrims
        = smallPrims.Base58Encode (0 :: smallPrims.ripemd160 (smallPrims.sha256 walletA.PublicKey)
            ++ (smallPrims.sha256 (smallPrims.sha256
                (0 :: smallPrims.ripemd160 (smallPrims.sha256 walletA.PublicKey)))).take 4) ∧
      ValidateAddress smallPrims (walletA.GetAddress smallPrims) = .ok true :=
  ⟨by decide!, GetAddress_validates smallPrims walletA (by decide!)⟩

/-- C28 (the code departs from it): on every input whose Base58 decoding has fewer than 5
bytes `ValidateAddress` panics on a slice or index out of range; it does not return false. -/
theorem ValidateAddress_panics_below_five (P : Prims) (address : Bytes)
    (h : (P.Base58Decode address).length < 5) :
    ValidateAddress P address = .panic ∧ ValidateAddress P address ≠ .ok false := by
  have hp := ValidateAddress_short P address h
  refine ⟨hp, ?_⟩
  rw [hp]
  exact fun e => Res.noConfusion e

theorem ValidateAddress_panics_below_five_witness :
    (smallPrims.Base58Decode []).length < 5 ∧
      ValidateAddress smallPrims [] = .panic ∧ ValidateAddress smallPrims [] ≠ .ok false :=
  ⟨by decide!, ValidateAddress_panics_below_five smallPrims [] (by decide!)⟩

/-- C29: when Base58 decoding inverts the encoding of the payload, `NewTXOutput` for the
address of a public key returns an output with the given value whose `PubKeyHash` is
`HashPublicKey` of the key, that is RIPEMD-160 of SHA-256 of it; `IsLockedWith` that hash is
true, and every input carrying the key satisfies `UsesKey` of the output's `PubKeyHash`. -/
theorem NewTXOutput_locked_to_key_hash (P : Prims) (w : Wallet) (value : Int)
    (hinv : P.Base58Decode (P.Base58Encode (addressPayload P w.PublicKey))
      = addressPayload P w.PublicKey) :
    ∃ out, NewTXOutput P value (w.GetAddress P) = .ok out ∧ out.Value = value ∧
      out.PubKeyHash = HashPublicKey P w.PublicKey ∧
      HashPublicKey P w.PublicKey = P.ripemd160 (P.sha256 w.PublicKey) ∧
      out.IsLockedWith (HashPublicKey P w.PublicKey) = true ∧
      ∀ inp : TXInput, inp.PubKey = w.PublicKey → inp.UsesKey P out.PubKeyHash = true := by
  refine ⟨⟨value, HashPublicKey P w.PublicKey⟩, ?_, rfl, rfl, rfl, ?_, ?_⟩
  · rw [NewTXOutput, addressPubKeyHash_GetAddress P w hinv]
    rfl
  · simp [TXOutput.IsLockedWith]
  · intro inp hk
    simp [TXInput.UsesKey, hk]

theorem NewTXOutput_locked_to_key_hash_witness :
    smallPrims.Base58Decode (smallPrims.Base58Encode (addressPayload smallPrims walletA.PublicKey))
        = addressPayload smallPrims walletA.PublicKey ∧
      ∃ out, NewTXOutput smallPrims 7 (walletA.GetAddress smallPrims) = .ok out ∧
        out.Value = 7 ∧
        out.PubKeyHash = HashPublicKey smallPrims walletA.PublicKey ∧
        HashPublicKey smallPrims walletA.PublicKey
          = smallPrims.ripemd160 (smallPrims.sha256 walletA.PublicKey) ∧
        out.IsLockedWith (HashPublicKey smallPrims walletA.PublicKey) = true ∧
        ∀ inp : TXInput, inp.PubKey = walletA.PublicKey →
          inp.UsesKey smallPrims out.PubKeyHash = true :=
  ⟨by decide!, NewTXOutput_locked_to_key_hash smallPrims walletA 7 (by decide!)⟩

/-- C30: for an address whose Base58 decoding has at least 5 bytes, as every address that
`ValidateAddress` accepts has, and every memo, `NewCoinbaseTx` returns a transaction that is
coinbase, with one input of empty `Txid` and `Vout` -1 carrying the memo (the random string
when the memo is empty), with one output of 1000 locked to the address's key hash, and whose
`ID` is its own `Hash`. -/
theorem NewCoinbaseTx_shape (P : Prims) (to_ data rnd : Bytes)
    (h : 5 ≤ (P.Base58Decode to_).length) :
    ∃ tx pubKeyHash, NewCoinbaseTx P to_ data rnd = .ok tx ∧
      addressPubKeyHash P to_ = .ok pubKeyHash ∧
      tx.IsCoinbase = true ∧
      tx.Vin = [⟨[], -1, [], if data = [] then rnd else data⟩] ∧
      tx.Vout = [⟨1000, pubKeyHash⟩] ∧
      (∀ out ∈ tx.Vout, out.IsLockedWith pubKeyHash = true) ∧
      tx.ID = tx.Hash P := by
  have ha : addressPubKeyHash P to_
      = .ok (((P.Base58Decode to_).take ((P.Base58Decode to_).length - 4)).drop 1) := by
    simp [addressPubKeyHash, h]
  refine ⟨⟨Transaction.Hash P ⟨[], [⟨[], -1, [], if data = [] then rnd else data⟩],
      [⟨subsidy, ((P.Base58Decode to_).take ((P.Base58Decode to_).length - 4)).drop 1⟩]⟩,
      [⟨[], -1, [], if data = [] then rnd else data⟩],
      [⟨subsidy, ((P.Base58Decode to_).take ((P.Base58Decode to_).length - 4)).drop 1⟩]⟩,
    _, ?_, ha, ?_, ?_, ?_, ?_, ?_⟩
  · simp only [NewCoinbaseTx, NewTXOutput, ha, Res.bind]
  · simp [Transaction.IsCoinbase]
  · rfl
  · rfl
  · intro out hout
    simp only [List.mem_singleton] at hout
    subst hout
    simp [TXOutput.IsLockedWith]
  · rfl

theorem NewCoinbaseTx_shape_witness :
    5 ≤ (smallPrims.Base58Decode addressA).length ∧
      ∃ tx pubKeyHash, NewCoinbaseTx smallPrims addressA genesisCoinbaseData [] = .ok tx ∧
        addressPubKeyHash smallPrims addressA = .ok pubKeyHash ∧
        tx.IsCoinbase = true ∧
        tx.Vin = [⟨[], -1, [], if genesisCoinbaseData = [] then [] else genesisCoinbaseData⟩] ∧
        tx.Vout = [⟨1000, pubKeyHash⟩] ∧
        (∀ out ∈ tx.Vout, out.IsLockedWith pubKeyHash = true) ∧
        tx.ID = tx.Hash smallPrims :=
  ⟨by decide!, NewCoinbaseTx_shape smallPrims addressA genesisCoinbaseData [] (by decide!)⟩

/-! ## Balances -/

theorem wrap64_add_left (a b : Int) : wrap64 (wrap64 a + b) = wrap64 (a + b) := by
  unfold wrap64
  omega

theorem wrap64_zero : wrap64 0 = 0 := by decide

theorem balance_foldl (l : List TXOutput) :
    ∀ a : Int, l.foldl (fun balance out => wrap64 (balance + out.Value)) (wrap64 a)
      = wrap64 (a + (l.map fun out => out.Value).sum) := by
  induction l with
  | nil => intro a; simp
  | cons o rest ih =>
    intro a
    simp only [List.foldl_cons, List.map_cons, List.sum_cons]
    rw [wrap64_add_left, ih, add_assoc]

theorem lockedOutputs_eq (b : KV TXOutputs) (pubKeyHash : Bytes) :
    (b.map (fun e => e.2.Outputs.filter (fun out => out.IsLockedWith pubKeyHash))).flatten
      = lockedOutputs b pubKeyHash := by
  unfold lockedOutputs
  induction b with
  | nil => rfl
  | cons e rest ih =>
    simp only [List.map_cons, List.flatten_cons, List.filter_append, ih]
    rfl

/-- C21: for an address whose Base58 decoding `d` has at least 5 bytes and an index content
`b`, `GetBalance` returns the sum, in Go `int` arithmetic, of `Value` over the outputs of all
entries whose `PubKeyHash` is `d` without its first byte and its last 4 bytes; it returns 0
when there is none, and the exact sum when that is a 64-bit integer. -/
theorem GetBalance_is_locked_sum (P : Prims) (u : UTXOSet) (address : Bytes)
    (b : KV TXOutputs) (hlen : 5 ≤ (P.Base58Decode address).length)
    (hidx : u.index = some b) :
    u.GetBalance P address
        = .ok (wrap64 ((lockedOutputs b
            (((P.Base58Decode address).take ((P.Base58Decode address).length - 4)).drop 1)).map
              fun out => out.Value).sum) ∧
      (lockedOutputs b
          (((P.Base58Decode address).take ((P.Base58Decode address).length - 4)).drop 1) = [] →
        u.GetBalance P address = .ok 0) ∧
      (∀ total : Int,
        ((lockedOutputs b
          (((P.Base58Decode address).take ((P.Base58Decode address).length - 4)).drop 1)).map
            fun out => out.Value).sum = total →
        -9223372036854775808 ≤ total → total < 9223372036854775808 →
        u.GetBalance P address = .ok total) := by
  have hg : u.GetBalance P address
      = .ok (wrap64 ((lockedOutputs b
          (((P.Base58Decode address).take ((P.Base58Decode address).length - 4)).drop 1)).map
            fun out => out.Value).sum) := by
    have hidx1 : u.blockchainSession.db.utxoBucket = some b := hidx
    simp only [UTXOSet.GetBalance, addressPubKeyHash, if_pos hlen, Res.bind, UTXOSet.FindUTXO,
      hidx1, lockedOutputs_eq]
    have := balance_foldl (lockedOutputs b
      (((P.Base58Decode address).take ((P.Base58Decode address).length - 4)).drop 1)) 0
    rw [wrap64_zero, zero_add] at this
    rw [this]
  refine ⟨hg, ?_, ?_⟩
  · intro hnone
    rw [hg, hnone]
    rfl
  · intro total hsum hlo hhi
    rw [hg, hsum, wrap64_of_range total hlo hhi]

theorem GetBalance_is_locked_sum_witness :
    5 ≤ (smallPrims.Base58Decode addressA).length ∧
      UTXOSet.index ⟨session0⟩ = some [(genesisTx.ID, ⟨genesisTx.Vout⟩)] ∧
      UTXOSet.GetBalance smallPrims ⟨session0⟩ addressA = .ok 1000 :=
  ⟨by decide!, by decide!,
    (GetBalance_is_locked_sum smallPrims ⟨session0⟩ addressA [(genesisTx.ID, ⟨genesisTx.Vout⟩)]
      (by decide!) (by decide!)).2.2 1000 (by decide!) (by decide) (by decide)⟩

/-! ## Spendable outputs, again -/

/-- C22 (the code departs from it): after A has sent 300 to itself, `FindSpendableOutputs`
for 1500 returns output 0 and output 1 of that transaction twice each and the accumulated
value 2000. After A has then sent 200 to B, spending output 0 of the self-payment,
`FindSpendableOutputs` for 500 returns that spent output again, next to the two unspent
outputs, and the accumulated value 1100; the unspent outputs locked to A are worth 800. -/
theorem spendable_selection_unsound :
    chainShape selfPay = .ok [[([(1, 0)], [300, 700])], [([(2, -1)], [1000])]] ∧
      spendableShape selfPay addressA 1500 = .ok (2000, [(0, [0, 1, 0, 1])]) ∧
      chainShape selfPayThenSend
        = .ok [[([(1, 0)], [200, 100])], [([(2, 0)], [300, 700])], [([(3, -1)], [1000])]] ∧
      spendableShape selfPayThenSend addressA 500 = .ok (1100, [(1, [0, 1]), (0, [1])]) ∧
      indexValues (selfPayThenSend.bind fun u => u.Reindex) = .ok [(1, [700]), (0, [200, 100])] ∧
      balanceIn (selfPayThenSend.bind fun u => u.Reindex) addressA = .ok 800 := by
  refine ⟨?_, ?_, ?_, ?_, ?_, ?_⟩ <;> decide!

/-! ## Walking the chain -/

/-- On a store built by genesis creation and `AddBlock` calls with pairwise distinct block
hashes, the walk from the hash of the newest block returns the chain. -/
theorem Built.walk_blocks (P : Prims) (db : DB) (newest : Block) (rest : List Block)
    (hb : Built P db (newest :: rest))
    (hhash : ((newest :: rest).map fun b => b.Hash).Nodup) :
    Blockchain.blocks ⟨newest.Hash, db⟩ = .ok (newest :: rest) := by
  have inv := Built.inv P db _ hb
  obtain ⟨bb, hbb, hlen, hst⟩ := inv.stored hhash
  apply walk_linked db bb hbb (newest :: rest) newest rest rfl inv.linked
    (fun c hc => ⟨inv.hash32 c hc, hst c hc⟩)
  simp only [walkFuel, hbb, hlen]
  omega

/-- On a store that holds every block of a linked chain under its hash, as many `Next` calls
as the chain has blocks, from the hash of the newest block, return the chain and leave the
iterator at the empty hash. -/
theorem nextCalls_linked (db : DB) (bb : BlocksBucket) (hdb : db.blocksBucket = some bb) :
    ∀ (chain : List Block) (b : Block) (rest : List Block), chain = b :: rest →
      Linked chain →
      (∀ c ∈ chain, c.Hash.length = 32 ∧ bb.blocks.get c.Hash = some c) →
      nextCalls db chain.length ⟨b.Hash⟩ = .ok (chain, ⟨[]⟩) := by
  intro chain
  induction chain with
  | nil => intro b rest h; simp at h
  | cons c tail ih =>
    intro b rest hc hlink hst
    injection hc with h1 h2
    subst h1
    subst h2
    obtain ⟨h32, hget⟩ := hst c (List.mem_cons_self _ _)
    have hnext : BlockchainIterator.Next db ⟨c.Hash⟩ = .ok (c, ⟨c.PrevBlockHash⟩) := by
      simp [BlockchainIterator.Next, GetBlockByHash, hdb, hash32_ne_lastHashKey h32, hget,
        Res.bind]
    rw [List.length_cons, nextCalls, hnext]
    simp only [Res.bind]
    cases tail with
    | nil =>
      have hp : c.PrevBlockHash = [] := hlink
      simp [hp, nextCalls]
    | cons c1 tail1 =>
      obtain ⟨hp, hlink1⟩ := hlink
      rw [hp, ih c1 tail1 rfl hlink1 (fun d hd => hst d (List.mem_cons_of_mem _ hd))]

/-- In a linked chain of blocks with 32-byte hashes only the last block has an empty
`PrevBlockHash`. -/
theorem Linked_prev (chain : List Block) (hlink : Linked chain)
    (h32 : ∀ c ∈ chain, c.Hash.length = 32) :
    (∀ b ∈ chain.dropLast, b.PrevBlockHash ≠ []) ∧
      ∀ g, chain.getLast? = some g → g.PrevBlockHash = [] := by
  induction chain with
  | nil => simp
  | cons c tail ih =>
    cases tail with
    | nil =>
      have hp : c.PrevBlockHash = [] := hlink
      simp [hp]
    | cons c1 tail1 =>
      obtain ⟨hp, hlink1⟩ := hlink
      obtain ⟨ih1, ih2⟩ := ih hlink1 (fun d hd => h32 d (List.mem_cons_of_mem _ hd))
      have h1 := h32 c1 (List.mem_cons_of_mem _ (List.mem_cons_self _ _))
      constructor
      · intro b hb
        rw [List.dropLast_cons₂] at hb
        rcases List.mem_cons.1 hb with e | e
        · subst e
          intro h0
          rw [hp] at h0
          rw [h0] at h1
          simp at h1
        · exact ih1 b e
      · intro g hg
        rw [List.getLast?_cons_cons] at hg
        exact ih2 g hg

/-- The oldest block of a built chain is the block that genesis creation mined. -/
theorem Built.oldest (P : Prims) (db : DB) (chain : List Block) (h : Built P db chain) :
    ∃ now address cbtx, NewCoinbaseTx P address genesisCoinbaseData [] = .ok cbtx ∧
      chain.getLast? = some (NewGenesisBlock P now cbtx) := by
  induction h with
  | genesis now address cbtx db hcb _ => exact ⟨now, address, cbtx, hcb, rfl⟩
  | addBlock now db chain tip txs r hbuilt _ ih =>
    obtain ⟨now0, address, cbtx, hcb, hlast⟩ := ih
    refine ⟨now0, address, cbtx, hcb, ?_⟩
    cases chain with
    | nil => simp at hlast
    | cons c tail => rw [List.getLast?_cons_cons]; exact hlast
  | index db chain b _ ih => exact ih

/-- C23: take a store built by genesis creation and `n` successful `AddBlock` calls whose
`n + 1` block hashes are pairwise distinct, and the session whose in-memory tip is the hash
of the newest block. After `ResetIterator` the first `n + 1` calls of `Next` return the
blocks newest first, in reverse order of appending; the last of them is the block that
genesis creation mined, its `PrevBlockHash` is empty, and no earlier one has an empty
`PrevBlockHash`. -/
theorem Next_walks_tip_to_genesis (P : Prims) (db : DB) (newest : Block) (rest : List Block)
    (hb : Built P db (newest :: rest))
    (hhash : ((newest :: rest).map fun b => b.Hash).Nodup) :
    nextCalls db (rest.length + 1) (Blockchain.ResetIterator ⟨newest.Hash, db⟩)
        = .ok (newest :: rest, ⟨[]⟩) ∧
      (∃ now address cbtx, NewCoinbaseTx P address genesisCoinbaseData [] = .ok cbtx ∧
        (newest :: rest).getLast? = some (NewGenesisBlock P now cbtx) ∧
        (NewGenesisBlock P now cbtx).PrevBlockHash = []) ∧
      ∀ b ∈ (newest :: rest).dropLast, b.PrevBlockHash ≠ [] := by
  have inv := Built.inv P db _ hb
  obtain ⟨bb, hbb, _, hst⟩ := inv.stored hhash
  obtain ⟨hprev, hlast⟩ := Linked_prev (newest :: rest) inv.linked inv.hash32
  obtain ⟨now, address, cbtx, hcb, hg⟩ := Built.oldest P db _ hb
  refine ⟨?_, ⟨now, address, cbtx, hcb, hg, hlast _ hg⟩, hprev⟩
  exact nextCalls_linked db bb hbb (newest :: rest) newest rest rfl inv.linked
    (fun c hc => ⟨inv.hash32 c hc, hst c hc⟩)

theorem Next_walks_tip_to_genesis_witness :
    nextCalls added0.2.db 2 (Blockchain.ResetIterator ⟨added0.1.Hash, added0.2.db⟩)
        = .ok ([added0.1, NewGenesisBlock smallPrims 0 genesisTx], ⟨[]⟩) ∧
      (∃ now address cbtx,
        NewCoinbaseTx smallPrims address genesisCoinbaseData [] = .ok cbtx ∧
        [added0.1, NewGenesisBlock smallPrims 0 genesisTx].getLast?
          = some (NewGenesisBlock smallPrims now cbtx) ∧
        (NewGenesisBlock smallPrims now cbtx).PrevBlockHash = []) ∧
      ∀ b ∈ [added0.1, NewGenesisBlock smallPrims 0 genesisTx].dropLast,
        b.PrevBlockHash ≠ [] :=
  Next_walks_tip_to_genesis smallPrims added0.2.db added0.1
    [NewGenesisBlock smallPrims 0 genesisTx] added0_built (by decide!)

/-- C24: on a store built by genesis creation and successful `AddBlock` calls with pairwise
distinct block hashes, in the session whose tip is the hash of the newest block,
`FindTransactionByID(id)` returns the first transaction with that ID, scanning the blocks
newest first and the transactions of a block in list order, when the chain has a transaction
with that ID, and the not-found error otherwise. -/
theorem FindTransactionByID_first_on_chain (P : Prims) (db : DB) (newest : Block)
    (rest : List Block) (hb : Built P db (newest :: rest))
    (hhash : ((newest :: rest).map fun b => b.Hash).Nodup) (ID : Bytes) :
    ((∃ t ∈ txsOf (newest :: rest), t.ID = ID) →
        ∃ t before after, Blockchain.FindTransactionByID ⟨newest.Hash, db⟩ ID = .ok t ∧
          t.ID = ID ∧ txsOf (newest :: rest) = before ++ t :: after ∧
          ∀ u ∈ before, u.ID ≠ ID) ∧
      ((∀ t ∈ txsOf (newest :: rest), t.ID ≠ ID) →
        Blockchain.FindTransactionByID ⟨newest.Hash, db⟩ ID = .error .notFound) := by
  have hfind := Blockchain.FindTransactionByID_of_blocks ⟨newest.Hash, db⟩ (newest :: rest)
    (Built.walk_blocks P db newest rest hb hhash) ID
  constructor
  · intro hex
    obtain ⟨t, ht⟩ := (find?_id_isSome_iff _ _).2 hex
    rw [ht] at hfind
    obtain ⟨hp, before, after, hsplit, hbefore⟩ := List.find?_eq_some.1 ht
    refine ⟨t, before, after, hfind, by simpa using hp, hsplit, ?_⟩
    intro u hu
    have := hbefore u hu
    simpa using this
  · intro hno
    have hn : (txsOf (newest :: rest)).find? (fun tx => decide (tx.ID = ID)) = none := by
      rw [List.find?_eq_none]
      intro t ht
      simpa using hno t ht
    rw [hn] at hfind
    exact hfind

theorem FindTransactionByID_first_on_chain_witness :
    ((∃ t ∈ txsOf [added0.1, NewGenesisBlock smallPrims 0 genesisTx], t.ID = genesisTx.ID) →
        ∃ t before after,
          Blockchain.FindTransactionByID ⟨added0.1.Hash, added0.2.db⟩ genesisTx.ID = .ok t ∧
          t.ID = genesisTx.ID ∧
          txsOf [added0.1, NewGenesisBlock smallPrims 0 genesisTx] = before ++ t :: after ∧
          ∀ u ∈ before, u.ID ≠ genesisTx.ID) ∧
      ((∀ t ∈ txsOf [added0.1, NewGenesisBlock smallPrims 0 genesisTx], t.ID ≠ genesisTx.ID) →
        Blockchain.FindTransactionByID ⟨added0.1.Hash, added0.2.db⟩ genesisTx.ID
          = .error .notFound) :=
  FindTransactionByID_first_on_chain smallPrims added0.2.db added0.1
    [NewGenesisBlock smallPrims 0 genesisTx] added0_built (by decide!) genesisTx.ID

/-! ## Genesis creation on an existing chain -/

/-- C25 (counterexample): on the store that genesis creation left, `CreateBlockchain`
changes nothing and returns the nil hash, while the persisted tip is the 32-byte hash of the
genesis block, which `NewBlockchain` returns as the tip of the session. -/
theorem CreateBlockchain_again_returns_nil :
    CreateBlockchain smallPrims 1 genesisDB addressA = .ok ([], genesisDB) ∧
      GetBlockchain genesisDB = some (NewGenesisBlock smallPrims 0 genesisTx).Hash ∧
      (NewGenesisBlock smallPrims 0 genesisTx).Hash.length = 32 ∧
      NewBlockchain smallPrims 1 genesisDB addressA
        = .ok ⟨(NewGenesisBlock smallPrims 0 genesisTx).Hash, genesisDB⟩ := by
  refine ⟨?_, ?_, ?_, ?_⟩ <;> decide!

/-- C25 (as the code behaves): on a store that has the blocks bucket, `CreateBlockchain` for
an address whose decoding has at least 5 bytes returns the nil hash and no error and leaves
the store as it is. `NewBlockchain` on a store with a persisted tip does not create anything:
it returns the session whose tip is the persisted tip, on the unchanged store. -/
theorem CreateBlockchain_on_existing (P : Prims) (now : Int) (db : DB) (address : Bytes)
    (bb : BlocksBucket) (hb : db.blocksBucket = some bb)
    (haddr : 5 ≤ (P.Base58Decode address).length) :
    CreateBlockchain P now db address = .ok ([], db) ∧
      (∀ tip, bb.last = some tip →
        GetBlockchain db = some tip ∧ NewBlockchain P now db address = .ok ⟨tip, db⟩) := by
  have ha : addressPubKeyHash P address
      = .ok (((P.Base58Decode address).take ((P.Base58Decode address).length - 4)).drop 1) := by
    simp [addressPubKeyHash, haddr]
  constructor
  · simp only [CreateBlockchain, NewCoinbaseTx, NewTXOutput, ha, Res.bind, hb]
  · intro tip htip
    have hg : GetBlockchain db = some tip := by simp [GetBlockchain, hb, htip]
    refine ⟨hg, ?_⟩
    simp only [NewBlockchain, hg]

theorem CreateBlockchain_on_existing_witness :
    5 ≤ (smallPrims.Base58Decode addressA).length ∧
      CreateBlockchain smallPrims 1 session0.db addressA = .ok ([], session0.db) ∧
      (∀ tip, (session0.db.blocksBucket.getD ⟨[], none⟩).last = some tip →
        GetBlockchain session0.db = some tip ∧
          NewBlockchain smallPrims 1 session0.db addressA = .ok ⟨tip, session0.db⟩) :=
  ⟨by decide!,
    CreateBlockchain_on_existing smallPrims 1 session0.db addressA
      (session0.db.blocksBucket.getD ⟨[], none⟩) (by decide!) (by decide!)⟩


/-! ## Transaction hashes -/

/-- C32: `Hash` of a transaction with its ID replaced by any byte string is `Hash` of the
transaction, both being SHA-256 of the serialization with the ID empty; and after the call
the receiver has the ID, the inputs and the outputs it had. -/
theorem Hash_ignores_ID (P : Prims) (tx : Transaction) (x : Bytes) :
    Transaction.Hash P { tx with ID := x } = tx.Hash P ∧
      tx.Hash P = P.sha256 (P.gobTx ⟨[], tx.Vin, tx.Vout⟩) ∧
      (tx.HashCall P).2 = tx.Hash P ∧
      (tx.HashCall P).1.ID = tx.ID ∧ (tx.HashCall P).1.Vin = tx.Vin ∧
      (tx.HashCall P).1.Vout = tx.Vout :=
  ⟨rfl, rfl, rfl, rfl, rfl, rfl⟩

/-! ## Splitting in half -/

theorem splitHalf_append (a b : Bytes) :
    splitHalf (a ++ b) = (a, b) ↔ (a.length + b.length) / 2 = a.length := by
  unfold splitHalf
  rw [List.length_append]
  constructor
  · intro h
    have h1 := congrArg (fun p => p.1.length) h
    simp only [List.length_take, List.length_append] at h1
    omega
  · intro h
    rw [h, List.take_left, List.drop_left]

/-- C39: splitting `a ++ b` at half its length, as `Verify` splits a signature and a public
key, returns `(a, b)` exactly when `len(b) - len(a)` is 0 or 1. So the signature
`r.Bytes() ++ s.Bytes()` that `Sign` writes, and a public key `X.Bytes() ++ Y.Bytes()`, are
split back into their two parts exactly when the encodings have such lengths. -/
theorem splitHalf_append_iff (a b : Bytes) :
    (splitHalf (a ++ b) = (a, b) ↔
        ((b.length : Int) - a.length = 0 ∨ (b.length : Int) - a.length = 1)) ∧
      ∀ r s : Nat,
        (splitHalf (natToBytes r ++ natToBytes s) = (natToBytes r, natToBytes s) ↔
          (((natToBytes s).length : Int) - (natToBytes r).length = 0 ∨
            ((natToBytes s).length : Int) - (natToBytes r).length = 1)) := by
  have key : ∀ a b : Bytes, splitHalf (a ++ b) = (a, b) ↔
      ((b.length : Int) - a.length = 0 ∨ (b.length : Int) - a.length = 1) := by
    intro a b
    rw [splitHalf_append]
    omega
  exact ⟨key a b, fun r s => key _ _⟩

/-! ## The ID of a transfer -/

theorem map_unsigned_of_map (l1 l2 : List TXInput)
    (h : l1.map (fun i => (i.Txid, i.Vout, i.PubKey))
      = l2.map (fun i => (i.Txid, i.Vout, i.PubKey))) :
    l1.map (fun i => ({ i with Signature := [] } : TXInput))
      = l2.map (fun i => ({ i with Signature := [] } : TXInput)) := by
  have e : ∀ l : List TXInput,
      l.map (fun i => ({ i with Signature := [] } : TXInput))
        = (l.map (fun i => (i.Txid, i.Vout, i.PubKey))).map
            (fun p => (⟨p.1, p.2.1, [], p.2.2⟩ : TXInput)) := by
    intro l
    rw [List.map_map]
    rfl
  rw [e l1, e l2, h]

theorem buildInputs_unsigned (wallet : Wallet) (m : KV (List Int)) :
    (buildInputs wallet m).map (fun i => ({ i with Signature := [] } : TXInput))
      = buildInputs wallet m := by
  induction m with
  | nil => rfl
  | cons e rest ih =>
    obtain ⟨k, outs⟩ := e
    simp only [buildInputs, List.map_append, ih, List.map_map]
    congr 1

/-- C31 (counterexample): the transfer that `NewUTXOTransaction` returns on the reopened
genesis session is signed, and its `ID` is not its `Hash`; the `ID` is the `Hash` of the
transaction with the signature cleared. -/
theorem transfer_ID_is_not_Hash :
    transferTx = .ok tx0 ∧ (tx0.Vin.map fun i => i.Signature.length) = [64] ∧
      tx0.ID ≠ tx0.Hash smallPrims ∧ tx0.ID = tx0.unsigned.Hash smallPrims := by
  refine ⟨?_, ?_, ?_, ?_⟩ <;> decide!

/-- C31 (as the code behaves): the `ID` of every transaction that `NewUTXOTransaction`
returns is the `Hash` taken before signing, that is the `Hash` of the returned transaction
with every `Signature` empty. It is the `Hash` of the returned transaction when no
signature was stored. -/
theorem NewUTXOTransaction_ID (P : Prims) (wallet : Wallet) (from_ to_ : Bytes) (amount : Int)
    (bc : Blockchain) (tx : Transaction)
    (h : NewUTXOTransaction P wallet from_ to_ amount bc = .ok tx) :
    tx.ID = tx.unsigned.Hash P ∧
      tx.ID = P.sha256 (P.gobTx
        ⟨[], tx.Vin.map (fun i => { i with Signature := [] }), tx.Vout⟩) ∧
      ((∀ i ∈ tx.Vin, i.Signature = []) → tx.ID = tx.Hash P) := by
  obtain ⟨acc, vo, pkhTo, pkhFrom, _, _, _, _, _, hvin, hid⟩ :=
    NewUTXOTransaction_ok P wallet from_ to_ amount bc tx h
  have hu : tx.Vin.map (fun i => ({ i with Signature := [] } : TXInput))
      = buildInputs wallet vo := by
    rw [map_unsigned_of_map _ _ hvin, buildInputs_unsigned]
  have h1 : tx.ID = tx.unsigned.Hash P := by
    rw [hid]
    simp only [Transaction.unsigned, Transaction.Hash, hu]
  refine ⟨h1, h1, ?_⟩
  intro hall
  have : tx.unsigned = tx := by
    unfold Transaction.unsigned
    have hm : tx.Vin.map (fun i => ({ i with Signature := [] } : TXInput)) = tx.Vin := by
      conv_rhs => rw [← List.map_id tx.Vin]
      apply List.map_congr_left
      intro i hi
      have := hall i hi
      cases i
      simp only at this
      simp [this]
    rw [hm]
  rw [h1, this]

theorem NewUTXOTransaction_ID_witness :
    tx0.ID = tx0.unsigned.Hash smallPrims ∧
      tx0.ID = smallPrims.sha256 (smallPrims.gobTx
        ⟨[], tx0.Vin.map (fun i => { i with Signature := [] }), tx0.Vout⟩) ∧
      ((∀ i ∈ tx0.Vin, i.Signature = []) → tx0.ID = tx0.Hash smallPrims) :=
  NewUTXOTransaction_ID smallPrims walletA addressA addressB 100 session0 tx0 (by decide!)

/-! ## Transfers of amounts that are not positive -/

theorem buildInputs_ne_nil (wallet : Wallet) :
    ∀ (m : KV (List Int)) (k : Bytes) (v : List Int), m.get k = some v → v ≠ [] →
      buildInputs wallet m ≠ [] := by
  intro m
  induction m with
  | nil => intro k v h; simp [KV.get] at h
  | cons e rest ih =>
    obtain ⟨k1, outs⟩ := e
    intro k v h hv
    rw [KV.get_cons] at h
    simp only [buildInputs]
    by_cases hk : k1 = k
    · rw [if_pos hk] at h
      injection h with h
      subst h
      cases outs with
      | nil => exact absurd rfl hv
      | cons o os => simp
    · rw [if_neg hk] at h
      intro hnil
      exact ih k v h hv (List.append_eq_nil.1 hnil).2

/-- Whenever the accumulated value is not 0, some output has been selected. -/
theorem FindSpendableOutputs.outputs_selected (pubKeyHash : Bytes) (amount : Int)
    (txID : Bytes) :
    ∀ (l : List TXOutput) (n : Nat) (st : Int × KV (List Int)),
      (st.1 ≠ 0 → ∃ k v, st.2.get k = some v ∧ v ≠ []) →
      ((FindSpendableOutputs.outputs pubKeyHash amount txID n l st).1.1 ≠ 0 →
        ∃ k v, (FindSpendableOutputs.outputs pubKeyHash amount txID n l st).1.2.get k = some v
          ∧ v ≠ []) := by
  intro l
  induction l with
  | nil => intro n st h; simpa [FindSpendableOutputs.outputs] using h
  | cons out rest ih =>
    intro n st h
    rw [FindSpendableOutputs.outputs]
    have hnew : ∃ k v,
        (st.2.insert txID ((st.2.get txID).getD [] ++ [(n : Int)])).get k = some v ∧ v ≠ [] :=
      ⟨txID, _, KV.get_insert_self _ _ _, by simp⟩
    by_cases hc : (out.IsLockedWith pubKeyHash && decide (st.1 < amount)) = true
    · rw [if_pos hc]
      simp only
      by_cases hge : wrap64 (st.1 + out.Value) ≥ amount
      · rw [if_pos hge]
        exact fun _ => hnew
      · rw [if_neg hge]
        exact ih _ _ (fun _ => hnew)
    · rw [if_neg hc]
      exact ih _ _ h

theorem FindSpendableOutputs.work_selected (pubKeyHash : Bytes) (amount : Int) :
    ∀ (txs : List Transaction) (st : Int × KV (List Int)),
      (st.1 ≠ 0 → ∃ k v, st.2.get k = some v ∧ v ≠ []) →
      ((FindSpendableOutputs.work pubKeyHash amount txs st).1 ≠ 0 →
        ∃ k v, (FindSpendableOutputs.work pubKeyHash amount txs st).2.get k = some v ∧ v ≠ []) := by
  intro txs
  induction txs with
  | nil => intro st h; simpa [FindSpendableOutputs.work] using h
  | cons tx rest ih =>
    intro st h
    have ho := FindSpendableOutputs.outputs_selected pubKeyHash amount tx.ID tx.Vout 0 st h
    rw [FindSpendableOutputs.work]
    rcases hres : FindSpendableOutputs.outputs pubKeyHash amount tx.ID 0 tx.Vout st with ⟨st1, fl⟩
    rw [hres] at ho
    cases fl with
    | true => exact ho
    | false => exact ih st1 ho

/-- What `FindSpendableOutputs` selects: something when the accumulated value is not 0,
nothing at all when the amount is not positive. -/
theorem Blockchain.FindSpendableOutputs_selected (P : Prims) (bc : Blockchain)
    (address : Bytes) (amount : Int) (acc : Int) (vo : KV (List Int))
    (h : bc.FindSpendableOutputs P address amount = .ok (acc, vo)) :
    (acc ≠ 0 → ∃ k v, vo.get k = some v ∧ v ≠ []) ∧ (amount ≤ 0 → acc = 0 ∧ vo = []) := by
  unfold Blockchain.FindSpendableOutputs at h
  cases ha : addressPubKeyHash P address with
  | ok p =>
    rw [ha] at h
    simp only [Res.bind] at h
    cases hu : bc.FindUnspentTransactions P p with
    | ok txs =>
      rw [hu] at h
      simp only at h
      injection h with h
      constructor
      · have hw := FindSpendableOutputs.work_selected p amount txs (0, []) (by simp)
        rw [h] at hw
        exact hw
      · intro hle
        have h2 := (FindSpendableOutputs.work_acc p amount txs (0, [])).2 (by simp only; omega)
        rw [h] at h2
        exact ⟨congrArg Prod.fst h2, congrArg Prod.snd h2⟩
    | error e => rw [hu] at h; simp at h
    | panic => rw [hu] at h; simp at h
    | hang => rw [hu] at h; simp at h
  | error e => rw [ha] at h; simp [Res.bind] at h
  | panic => rw [ha] at h; simp [Res.bind] at h
  | hang => rw [ha] at h; simp [Res.bind] at h

/-- C36 (counterexample): on the reopened genesis session `NewUTXOTransaction` for the
amount 0 returns, without error, a transaction with no input and one output of 0, which
`AddBlock` accepts. -/
theorem zero_transfer_has_no_input :
    (zeroTransfer.bind fun tx => .ok (tx.Vin, tx.Vout.map fun o => o.Value)) = .ok ([], [0]) ∧
      ((zeroTransfer.bind fun tx => session0.AddBlock smallPrims 2 [tx]).bind fun r =>
        .ok (r.1.Transactions.map fun tx => tx.Vin.length)) = .ok [0] := by
  refine ⟨?_, ?_⟩ <;> decide!

/-- C36 (as the code behaves): a transaction that `NewUTXOTransaction` returns has at least
one input when the amount is positive, and no input when the amount is 0 or negative. -/
theorem NewUTXOTransaction_inputs (P : Prims) (wallet : Wallet) (from_ to_ : Bytes)
    (amount : Int) (bc : Blockchain) (tx : Transaction)
    (h : NewUTXOTransaction P wallet from_ to_ amount bc = .ok tx) :
    (0 < amount → tx.Vin ≠ []) ∧ (amount ≤ 0 → tx.Vin = []) := by
  obtain ⟨acc, vo, pkhTo, pkhFrom, hf, _, _, hle, _, hvin, _⟩ :=
    NewUTXOTransaction_ok P wallet from_ to_ amount bc tx h
  obtain ⟨hsel, hnone⟩ := Blockchain.FindSpendableOutputs_selected P bc from_ amount acc vo hf
  constructor
  · intro hpos
    obtain ⟨k, v, hk, hv⟩ := hsel (by omega)
    have hb := buildInputs_ne_nil wallet vo k v hk hv
    intro hnil
    rw [hnil] at hvin
    simp only [List.map_nil] at hvin
    exact hb (List.map_eq_nil_iff.1 hvin.symm)
  · intro hneg
    obtain ⟨_, hvo⟩ := hnone hneg
    rw [hvo] at hvin
    simp only [buildInputs, List.map_nil] at hvin
    exact List.map_eq_nil_iff.1 hvin

theorem NewUTXOTransaction_inputs_witness :
    (0 < (100 : Int) → tx0.Vin ≠ []) ∧ ((100 : Int) ≤ 0 → tx0.Vin = []) :=
  NewUTXOTransaction_inputs smallPrims walletA addressA addressB 100 session0 tx0 (by decide!)

/-- C37 (counterexample): on the reopened genesis session `NewUTXOTransaction` for the
amount -5 returns, without error, a transaction with no input whose outputs are -5 for B and
5 for A; `AddBlock` accepts it, and after `Update` the balances are 1005 and -5. -/
theorem negative_transfer_outputs :
    (negativeTransfer.bind fun tx => .ok (tx.Vin, tx.Vout.map fun o => o.Value))
        = .ok ([], [-5, 5]) ∧
      chainShape negativeSent = .ok [[([], [-5, 5])], [([(2, -1)], [1000])]] ∧
      balanceIn negativeSent addressA = .ok 1005 ∧
      balanceIn negativeSent addressB = .ok (-5) := by
  refine ⟨?_, ?_, ?_, ?_⟩ <;> decide!

/-- C37 (as the code behaves): the first output of a transaction that `NewUTXOTransaction`
returns carries the amount as it was passed. When the amount is not negative every output
has a value of at least 0; when it is negative the first output has a negative value and the
second, the change for the sender, is its opposite in Go arithmetic. -/
theorem NewUTXOTransaction_values (P : Prims) (wallet : Wallet) (from_ to_ : Bytes)
    (amount : Int) (bc : Blockchain) (tx : Transaction)
    (h : NewUTXOTransaction P wallet from_ to_ amount bc = .ok tx) :
    (tx.Vout.head?.map fun o => o.Value) = some amount ∧
      (0 ≤ amount → ∀ out ∈ tx.Vout, 0 ≤ out.Value) ∧
      (amount < 0 → (tx.Vout.map fun o => o.Value) = [amount, wrap64 (0 - amount)]) := by
  obtain ⟨acc, vo, pkhTo, pkhFrom, hf, _, _, hle, hvout, _, _⟩ :=
    NewUTXOTransaction_ok P wallet from_ to_ amount bc tx h
  obtain ⟨ha1, ha2, ha0⟩ := Blockchain.FindSpendableOutputs_acc P bc from_ amount acc vo hf
  refine ⟨?_, ?_, ?_⟩
  · rw [hvout]
    by_cases hgt : acc > amount
    · rw [if_pos hgt]; rfl
    · rw [if_neg hgt]; rfl
  · intro hpos out hout
    rw [hvout] at hout
    by_cases hgt : acc > amount
    · rw [if_pos hgt] at hout
      simp only [List.mem_cons, List.mem_singleton, List.not_mem_nil, or_false] at hout
      rcases hout with e | e
      · rw [e]; exact hpos
      · rw [e]
        simp only
        rw [wrap64_of_range _ (by omega) (by omega)]
        omega
    · rw [if_neg hgt] at hout
      simp only [List.mem_singleton] at hout
      rw [hout]
      exact hpos
  · intro hneg
    have h0 := ha0 (by omega)
    rw [hvout, if_pos (by omega), h0]
    rfl

theorem NewUTXOTransaction_values_witness :
    (tx0.Vout.head?.map fun o => o.Value) = some 100 ∧
      (0 ≤ (100 : Int) → ∀ out ∈ tx0.Vout, 0 ≤ out.Value) ∧
      ((100 : Int) < 0 → (tx0.Vout.map fun o => o.Value) = [100, wrap64 (0 - 100)]) :=
  NewUTXOTransaction_values smallPrims walletA addressA addressB 100 session0 tx0 (by decide!)

/-! ## The in-memory tip -/

/-- C38 (the code departs from it): for an address whose decoding has at least 5 bytes,
`NewBlockchain` on an empty store persists the genesis block and its 32-byte hash as the
tip, and returns a session whose in-memory tip is nil. On a store with a persisted tip the
session's tip is the persisted tip, and after every successful `AddBlock` the in-memory tip
and the persisted tip are both the hash of the new block, which is stored. -/
theorem NewBlockchain_tip_vs_persisted (P : Prims) (now : Int) (address : Bytes)
    (h : 5 ≤ (P.Base58Decode address).length) :
    (∃ cbtx bc, NewCoinbaseTx P address genesisCoinbaseData [] = .ok cbtx ∧
        NewBlockchain P now DB.empty address = .ok bc ∧ bc.tip = [] ∧
        GetBlockchain bc.db = some (NewGenesisBlock P now cbtx).Hash ∧
        (NewGenesisBlock P now cbtx).Hash.length = 32 ∧
        GetBlockByHash bc.db (NewGenesisBlock P now cbtx).Hash
          = .ok (NewGenesisBlock P now cbtx) ∧
        some bc.tip ≠ GetBlockchain bc.db) ∧
      (∀ db tip, GetBlockchain db = some tip →
        NewBlockchain P now db address = .ok ⟨tip, db⟩) ∧
      (∀ (bc : Blockchain) (txs : List Transaction) (r : Block × Blockchain),
        bc.AddBlock P now txs = .ok r →
        r.2.tip = r.1.Hash ∧ GetBlockchain r.2.db = some r.1.Hash ∧
          GetBlockByHash r.2.db r.1.Hash = .ok r.1) := by
  have ha : addressPubKeyHash P address
      = .ok (((P.Base58Decode address).take ((P.Base58Decode address).length - 4)).drop 1) := by
    simp [addressPubKeyHash, h]
  refine ⟨?_, ?_, ?_⟩
  · obtain ⟨cbtx, hcb⟩ : ∃ cbtx, NewCoinbaseTx P address genesisCoinbaseData [] = .ok cbtx := by
      simp only [NewCoinbaseTx, NewTXOutput, ha, Res.bind]
      exact ⟨_, rfl⟩
    have hl : (NewGenesisBlock P now cbtx).Hash.length = 32 :=
      MineBlock_hash_length P now [cbtx] []
    have hnew : NewBlockchain P now DB.empty address
        = .ok ⟨[], ⟨some ⟨[((NewGenesisBlock P now cbtx).Hash, NewGenesisBlock P now cbtx)],
                        some (NewGenesisBlock P now cbtx).Hash⟩, none⟩⟩ := by
      have hl1 := MineBlock_hash_length P now [cbtx] []
      simp only [NewBlockchain, GetBlockchain, DB.empty, CreateBlockchain, hcb, Res.bind,
        NewGenesisBlock, putBlock_hash32 _ _ hl1, KV.insert_nil]
    refine ⟨cbtx, _, hcb, hnew, rfl, ?_, hl, ?_, ?_⟩
    · simp [GetBlockchain]
    · simp [GetBlockByHash, hash32_ne_lastHashKey hl, KV.get_cons]
    · simp only [GetBlockchain]
      intro e
      injection e with e
      rw [← e] at hl
      simp at hl
  · intro db tip hg
    simp only [NewBlockchain, hg]
  · intro bc txs r hr
    obtain ⟨bb, hbb, _, hrr⟩ := (AddBlock_ok_iff P now bc txs r).1 hr
    have hl := MineBlock_hash_length P now txs (bb.last.getD [])
    subst hrr
    refine ⟨rfl, ?_, ?_⟩
    · simp [GetBlockchain]
    · simp [GetBlockByHash, hash32_ne_lastHashKey hl, KV.get_insert_self]

theorem NewBlockchain_tip_vs_persisted_witness :
    (∃ cbtx bc, NewCoinbaseTx smallPrims addressA genesisCoinbaseData [] = .ok cbtx ∧
        NewBlockchain smallPrims 0 DB.empty addressA = .ok bc ∧ bc.tip = [] ∧
        GetBlockchain bc.db = some (NewGenesisBlock smallPrims 0 cbtx).Hash ∧
        (NewGenesisBlock smallPrims 0 cbtx).Hash.length = 32 ∧
        GetBlockByHash bc.db (NewGenesisBlock smallPrims 0 cbtx).Hash
          = .ok (NewGenesisBlock smallPrims 0 cbtx) ∧
        some bc.tip ≠ GetBlockchain bc.db) ∧
      (∀ db tip, GetBlockchain db = some tip →
        NewBlockchain smallPrims 0 db addressA = .ok ⟨tip, db⟩) ∧
      (∀ (bc : Blockchain) (txs : List Transaction) (r : Block × Blockchain),
        bc.AddBlock smallPrims 0 txs = .ok r →
        r.2.tip = r.1.Hash ∧ GetBlockchain r.2.db = some r.1.Hash ∧
          GetBlockByHash r.2.db r.1.Hash = .ok r.1) :=
  NewBlockchain_tip_vs_persisted smallPrims 0 addressA (by decide!)

/-! ## Verification and out-of-range indices -/

/-- C34 (the code departs from it): on the reopened genesis session `VerifyTransaction` and
`AddBlock` panic on a transaction whose input names output 7 of the genesis coinbase, which
has one output, and on one whose input names its output -1. The coinbase-shaped genesis
transaction gets the not-found error there, and a panic on a chain that holds a transaction
with an empty ID. -/
theorem verification_panics :
    genesisTx.Vout.length = 1 ∧
      session0.VerifyTransaction smallPrims outOfRangeTx = .panic ∧
      session0.AddBlock smallPrims 2 [outOfRangeTx] = .panic ∧
      session0.VerifyTransaction smallPrims negativeIndexTx = .panic ∧
      session0.AddBlock smallPrims 2 [negativeIndexTx] = .panic ∧
      genesisTx.IsCoinbase = true ∧
      session0.VerifyTransaction smallPrims genesisTx = .error .notFound ∧
      sessionEmptyId.VerifyTransaction smallPrims genesisTx = .panic ∧
      sessionEmptyId.AddBlock smallPrims 2 [genesisTx] = .panic := by
  refine ⟨?_, ?_, ?_, ?_, ?_, ?_, ?_, ?_, ?_⟩ <;> decide!

/-! ## Signing and verifying use one digest -/

theorem modifyAt_id (f : TXInput → TXInput) :
    ∀ (l : List TXInput) (n : Nat), (∀ x ∈ l, f x = x) → modifyAt f n l = l := by
  intro l
  induction l with
  | nil => intro n _; cases n <;> rfl
  | cons x xs ih =>
    intro n h
    cases n with
    | zero => simp [modifyAt, h x (List.mem_cons_self _ _)]
    | succ n => simp [modifyAt, ih n (fun y hy => h y (List.mem_cons_of_mem _ hy))]

theorem modifyAt_modifyAt (f g : TXInput → TXInput) :
    ∀ (l : List TXInput) (n : Nat),
      modifyAt g n (modifyAt f n l) = modifyAt (fun x => g (f x)) n l := by
  intro l
  induction l with
  | nil => intro n; cases n <;> rfl
  | cons x xs ih =>
    intro n
    cases n with
    | zero => simp [modifyAt]
    | succ n => simp [modifyAt, ih n]

theorem TrimmedCopy_trimmed (tx : Transaction) :
    ∀ x ∈ tx.TrimmedCopy.Vin, x.Signature = [] ∧ x.PubKey = [] := by
  intro x hx
  simp only [Transaction.TrimmedCopy, List.mem_map] at hx
  obtain ⟨v, _, hv⟩ := hx
  subst hv
  exact ⟨rfl, rfl⟩

/-- One round of the three assignments on a copy whose inputs carry no signature and no key:
the `ID` becomes the hash of the copy with the one `PubKey` set, and the inputs and outputs
are left as they were. -/
theorem inputDigest_trimmed (P : Prims) (prevTXs : KV Transaction) (txCopy : Transaction)
    (inID : Nat) (vin : TXInput) (prevTx : Transaction) (prevOut : TXOutput)
    (hT : ∀ x ∈ txCopy.Vin, x.Signature = [] ∧ x.PubKey = [])
    (hp : prevTXs.get vin.Txid = some prevTx)
    (ho : outputAt prevTx.Vout vin.Vout = some prevOut) :
    inputDigest P prevTXs txCopy inID vin
      = some ⟨Transaction.Hash P
          { txCopy with
            Vin := modifyAt (fun v => { v with PubKey := prevOut.PubKeyHash }) inID txCopy.Vin },
          txCopy.Vin, txCopy.Vout⟩ := by
  have h1 : modifyAt (fun i => { i with Signature := [] }) inID txCopy.Vin = txCopy.Vin := by
    apply modifyAt_id
    intro x hx
    have := (hT x hx).1
    cases x
    simp only at this
    simp [this]
  have h2 : modifyAt (fun i => { i with PubKey := [] }) inID
      (modifyAt (fun i => { i with PubKey := prevOut.PubKeyHash }) inID txCopy.Vin)
        = txCopy.Vin := by
    rw [modifyAt_modifyAt]
    apply modifyAt_id
    intro x hx
    have := (hT x hx).2
    cases x
    simp only at this
    simp [this]
  simp only [inputDigest, hp, ho, h1, h2]

theorem inputDigest_unresolved (P : Prims) (prevTXs : KV Transaction) (txCopy : Transaction)
    (inID : Nat) (vin : TXInput)
    (h : ∀ prevTx, prevTXs.get vin.Txid = some prevTx → outputAt prevTx.Vout vin.Vout = none) :
    inputDigest P prevTXs txCopy inID vin = none := by
  unfold inputDigest
  cases hp : prevTXs.get vin.Txid with
  | none => rfl
  | some prevTx => simp only [h prevTx hp]

theorem get?_append_cons (pre : List TXInput) (vin : TXInput) (rest : List TXInput) :
    (pre ++ vin :: rest).get? pre.length = some vin := by
  induction pre with
  | nil => rfl
  | cons x xs ih => simpa using ih

/-- The digest of the specification, for the input at the head of the inputs still to
visit. -/
theorem specDigest_at (P : Prims) (prevTXs : KV Transaction) (tx : Transaction)
    (pre : List TXInput) (vin : TXInput) (rest : List TXInput)
    (h : tx.Vin = pre ++ vin :: rest) :
    specDigest P prevTXs tx pre.length
      = match prevTXs.get vin.Txid with
        | none => none
        | some prevTx =>
          match outputAt prevTx.Vout vin.Vout with
          | none => none
          | some prevOut =>
            some (Transaction.Hash P
              { tx.TrimmedCopy with
                Vin := modifyAt (fun v => { v with PubKey := prevOut.PubKeyHash }) pre.length
                  tx.TrimmedCopy.Vin }) := by
  unfold specDigest
  rw [h, get?_append_cons]

/-- The loop of `Verify` is the check of the specification: the copy that the loop carries
from one input to the next differs from the trimmed copy in its `ID` only, which `Hash`
ignores. -/
theorem Verify.loop_eq_specVerify (P : Prims) (prevTXs : KV Transaction) (tx : Transaction) :
    ∀ (vins pre : List TXInput) (txCopy : Transaction), tx.Vin = pre ++ vins →
      txCopy.Vin = tx.TrimmedCopy.Vin → txCopy.Vout = tx.TrimmedCopy.Vout →
      Verify.loop P prevTXs pre.length vins txCopy
        = specVerify P prevTXs tx pre.length vins.length := by
  intro vins
  induction vins with
  | nil => intro pre txCopy _ _ _; rfl
  | cons vin rest ih =>
    intro pre txCopy hsplit hvin hvout
    have hT : ∀ x ∈ txCopy.Vin, x.Signature = [] ∧ x.PubKey = [] := by
      rw [hvin]; exact TrimmedCopy_trimmed tx
    have hget : tx.Vin.get? pre.length = some vin := by rw [hsplit, get?_append_cons]
    have hsd := specDigest_at P prevTXs tx pre vin rest hsplit
    rw [Verify.loop, List.length_cons, specVerify]
    simp only [inputVerifies, hget]
    cases hp : prevTXs.get vin.Txid with
    | none =>
      simp only [hp] at hsd
      rw [inputDigest_unresolved P prevTXs txCopy _ vin (by intro t ht; rw [hp] at ht; cases ht),
        hsd]
      rfl
    | some prevTx =>
      cases ho : outputAt prevTx.Vout vin.Vout with
      | none =>
        simp only [hp, ho] at hsd
        rw [inputDigest_unresolved P prevTXs txCopy _ vin
          (by intro t ht; rw [hp] at ht; injection ht with ht; rw [← ht]; exact ho), hsd]
        rfl
      | some prevOut =>
        simp only [hp, ho] at hsd
        have hd := inputDigest_trimmed P prevTXs txCopy pre.length vin prevTx prevOut hT hp ho
        have hh : Transaction.Hash P
            { txCopy with
              Vin := modifyAt (fun v => { v with PubKey := prevOut.PubKeyHash }) pre.length
                txCopy.Vin }
            = Transaction.Hash P
              { tx.TrimmedCopy with
                Vin := modifyAt (fun v => { v with PubKey := prevOut.PubKeyHash }) pre.length
                  tx.TrimmedCopy.Vin } := by
          simp only [Transaction.Hash, hvin, hvout]
        rw [hd, hsd, hh]
        simp only [Option.map_some', splitHalf]
        have hnext := ih (pre ++ [vin])
          ⟨Transaction.Hash P
            { tx.TrimmedCopy with
              Vin := modifyAt (fun v => { v with PubKey := prevOut.PubKeyHash }) pre.length
                tx.TrimmedCopy.Vin }, txCopy.Vin, txCopy.Vout⟩
          (by rw [hsplit]; simp) hvin hvout
        rw [List.length_append, List.length_singleton] at hnext
        cases hv : P.ecdsaVerify (bytesToNat (List.take (vin.PubKey.length / 2) vin.PubKey))
            (bytesToNat (List.drop (vin.PubKey.length / 2) vin.PubKey))
            (Transaction.Hash P
              { tx.TrimmedCopy with
                Vin := modifyAt (fun v => { v with PubKey := prevOut.PubKeyHash }) pre.length
                  tx.TrimmedCopy.Vin })
            (bytesToNat (List.take (vin.Signature.length / 2) vin.Signature))
            (bytesToNat (List.drop (vin.Signature.length / 2) vin.Signature)) with
        | false => simp
        | true =>
          simp only [Bool.true_eq_false, if_false]
          exact hnext

theorem Verify_eq_specVerify (P : Prims) (prevTXs : KV Transaction) (tx : Transaction) :
    tx.Verify P prevTXs = specVerify P prevTXs tx 0 tx.Vin.length :=
  Verify.loop_eq_specVerify P prevTXs tx tx.Vin [] tx.TrimmedCopy rfl rfl rfl

/-- The loop of `Sign` is the signing of the specification. -/
theorem Sign.loop_eq_specSign (P : Prims) (privKey : PrivateKey) (prevTXs : KV Transaction)
    (tx : Transaction) :
    ∀ (vs pre : List TXInput) (cur txCopy : Transaction), tx.Vin = pre ++ vs →
      txCopy.Vin = tx.TrimmedCopy.Vin → txCopy.Vout = tx.TrimmedCopy.Vout →
      Sign.loop P privKey prevTXs pre.length
          (vs.map fun vin => ⟨vin.Txid, vin.Vout, [], []⟩) cur txCopy
        = specSign P privKey prevTXs tx pre.length vs.length cur := by
  intro vs
  induction vs with
  | nil => intro pre cur txCopy _ _ _; rfl
  | cons vin rest ih =>
    intro pre cur txCopy hsplit hvin hvout
    have hT : ∀ x ∈ txCopy.Vin, x.Signature = [] ∧ x.PubKey = [] := by
      rw [hvin]; exact TrimmedCopy_trimmed tx
    have hsd := specDigest_at P prevTXs tx pre vin rest hsplit
    rw [List.map_cons, Sign.loop, List.length_cons, specSign]
    cases hp : prevTXs.get vin.Txid with
    | none =>
      simp only [hp] at hsd
      rw [inputDigest_unresolved P prevTXs txCopy _ _
        (by intro t ht; simp only at ht; rw [hp] at ht; cases ht), hsd]
    | some prevTx =>
      cases ho : outputAt prevTx.Vout vin.Vout with
      | none =>
        simp only [hp, ho] at hsd
        rw [inputDigest_unresolved P prevTXs txCopy _ _
          (by intro t ht; simp only at ht; rw [hp] at ht; injection ht with ht; rw [← ht]
              exact ho), hsd]
      | some prevOut =>
        simp only [hp, ho] at hsd
        have hd := inputDigest_trimmed P prevTXs txCopy pre.length
          ⟨vin.Txid, vin.Vout, [], []⟩ prevTx prevOut hT hp ho
        have hh : Transaction.Hash P
            { txCopy with
              Vin := modifyAt (fun v => { v with PubKey := prevOut.PubKeyHash }) pre.length
                txCopy.Vin }
            = Transaction.Hash P
              { tx.TrimmedCopy with
                Vin := modifyAt (fun v => { v with PubKey := prevOut.PubKeyHash }) pre.length
                  tx.TrimmedCopy.Vin } := by
          simp only [Transaction.Hash, hvin, hvout]
        rw [hd, hsd, hh]
        simp only
        cases hs : P.ecdsaSign privKey (Transaction.Hash P
            { tx.TrimmedCopy with
              Vin := modifyAt (fun v => { v with PubKey := prevOut.PubKeyHash }) pre.length
                tx.TrimmedCopy.Vin }) with
        | none => rfl
        | some rs =>
          obtain ⟨r, s⟩ := rs
          simp only
          have hnext := ih (pre ++ [vin])
            { cur with
              Vin := modifyAt (fun v => { v with Signature := natToBytes r ++ natToBytes s })
                pre.length cur.Vin }
            ⟨Transaction.Hash P
              { tx.TrimmedCopy with
                Vin := modifyAt (fun v => { v with PubKey := prevOut.PubKeyHash }) pre.length
                  tx.TrimmedCopy.Vin }, txCopy.Vin, txCopy.Vout⟩
            (by rw [hsplit]; simp) hvin hvout
          rw [List.length_append, List.length_singleton] at hnext
          exact hnext

theorem Sign_eq_specSign (P : Prims) (privKey : PrivateKey) (prevTXs : KV Transaction)
    (tx : Transaction) :
    tx.Sign P privKey prevTXs
      = if tx.IsCoinbase then .ok (tx, true)
        else specSign P privKey prevTXs tx 0 tx.Vin.length tx := by
  unfold Transaction.Sign
  by_cases hc : tx.IsCoinbase = true
  · rw [if_pos hc, if_pos hc]
  · rw [if_neg hc, if_neg hc]
    exact Sign.loop_eq_specSign P privKey prevTXs tx tx.Vin [] tx tx.TrimmedCopy rfl rfl rfl

/-- The per-input digest depends on the `Txid` and `Vout` of the inputs and on the outputs
only. -/
theorem specDigest_congr (P : Prims) (prevTXs : KV Transaction) (tx other : Transaction)
    (hvin : other.Vin.map (fun v => (v.Txid, v.Vout)) = tx.Vin.map (fun v => (v.Txid, v.Vout)))
    (hvout : other.Vout = tx.Vout) (i : Nat) :
    specDigest P prevTXs other i = specDigest P prevTXs tx i := by
  have htrim : other.TrimmedCopy.Vin = tx.TrimmedCopy.Vin := by
    have e : ∀ t : Transaction, t.TrimmedCopy.Vin
        = (t.Vin.map (fun v => (v.Txid, v.Vout))).map
            (fun p => (⟨p.1, p.2, [], []⟩ : TXInput)) := by
      intro t
      simp only [Transaction.TrimmedCopy, List.map_map]
      rfl
    rw [e other, e tx, hvin]
  have htrimo : other.TrimmedCopy.Vout = tx.TrimmedCopy.Vout := by
    simp only [Transaction.TrimmedCopy, hvout]
  have hget : (other.Vin.get? i).map (fun v => (v.Txid, v.Vout))
      = (tx.Vin.get? i).map (fun v => (v.Txid, v.Vout)) := by
    rw [List.get?_eq_getElem?, List.get?_eq_getElem?, ← List.getElem?_map, ← List.getElem?_map,
      hvin]
  unfold specDigest
  cases h1 : other.Vin.get? i with
  | none =>
    rw [h1] at hget
    cases h2 : tx.Vin.get? i with
    | none => rfl
    | some v => rw [h2] at hget; simp at hget
  | some w =>
    rw [h1] at hget
    cases h2 : tx.Vin.get? i with
    | none => rw [h2] at hget; simp at hget
    | some v =>
      rw [h2] at hget
      simp only [Option.map_some', Option.some.injEq, Prod.mk.injEq] at hget
      simp only [hget.1, hget.2, htrim, Transaction.Hash, htrimo]

theorem specVerify_all (P : Prims) (prevTXs : KV Transaction) (tx : Transaction) :
    ∀ (n i : Nat), (∀ j, j < n → ∃ b, inputVerifies P prevTXs tx (i + j) = some b) →
      ∃ b, specVerify P prevTXs tx i n = .ok b ∧
        (b = true ↔ ∀ j, j < n → inputVerifies P prevTXs tx (i + j) = some true) := by
  intro n
  induction n with
  | zero => intro i _; exact ⟨true, rfl, by simp⟩
  | succ n ih =>
    intro i h
    obtain ⟨b0, hb0⟩ := h 0 (by omega)
    rw [Nat.add_zero] at hb0
    rw [specVerify, hb0]
    cases b0 with
    | false =>
      refine ⟨false, rfl, ?_⟩
      constructor
      · intro e; cases e
      · intro hall
        have := hall 0 (by omega)
        rw [Nat.add_zero, hb0] at this
        cases this
    | true =>
      obtain ⟨b, hb, hiff⟩ := ih (i + 1) (fun j hj => by
        have := h (j + 1) (by omega)
        rwa [show i + (j + 1) = i + 1 + j by omega] at this)
      refine ⟨b, hb, ?_⟩
      rw [hiff]
      constructor
      · intro hall j hj
        cases j with
        | zero => exact hb0
        | succ j =>
          have := hall j (by omega)
          rwa [show i + 1 + j = i + (j + 1) by omega] at this
      · intro hall j hj
        have := hall (j + 1) (by omega)
        rwa [show i + (j + 1) = i + 1 + j by omega] at this

theorem specVerify_first_failure (P : Prims) (prevTXs : KV Transaction) (tx : Transaction) :
    ∀ (k n i : Nat), k < n →
      (∀ j, j < k → inputVerifies P prevTXs tx (i + j) = some true) →
      inputVerifies P prevTXs tx (i + k) = some false →
      specVerify P prevTXs tx i n = .ok false := by
  intro k
  induction k with
  | zero =>
    intro n i hk _ hf
    cases n with
    | zero => omega
    | succ n =>
      rw [Nat.add_zero] at hf
      rw [specVerify, hf]
  | succ k ih =>
    intro n i hk hpre hf
    cases n with
    | zero => omega
    | succ n =>
      have h0 := hpre 0 (by omega)
      rw [Nat.add_zero] at h0
      rw [specVerify, h0]
      apply ih n (i + 1) (by omega)
      · intro j hj
        have := hpre (j + 1) (by omega)
        rwa [show i + (j + 1) = i + 1 + j by omega] at this
      · rwa [show i + (k + 1) = i + 1 + k by omega] at hf

/-- C33: when the map resolves every input, `Verify` returns a boolean, and it is true
exactly when every input verifies: ECDSA verification succeeds for the key that is the two
halves of the input's `PubKey`, the per-input digest, and the `(r, s)` that are the two
halves of the input's `Signature`. `Verify` returns false at the first input that fails,
whatever comes after it, and true for a transaction with no input. -/
theorem Verify_is_conjunction (P : Prims) (prevTXs : KV Transaction) (tx : Transaction) :
    ((∀ i, i < tx.Vin.length → ∃ b, inputVerifies P prevTXs tx i = some b) →
        ∃ b, tx.Verify P prevTXs = .ok b ∧
          (b = true ↔ ∀ i, i < tx.Vin.length → inputVerifies P prevTXs tx i = some true)) ∧
      (∀ k, k < tx.Vin.length →
        (∀ j, j < k → inputVerifies P prevTXs tx j = some true) →
        inputVerifies P prevTXs tx k = some false → tx.Verify P prevTXs = .ok false) ∧
      (tx.Vin = [] → tx.Verify P prevTXs = .ok true) := by
  rw [Verify_eq_specVerify]
  refine ⟨?_, ?_, ?_⟩
  · intro hres
    have := specVerify_all P prevTXs tx tx.Vin.length 0
      (fun j hj => by rw [Nat.zero_add]; exact hres j hj)
    simpa using this
  · intro k hk hpre hf
    exact specVerify_first_failure P prevTXs tx k tx.Vin.length 0 hk
      (fun j hj => by rw [Nat.zero_add]; exact hpre j hj) (by rw [Nat.zero_add]; exact hf)
  · intro hnil
    rw [hnil]
    rfl

/-- C35: `Verify` checks, and `Sign` signs, for input `i` the per-input digest of the
specification: `Hash` of the trimmed copy with the `PubKey` of input `i` set to the
`PubKeyHash` of the output it references. The digest depends on the `Txid` and `Vout` of the
inputs and on the outputs only, not on a stored `Signature` or `PubKey` nor on the `ID`; so
the digests that `Verify` checks on the transaction that `Sign` returned are the digests
that `Sign` signed. -/
theorem Sign_Verify_same_digest (P : Prims) (prevTXs : KV Transaction) (tx : Transaction)
    (privKey : PrivateKey) :
    tx.Verify P prevTXs = specVerify P prevTXs tx 0 tx.Vin.length ∧
      tx.Sign P privKey prevTXs
        = (if tx.IsCoinbase then .ok (tx, true)
           else specSign P privKey prevTXs tx 0 tx.Vin.length tx) ∧
      (∀ (other : Transaction) (i : Nat),
        other.Vin.map (fun v => (v.Txid, v.Vout)) = tx.Vin.map (fun v => (v.Txid, v.Vout)) →
        other.Vout = tx.Vout → specDigest P prevTXs other i = specDigest P prevTXs tx i) ∧
      (∀ r, tx.Sign P privKey prevTXs = .ok r →
        ∀ i, specDigest P prevTXs r.1 i = specDigest P prevTXs tx i) := by
  refine ⟨Verify_eq_specVerify P prevTXs tx, Sign_eq_specSign P privKey prevTXs tx, ?_, ?_⟩
  · intro other i hvin hvout
    exact specDigest_congr P prevTXs tx other hvin hvout i
  · intro r hr i
    obtain ⟨_, hvout, hvin⟩ := Transaction.Sign_keeps P tx privKey prevTXs r hr
    apply specDigest_congr P prevTXs tx r.1 _ hvout
    have e : ∀ l : List TXInput, l.map (fun v => (v.Txid, v.Vout))
        = (l.map (fun i => (i.Txid, i.Vout, i.PubKey))).map (fun p => (p.1, p.2.1)) := by
      intro l
      rw [List.map_map]
      rfl
    rw [e r.1.Vin, e tx.Vin, hvin]

end Corpochain
